import Mathlib

/-!
# A first-fit free-list allocator (`mymemory_opt.c`)

Shallow embedding of `mymalloc_init`, `mymalloc`, `coalescing_free_blocks` and
`myfree`.

Modelling conventions
* Addresses and the values of `int` fields are mathematical integers (`Int`);
  `NULL` is `0`.  The embedding is exact for executions in which every value
  computed in `int` (the size fields, the page count and the product
  `num_of_page * 4096`) is below `2^31` (signed overflow is undefined in C).
  The reachable states keep the arena below `2^31` bytes, and the theorems
  about a call that may grow the arena assume `ArenaFits`, which keeps it so.
* The request size is an `unsigned int`: the arithmetic on it is done modulo
  `2^32` (`u32`), and the comparisons `head->size >= size` and
  `cur->next->size < size` are the unsigned comparisons C performs.
* `sizeof(node_t)` is 24 (LP64: `int`, padding, pointer, `int`, padding).
* Memory is a map from header addresses to headers, written field by field in
  the order of the source.  Distinct header addresses are taken to denote
  non-overlapping headers (true whenever block sizes are at least 24).
* `sbrk(inc)` returns the current program break and advances it by `inc`; the
  break is part of the state (`Heap.brk`).  `mymalloc_init`, `grow` and
  `mymalloc` are the code run with a provider that grants every request;
  `mymalloc_init_sbrk`, `grow_sbrk` and `mymalloc_sbrk` take the answer of the
  provider as a parameter, since the code uses the value of `sbrk` unchecked.
* Loops over the free list take a fuel argument; running out of fuel is `none`.
* `mymalloc` and `myfree` are the bodies run under the lock; the lock
  operations are added in `mymalloc_locked` and `myfree_locked`.
-/

namespace MyMem

/-! ## Data model -/

/-- Tag of a block on the free list (`#define FREE 0`). -/
def FREE : Int := 0

/-- Tag of a block handed out to a caller (`#define ALLOCATED 1`). -/
def ALLOCATED : Int := 1

/-- The block header `node_t`. -/
structure node_t where
  size : Int
  next : Int
  magic : Int

/-- The value `sizeof(node_t)`. -/
def sizeof_node_t : Int := 24

/-- Process state: the global `head`, the memory holding the headers, and the
program break moved by `sbrk`. -/
structure Heap where
  head : Int
  mem : Int → node_t
  brk : Int

/-- Conversion of an integer to `unsigned int`. -/
def u32 (x : Int) : Int := x % 4294967296

/-- The assignment `a->size = v`. -/
def setSize (m : Int → node_t) (a v : Int) : Int → node_t :=
  fun x => if x = a then { m x with size := v } else m x

/-- The assignment `a->next = v`. -/
def setNext (m : Int → node_t) (a v : Int) : Int → node_t :=
  fun x => if x = a then { m x with next := v } else m x

/-- The assignment `a->magic = v`. -/
def setMagic (m : Int → node_t) (a v : Int) : Int → node_t :=
  fun x => if x = a then { m x with magic := v } else m x

/-! ## `mymalloc_init` -/

/-- The function `mymalloc_init` (lines 31-39): returns the status and the new state. -/
def mymalloc_init (s : Heap) : Int × Heap :=
  let head := s.brk
  let brk := s.brk + 4096
  let m := setSize s.mem head (4096 - sizeof_node_t)
  let m := setNext m head 0
  let m := setMagic m head FREE
  (0, { head := head, mem := m, brk := brk })

/-! ## `mymalloc` -/

/-- Lines 60-65: add the header size and round up to a multiple of 8, in
`unsigned int` arithmetic. -/
def blockSize (size : Int) : Int :=
  let size := u32 (size + sizeof_node_t)
  if size ≠ size / 8 * 8 then u32 ((size / 8 + 1) * 8) else size

/-- Lines 67-99: split the head block. -/
def splitHead (s : Heap) (size : Int) : Int × Heap :=
  let new_head := s.head + size
  let m := setSize s.mem new_head ((s.mem s.head).size - size)
  let m := setNext m new_head (m s.head).next
  let m := setMagic m new_head FREE
  let new_allocated_head := s.head
  let m := setMagic m new_allocated_head ALLOCATED
  let m := setSize m new_allocated_head (size - sizeof_node_t)
  let m := setNext m new_allocated_head 0
  (new_allocated_head + sizeof_node_t, { s with head := new_head, mem := m })

/-- Lines 105-122: split the block `cur->next`. -/
def splitNext (s : Heap) (cur size : Int) : Int × Heap :=
  let new_node := (s.mem cur).next + size
  let m := setSize s.mem new_node ((s.mem (s.mem cur).next).size - size)
  let m := setNext m new_node (m (m cur).next).next
  let m := setMagic m new_node FREE
  let new_allocated_ptr := (m cur).next
  let m := setMagic m new_allocated_ptr ALLOCATED
  let m := setSize m new_allocated_ptr (size - sizeof_node_t)
  let m := setNext m cur new_node
  (new_allocated_ptr + sizeof_node_t, { s with mem := m })

/-- Lines 101-124: the first-fit scan.  The result `some none` means the loop
ended without finding a block. -/
def mymalloc_scan : Nat → Heap → Int → Int → Option (Option (Int × Heap))
  | 0, _, _, _ => none
  | fuel + 1, s, cur, size =>
    if (s.mem cur).next ≠ 0 then
      if u32 (s.mem (s.mem cur).next).size < size then
        mymalloc_scan fuel s (s.mem cur).next size
      else some (some (splitNext s cur size))
    else some none

/-- Lines 128-131: count the pages to request.  The counter and the product
`num_of_page * 4096` are `int` in the code and unbounded integers here: the two
agree as long as the product stays below `2^31`, that is for
`size + sizeof_node_t ≤ 2147479552`. -/
def num_of_page_loop : Nat → Int → Int → Option Int
  | 0, _, _ => none
  | fuel + 1, num_of_page, size =>
    if num_of_page * 4096 < size + sizeof_node_t then
      num_of_page_loop fuel (num_of_page + 1) size
    else some num_of_page

/-- Lines 133-148: take `num_of_page` pages from `sbrk` and carve them.  The
provider grants the region (`grow_sbrk` leaves its answer open), and the sizes
stored in the two headers and the argument of `sbrk` are unbounded integers,
which agree with the `int` values of the code below `2^31`. -/
def grow (s : Heap) (size num_of_page : Int) : Int × Heap :=
  let temp_new_head := s.brk
  let brk := s.brk + 4096 * num_of_page
  let new_node := temp_new_head + size
  let m := setSize s.mem new_node (4096 * num_of_page - size - sizeof_node_t)
  let m := setNext m new_node 0
  let m := setMagic m new_node FREE
  let m := setNext m s.head new_node
  let new_allocated_ptr := temp_new_head
  let m := setMagic m new_allocated_ptr ALLOCATED
  let m := setSize m new_allocated_ptr (size - sizeof_node_t)
  (new_allocated_ptr + sizeof_node_t, { s with mem := m, brk := brk })

/-- The function `mymalloc` (lines 51-149): returns the pointer and the new state. -/
def mymalloc (fuel : Nat) (s : Heap) (size : Int) : Option (Int × Heap) :=
  let size := blockSize size
  if u32 (s.mem s.head).size ≥ size then some (splitHead s size)
  else
    match mymalloc_scan fuel s s.head size with
    | none => none
    | some (some r) => some r
    | some none =>
      match num_of_page_loop fuel 1 size with
      | none => none
      | some num_of_page => some (grow s size num_of_page)

/-! ## `coalescing_free_blocks` -/

/-- Lines 192-199: the freed block absorbs `cur->next`, which starts at its end. -/
def mergeNext (s : Heap) (ptr cur : Int) : Heap :=
  let new_node := ptr
  let m := setMagic s.mem new_node FREE
  let m := setNext m new_node (m (m cur).next).next
  let m := setSize m new_node ((m ptr).size + sizeof_node_t + (m (m cur).next).size)
  let m := setNext m cur new_node
  { s with mem := m }

/-- Lines 187-190: the block `cur->next` ends where the freed block starts and absorbs it. -/
def mergePrev (s : Heap) (ptr cur : Int) : Heap :=
  let m := setSize s.mem (s.mem cur).next
    ((s.mem (s.mem cur).next).size + sizeof_node_t + (s.mem ptr).size)
  { s with mem := m }

/-- Lines 183-204: the scan of the free list for a neighbour of the freed block. -/
def coalescing_loop : Nat → Heap → Int → Int → Int → Int → Option (Int × Heap)
  | 0, _, _, _, _, _ => none
  | fuel + 1, s, ptr, start, end_, cur =>
    if (s.mem cur).next ≠ 0 then
      let cur_next_start := (s.mem cur).next
      let cur_next_end := (s.mem cur).next + sizeof_node_t + (s.mem (s.mem cur).next).size
      if cur_next_end = start then some (0, mergePrev s ptr cur)
      else if cur_next_start = end_ then some (0, mergeNext s ptr cur)
      else coalescing_loop fuel s ptr start end_ (s.mem cur).next
    else some (1, s)

/-- Lines 167-175: the freed block ends where the head starts and becomes the head. -/
def mergeHead (s : Heap) (ptr : Int) : Heap :=
  let new_head := ptr
  let m := setMagic s.mem new_head FREE
  let m := setNext m new_head (m s.head).next
  let m := setSize m new_head ((m ptr).size + sizeof_node_t + (m s.head).size)
  { s with head := new_head, mem := m }

/-- Lines 176-180: the head ends where the freed block starts and absorbs it. -/
def growHead (s : Heap) (ptr : Int) : Heap :=
  let m := setSize s.mem s.head ((s.mem s.head).size + (s.mem ptr).size + sizeof_node_t)
  { s with mem := m }

/-- The function `coalescing_free_blocks` (lines 157-205): status 0 when a merge
was done, 1 when nothing was merged. -/
def coalescing_free_blocks (fuel : Nat) (s : Heap) (ptr : Int) : Option (Int × Heap) :=
  let start := ptr
  let end_ := ptr + sizeof_node_t + (s.mem ptr).size
  let head_end := s.head + sizeof_node_t + (s.mem s.head).size
  if s.head = end_ then some (0, mergeHead s ptr)
  else if head_end = start then some (0, growHead s ptr)
  else coalescing_loop fuel s ptr start end_ s.head

/-! ## `myfree` -/

/-- Lines 236-242: put the freed block behind the head of the free list. -/
def insertSecond (s : Heap) (old_allocated_ptr : Int) : Heap :=
  let new_node := old_allocated_ptr
  let m := setSize s.mem new_node (s.mem old_allocated_ptr).size
  let m := setNext m new_node (m s.head).next
  let m := setMagic m new_node FREE
  let m := setNext m s.head new_node
  { s with mem := m }

/-- The function `myfree` (lines 213-248): returns the status and the new state. -/
def myfree (fuel : Nat) (s : Heap) (ptr : Int) : Option (Int × Heap) :=
  let old_allocated_ptr := ptr - sizeof_node_t
  if (s.mem old_allocated_ptr).magic ≠ ALLOCATED then some (1, s)
  else
    match coalescing_free_blocks fuel s old_allocated_ptr with
    | none => none
    | some (r, s1) =>
      if r = 0 then some (0, s1)
      else some (0, insertSecond s1 old_allocated_ptr)

/-! ## Specification vocabulary -/

/-- The smallest multiple of 8 that is at least `x`. -/
def roundup8 (x : Int) : Int := (x + 7) / 8 * 8

/-- The request `n` is a size whose header-adjusted, rounded value fits in an
`unsigned int`. -/
def NoOverflow (n : Int) : Prop := 0 ≤ n ∧ roundup8 (n + sizeof_node_t) < 4294967296

/-- End address of the block whose header is at `x`. -/
def blkEnd (m : Int → node_t) (x : Int) : Int := x + sizeof_node_t + (m x).size

/-- The links `next` lead from `a` through exactly the nodes of `l` to `b`. -/
def Seg (m : Int → node_t) : Int → List Int → Int → Prop
  | a, [], b => a = b
  | a, x :: xs, b => a = x ∧ x ≠ 0 ∧ Seg m (m x).next xs b

/-- The list `l` is the free list: the nodes from the global head to the
`NULL` link, in list order. -/
def FreeList (s : Heap) (l : List Int) : Prop := Seg s.mem s.head l 0 ∧ s.head ≠ 0

/-- Heap invariant.  `l` is the free list, `A` the set of headers of the live
allocated blocks, `b0` the program break before `mymalloc_init`, and `ok` a
property of every base address that `sbrk` has returned. -/
structure Inv (ok : Int → Prop) (b0 : Int) (s : Heap) (l : List Int) (A : Set Int) : Prop where
  chain : Seg s.mem s.head l 0
  head_ne : s.head ≠ 0
  nodup : l.Nodup
  free_ok : ∀ x ∈ l, (s.mem x).magic = FREE ∧ 0 ≤ (s.mem x).size
  alloc_ok : ∀ a ∈ A, (s.mem a).magic = ALLOCATED ∧ 0 ≤ (s.mem a).size
  sep : ∀ x y, (x ∈ l ∨ x ∈ A) → (y ∈ l ∨ y ∈ A) → x ≠ y →
    blkEnd s.mem x ≤ y ∨ blkEnd s.mem y ≤ x
  bounds : ∀ x, (x ∈ l ∨ x ∈ A) → b0 ≤ x ∧ blkEnd s.mem x ≤ s.brk
  based : ∀ x, (x ∈ l ∨ x ∈ A) → ∃ b, ok b ∧ (x - b) % 8 = 0
  lo : 0 < b0
  hi : s.brk ≤ b0 + 2147483647

/-- Heap states reached from `mymalloc_init` by valid calls, together with the
set `L` of live pointers (returned by `mymalloc` and not yet freed).
* `b0` is the program break at the time of `mymalloc_init`;
* every request satisfies `NoOverflow` and the arena stays below `2^31` bytes, so
  that no `int` size field overflows;
* `ok` holds of every base address returned by `sbrk`;
* `foreign` is another user of `sbrk` moving the break up between two calls, so
  that a later region need not be contiguous with the earlier ones. -/
inductive Reachable (ok : Int → Prop) (b0 : Int) : Heap → Set Int → Prop
  | init (hd : Int) (m : Int → node_t) : 0 < b0 → ok b0 →
      Reachable ok b0 (mymalloc_init ⟨hd, m, b0⟩).2 ∅
  | malloc {s : Heap} {L : Set Int} (fuel : Nat) (n p : Int) (s1 : Heap) :
      Reachable ok b0 s L → NoOverflow n → mymalloc fuel s n = some (p, s1) →
      (s1.brk ≠ s.brk → ok s.brk) → s1.brk ≤ b0 + 2147483647 →
      Reachable ok b0 s1 (insert p L)
  | free {s : Heap} {L : Set Int} (fuel : Nat) (p r : Int) (s1 : Heap) :
      Reachable ok b0 s L → p ∈ L → myfree fuel s p = some (r, s1) →
      Reachable ok b0 s1 (L \ {p})
  | foreign {s : Heap} {L : Set Int} (g : Int) :
      Reachable ok b0 s L → 0 ≤ g → s.brk + g ≤ b0 + 2147483647 →
      Reachable ok b0 { s with brk := s.brk + g } L

/-! ## Concrete heaps used in the examples -/

/-- The process before `mymalloc_init`: `head` is `NULL`, the break is at `b0`. -/
def boot (b0 : Int) : Heap := { head := 0, mem := fun _ => ⟨0, 0, 0⟩, brk := b0 }

/-- The freshly initialised heap with the first page at address 4096. -/
def fresh : Heap := (mymalloc_init (boot 4096)).2

/-- Statuses of `myfree(q); myfree(q)` after `p, q, r = mymalloc(8)` and `myfree(p)`. -/
def doubleFreeTrace : Option (Int × Int) := do
  let (p, s1) ← mymalloc 8 fresh 8
  let (q, s2) ← mymalloc 8 s1 8
  let (_, s3) ← mymalloc 8 s2 8
  let (_, s4) ← myfree 8 s3 p
  let (r1, s5) ← myfree 8 s4 q
  let (r2, _) ← myfree 8 s5 q
  pure (r1, r2)

/-- State after `mymalloc(n)` (the state itself if the call does not return). -/
def afterMalloc (s : Heap) (n : Int) : Heap := ((mymalloc 16 s n).getD (0, s)).2

/-- State after `myfree(p)` (the state itself if the call does not return). -/
def afterFree (s : Heap) (p : Int) : Heap := ((myfree 16 s p).getD (0, s)).2

/-- Blocks of payload 16, 8, 64, 8, 32, 8 and 3768 are allocated from the fresh
heap, which leaves a head of size 0. -/
def demoFull : Heap :=
  afterMalloc (afterMalloc (afterMalloc (afterMalloc (afterMalloc (afterMalloc
    (afterMalloc fresh 16) 8) 64) 8) 32) 8) 3768

/-- The blocks of payload 32, 64 and 16 are then freed, in this order: the free
list is the head (size 0) followed by nodes of size 16, 64 and 32. -/
def demoList : Heap := afterFree (afterFree (afterFree demoFull 4312) 4192) 4120

/-- The pointers live in `demoFull`. -/
def demoFullLive : Set Int :=
  insert 4400 (insert 4368 (insert 4312 (insert 4280 (insert 4192 (insert 4160
    (insert 4120 ∅))))))

/-- The pointers live in `demoList`. -/
def demoLive : Set Int := ((demoFullLive \ {4312}) \ {4192}) \ {4120}

/-- Two adjacent live blocks of payload 8 at the start of the fresh heap, followed
by the head. -/
def twoBlocks : Heap := afterMalloc (afterMalloc fresh 8) 8

/-- The calls `myfree(p); myfree(q)`: the two statuses, then the head and the
size and link of the head block. -/
def freeBoth (s : Heap) (p q : Int) : Option (Int × Int × Int × Int × Int) := do
  let (r1, s1) ← myfree 16 s p
  let (r2, s2) ← myfree 16 s1 q
  pure (r1, r2, s2.head, (s2.mem s2.head).size, (s2.mem s2.head).next)

/-- The library call `sbrk(inc)`.  With `ok = true` the provider extends the
break and returns the old break; with `ok = false` it cannot supply the bytes,
leaves the break alone and returns `(void *) -1`. -/
def sbrk (ok : Bool) (s : Heap) (inc : Int) : Int × Heap :=
  if ok then (s.brk, { s with brk := s.brk + inc }) else (-1, s)

/-- The function `mymalloc_init` (lines 31-39) with the answer of the provider
left open: the value of `sbrk(4096)` is stored in `head` and used unchecked. -/
def mymalloc_init_sbrk (ok : Bool) (s : Heap) : Int × Heap :=
  let r := sbrk ok s 4096
  let head := r.1
  let m := setSize r.2.mem head (4096 - sizeof_node_t)
  let m := setNext m head 0
  let m := setMagic m head FREE
  (0, { head := head, mem := m, brk := r.2.brk })

/-- After `p = mymalloc(8); q = mymalloc(8); myfree(p)` on the fresh heap the
free list is the head followed by the block of `p`; the trace gives the second
node before `mymalloc(5000)`, and after it the head, the second node, and the
link of the second node. -/
def growthDropTrace : Option (Int × Int × Int × Int) := do
  let (p, s1) ← mymalloc 8 fresh 8
  let (_, s2) ← mymalloc 8 s1 8
  let (_, s3) ← myfree 8 s2 p
  let (_, s4) ← mymalloc 8 s3 5000
  pure ((s3.mem s3.head).next, s4.head, (s4.mem s4.head).next,
    (s4.mem (s4.mem s4.head).next).next)

/-! ## The mutex -/

/-- The heap together with the state of the global `mutex` and three counters:
the calls of `pthread_mutex_lock` that returned, the calls of
`pthread_mutex_unlock`, and the heap mutations (memory writes, assignments to
`head`, calls of `sbrk`) made while the mutex was not held. -/
structure Guarded where
  heap : Heap
  held : Bool
  locks : Nat
  unlocks : Nat
  unguarded : Nat

/-- The call `pthread_mutex_lock(&mutex)`: it returns once the mutex is free;
on a mutex that is held it does not return (`none`). -/
def pthread_mutex_lock (g : Guarded) : Option Guarded :=
  if g.held then none else some { g with held := true, locks := g.locks + 1 }

/-- The call `pthread_mutex_unlock(&mutex)`. -/
def pthread_mutex_unlock (g : Guarded) : Guarded :=
  { g with held := false, unlocks := g.unlocks + 1 }

/-- A run of statements without lock operations that takes the heap to `h`. -/
def mutate (g : Guarded) (h : Heap) : Guarded :=
  { g with heap := h, unguarded := if g.held then g.unguarded else g.unguarded + 1 }

/-- The function `mymalloc` (lines 51-149) with its lock operations: the lock at
line 56 and the unlocks at lines 97, 121 and 147, before the three returns. -/
def mymalloc_locked (fuel : Nat) (g : Guarded) (size : Int) : Option (Int × Guarded) :=
  match pthread_mutex_lock g with
  | none => none
  | some g =>
    let size := blockSize size
    if u32 (g.heap.mem g.heap.head).size ≥ size then
      let r := splitHead g.heap size
      let g := mutate g r.2
      let g := pthread_mutex_unlock g
      some (r.1, g)
    else
      match mymalloc_scan fuel g.heap g.heap.head size with
      | none => none
      | some (some r) =>
        let g := mutate g r.2
        let g := pthread_mutex_unlock g
        some (r.1, g)
      | some none =>
        match num_of_page_loop fuel 1 size with
        | none => none
        | some num_of_page =>
          let r := grow g.heap size num_of_page
          let g := mutate g r.2
          let g := pthread_mutex_unlock g
          some (r.1, g)

/-- The function `myfree` (lines 213-248) with its lock operations: the lock at
line 217 and the unlocks at lines 222, 227 and 246, before the three returns. -/
def myfree_locked (fuel : Nat) (g : Guarded) (ptr : Int) : Option (Int × Guarded) :=
  match pthread_mutex_lock g with
  | none => none
  | some g =>
    let old_allocated_ptr := ptr - sizeof_node_t
    if (g.heap.mem old_allocated_ptr).magic ≠ ALLOCATED then
      let g := pthread_mutex_unlock g
      some (1, g)
    else
      match coalescing_free_blocks fuel g.heap old_allocated_ptr with
      | none => none
      | some (r, h1) =>
        if r = 0 then
          let g := mutate g h1
          let g := pthread_mutex_unlock g
          some (0, g)
        else
          let g := mutate g (insertSecond h1 old_allocated_ptr)
          let g := pthread_mutex_unlock g
          some (0, g)

/-- The example heap `demoList` with the mutex free and all counters at 0. -/
def demoGuarded : Guarded := ⟨demoList, false, 0, 0, 0⟩

/-! ## The regions obtained from `sbrk` and the tiling of the arena -/

/-- Heap states reached from `mymalloc_init` by valid calls, as in `Reachable`,
together with the list `R` of the regions `(base, end)` obtained from `sbrk`, in
the order in which they were obtained. -/
inductive ReachableFrom (b0 : Int) : Heap → Set Int → List (Int × Int) → Prop
  | init (hd : Int) (m : Int → node_t) : 0 < b0 →
      ReachableFrom b0 (mymalloc_init ⟨hd, m, b0⟩).2 ∅ [(b0, b0 + 4096)]
  | malloc {s : Heap} {L : Set Int} {R : List (Int × Int)} (fuel : Nat) (n p : Int)
      (s1 : Heap) :
      ReachableFrom b0 s L R → NoOverflow n → mymalloc fuel s n = some (p, s1) →
      s1.brk ≤ b0 + 2147483647 →
      ReachableFrom b0 s1 (insert p L) (if s1.brk = s.brk then R else R ++ [(s.brk, s1.brk)])
  | free {s : Heap} {L : Set Int} {R : List (Int × Int)} (fuel : Nat) (p r : Int)
      (s1 : Heap) :
      ReachableFrom b0 s L R → p ∈ L → myfree fuel s p = some (r, s1) →
      ReachableFrom b0 s1 (L \ {p}) R
  | foreign {s : Heap} {L : Set Int} {R : List (Int × Int)} (g : Int) :
      ReachableFrom b0 s L R → 0 ≤ g → s.brk + g ≤ b0 + 2147483647 →
      ReachableFrom b0 { s with brk := s.brk + g } L R

/-- The blocks with header in `G` tile the regions `R` exactly: each size counts
payload bytes only, no two blocks overlap, and an address lies in a region
exactly when it lies in a block. -/
structure Tiled (b0 : Int) (s : Heap) (R : List (Int × Int)) (G : Set Int) : Prop where
  nonneg : ∀ x ∈ G, 0 ≤ (s.mem x).size
  sep : ∀ x ∈ G, ∀ y ∈ G, x ≠ y → blkEnd s.mem x ≤ y ∨ blkEnd s.mem y ≤ x
  cover : ∀ a, (∃ r ∈ R, r.1 ≤ a ∧ a < r.2) ↔ ∃ x ∈ G, x ≤ a ∧ a < blkEnd s.mem x
  regs : ∀ r ∈ R, r.2 ≤ s.brk
  first : b0 ∈ G
  above : ∀ x ∈ G, b0 ≤ x

/-- The heap after `p = mymalloc(5000); myfree(p)` on the fresh heap: the request
does not fit the first page, the second region `[8192, 16384)` follows the first
one directly, and the freed block at its base is merged into the head. -/
def crossRegion : Heap := afterFree (afterMalloc fresh 5000) 8216

/-! ## `mymalloc` with the answer of the provider left open -/

/-- Lines 133-148 with the answer of the provider left open: the value of
`sbrk(4096 * num_of_page)` is used unchecked as the base of the new region. -/
def grow_sbrk (ok : Bool) (s : Heap) (size num_of_page : Int) : Int × Heap :=
  let r := sbrk ok s (4096 * num_of_page)
  let temp_new_head := r.1
  let new_node := temp_new_head + size
  let m := setSize r.2.mem new_node (4096 * num_of_page - size - sizeof_node_t)
  let m := setNext m new_node 0
  let m := setMagic m new_node FREE
  let m := setNext m r.2.head new_node
  let new_allocated_ptr := temp_new_head
  let m := setMagic m new_allocated_ptr ALLOCATED
  let m := setSize m new_allocated_ptr (size - sizeof_node_t)
  (new_allocated_ptr + sizeof_node_t, { r.2 with mem := m })

/-- The function `mymalloc` (lines 51-149) with the answer of the provider left
open; `sbrk` is called on the growth path only. -/
def mymalloc_sbrk (ok : Bool) (fuel : Nat) (s : Heap) (size : Int) : Option (Int × Heap) :=
  let size := blockSize size
  if u32 (s.mem s.head).size ≥ size then some (splitHead s size)
  else
    match mymalloc_scan fuel s s.head size with
    | none => none
    | some (some r) => some r
    | some none =>
      match num_of_page_loop fuel 1 size with
      | none => none
      | some num_of_page => some (grow_sbrk ok s size num_of_page)

/-- The request `n` keeps the arena below `2^31` bytes even when `mymalloc` has to
grow it by the pages that `n` needs.  Every value that the call computes in `int`
(the sizes stored in the headers, the product `num_of_page * 4096` of the page
loop and of the `sbrk` argument) is then below `2^31`, so that the unbounded
integers of the model agree with the `int` arithmetic of the code. -/
def ArenaFits (b0 : Int) (s : Heap) (n : Int) : Prop :=
  s.brk + roundup8 (n + sizeof_node_t) + sizeof_node_t + 4096 ≤ b0 + 2147483648

/-! ## Field-wise reading of a written memory -/

@[simp] theorem setSize_size (m : Int → node_t) (a v x : Int) :
    (setSize m a v x).size = if x = a then v else (m x).size := by
  unfold setSize; split <;> rfl

@[simp] theorem setSize_next (m : Int → node_t) (a v x : Int) :
    (setSize m a v x).next = (m x).next := by
  unfold setSize; split <;> rfl

@[simp] theorem setSize_magic (m : Int → node_t) (a v x : Int) :
    (setSize m a v x).magic = (m x).magic := by
  unfold setSize; split <;> rfl

@[simp] theorem setNext_size (m : Int → node_t) (a v x : Int) :
    (setNext m a v x).size = (m x).size := by
  unfold setNext; split <;> rfl

@[simp] theorem setNext_next (m : Int → node_t) (a v x : Int) :
    (setNext m a v x).next = if x = a then v else (m x).next := by
  unfold setNext; split <;> rfl

@[simp] theorem setNext_magic (m : Int → node_t) (a v x : Int) :
    (setNext m a v x).magic = (m x).magic := by
  unfold setNext; split <;> rfl

@[simp] theorem setMagic_size (m : Int → node_t) (a v x : Int) :
    (setMagic m a v x).size = (m x).size := by
  unfold setMagic; split <;> rfl

@[simp] theorem setMagic_next (m : Int → node_t) (a v x : Int) :
    (setMagic m a v x).next = (m x).next := by
  unfold setMagic; split <;> rfl

@[simp] theorem setMagic_magic (m : Int → node_t) (a v x : Int) :
    (setMagic m a v x).magic = if x = a then v else (m x).magic := by
  unfold setMagic; split <;> rfl

/-! ## The rounded request size -/

theorem blockSize_eq {n : Int} (h : NoOverflow n) :
    blockSize n = roundup8 (n + sizeof_node_t) := by
  unfold NoOverflow roundup8 sizeof_node_t at h
  unfold blockSize u32 roundup8 sizeof_node_t
  simp only []
  split_ifs <;> omega

theorem blockSize_bounds {n : Int} (h : NoOverflow n) :
    blockSize n % 8 = 0 ∧ n + 24 ≤ blockSize n ∧ blockSize n < n + 32 ∧
      blockSize n < 4294967296 := by
  rw [blockSize_eq h]
  unfold NoOverflow roundup8 sizeof_node_t at h
  unfold roundup8 sizeof_node_t
  omega

theorem u32_of_range {x : Int} (h0 : 0 ≤ x) (h1 : x < 4294967296) : u32 x = x := by
  unfold u32; omega

/-! ## List segments -/

theorem Seg_congr {m m1 : Int → node_t} :
    ∀ (l : List Int) (a b : Int), (∀ x ∈ l, (m1 x).next = (m x).next) →
      Seg m a l b → Seg m1 a l b
  | [], _, _, _, h => h
  | x :: xs, a, b, hm, h => by
    obtain ⟨h1, h2, h3⟩ := h
    refine ⟨h1, h2, ?_⟩
    rw [hm x (List.mem_cons_self x xs)]
    exact Seg_congr xs _ b (fun y hy => hm y (List.mem_cons_of_mem x hy)) h3

theorem Seg_append {m : Int → node_t} :
    ∀ (l1 l2 : List Int) (a c : Int),
      Seg m a (l1 ++ l2) c ↔ ∃ b, Seg m a l1 b ∧ Seg m b l2 c
  | [], l2, a, c => by
    constructor
    · intro h; exact ⟨a, rfl, h⟩
    · rintro ⟨b, h1, h2⟩
      have : a = b := h1
      subst this; exact h2
  | x :: xs, l2, a, c => by
    constructor
    · rintro ⟨h1, h2, h3⟩
      obtain ⟨b, h4, h5⟩ := (Seg_append xs l2 _ c).1 h3
      exact ⟨b, ⟨h1, h2, h4⟩, h5⟩
    · rintro ⟨b, ⟨h1, h2, h4⟩, h5⟩
      exact ⟨h1, h2, (Seg_append xs l2 _ c).2 ⟨b, h4, h5⟩⟩

theorem Seg_mem_ne_zero {m : Int → node_t} :
    ∀ (l : List Int) (a b : Int), Seg m a l b → ∀ x ∈ l, x ≠ 0
  | [], _, _, _, _, hx => by cases hx
  | y :: ys, a, b, h, x, hx => by
    obtain ⟨_, h2, h3⟩ := h
    rcases List.mem_cons.1 hx with rfl | hx
    · exact h2
    · exact Seg_mem_ne_zero ys _ b h3 x hx

/-- Either no element of a list has a property, or there is a first one. -/
theorem first_split (P : Int → Prop) :
    ∀ l : List Int, (∀ z ∈ l, ¬ P z) ∨
      ∃ pre y post, l = pre ++ y :: post ∧ (∀ z ∈ pre, ¬ P z) ∧ P y
  | [] => Or.inl (fun _ hz => by cases hz)
  | x :: xs => by
    by_cases hx : P x
    · exact Or.inr ⟨[], x, xs, rfl, (fun _ hz => by cases hz), hx⟩
    · rcases first_split P xs with h | ⟨pre, y, post, h1, h2, h3⟩
      · left
        intro z hz
        rcases List.mem_cons.1 hz with rfl | hz
        · exact hx
        · exact h z hz
      · right
        refine ⟨x :: pre, y, post, by rw [h1]; rfl, ?_, h3⟩
        intro z hz
        rcases List.mem_cons.1 hz with rfl | hz
        · exact hx
        · exact h2 z hz

/-! ## The two list scans -/

theorem mymalloc_scan_none (s : Heap) (B : Int) :
    ∀ (xs : List Int) (cur : Int) (fuel : Nat),
      Seg s.mem (s.mem cur).next xs 0 → (∀ z ∈ xs, u32 (s.mem z).size < B) →
      xs.length < fuel → mymalloc_scan fuel s cur B = some none
  | [], cur, fuel, h, _, hf => by
    obtain ⟨k, rfl⟩ : ∃ k, fuel = k + 1 := ⟨fuel - 1, by simp at hf; omega⟩
    have h0 : (s.mem cur).next = 0 := h
    simp [mymalloc_scan, h0]
  | x :: xs, cur, fuel, h, hs, hf => by
    obtain ⟨k, rfl⟩ : ∃ k, fuel = k + 1 := ⟨fuel - 1, by simp at hf; omega⟩
    obtain ⟨h1, h2, h3⟩ := h
    have hx := hs x (List.mem_cons_self x xs)
    rw [mymalloc_scan]
    rw [h1]
    simp only [ne_eq, h2, not_false_eq_true, if_true, hx]
    exact mymalloc_scan_none s B xs x k h3
      (fun z hz => hs z (List.mem_cons_of_mem x hz)) (by simp at hf; omega)

theorem mymalloc_scan_found (s : Heap) (B y : Int) (post : List Int) (e : Int) :
    ∀ (pre : List Int) (cur : Int) (fuel : Nat),
      Seg s.mem (s.mem cur).next (pre ++ y :: post) e →
      (∀ z ∈ pre, u32 (s.mem z).size < B) → ¬ u32 (s.mem y).size < B →
      pre.length < fuel →
      ∃ q c, cur :: pre = q ++ [c] ∧ (s.mem c).next = y ∧
        mymalloc_scan fuel s cur B = some (some (splitNext s c B))
  | [], cur, fuel, h, _, hy, hf => by
    obtain ⟨k, rfl⟩ : ∃ k, fuel = k + 1 := ⟨fuel - 1, by simp at hf; omega⟩
    obtain ⟨h1, h2, _⟩ := h
    refine ⟨[], cur, rfl, h1, ?_⟩
    rw [mymalloc_scan, h1]
    simp only [ne_eq, h2, not_false_eq_true, if_true, hy, if_false]
  | x :: xs, cur, fuel, h, hs, hy, hf => by
    obtain ⟨k, rfl⟩ : ∃ k, fuel = k + 1 := ⟨fuel - 1, by simp at hf; omega⟩
    obtain ⟨h1, h2, h3⟩ := h
    have hx := hs x (List.mem_cons_self x xs)
    obtain ⟨q, c, hq, hc, hr⟩ := mymalloc_scan_found s B y post e xs x k h3
      (fun z hz => hs z (List.mem_cons_of_mem x hz)) hy (by simp at hf; omega)
    refine ⟨cur :: q, c, by rw [hq]; rfl, hc, ?_⟩
    rw [mymalloc_scan, h1]
    simp only [ne_eq, h2, not_false_eq_true, if_true, hx]
    exact hr

theorem num_of_page_loop_spec (size : Int) :
    ∀ (fuel : Nat) (k : Int), 1 ≤ k → (k - 1) * 4096 < size + sizeof_node_t →
      size + sizeof_node_t ≤ (k + fuel) * 4096 - 4096 →
      ∃ j, num_of_page_loop fuel k size = some j ∧ 1 ≤ j ∧
        size + sizeof_node_t ≤ j * 4096 ∧
        (1 < j → (j - 1) * 4096 < size + sizeof_node_t)
  | 0, k, hk, h1, h2 => by
    exfalso; simp at h2; omega
  | fuel + 1, k, hk, h1, h2 => by
    rw [num_of_page_loop]
    split_ifs with h
    · apply num_of_page_loop_spec size fuel (k + 1) (by omega) (by simpa using h)
      push_cast at h2 ⊢
      linarith
    · exact ⟨k, rfl, hk, by omega, fun _ => h1⟩

/-! ## Fuel -/

theorem mymalloc_scan_mono (s : Heap) (B : Int) :
    ∀ (fuel : Nat) (cur : Int) (r : Option (Int × Heap)) (fuel1 : Nat), fuel ≤ fuel1 →
      mymalloc_scan fuel s cur B = some r → mymalloc_scan fuel1 s cur B = some r
  | 0, _, _, _, _, h => by simp [mymalloc_scan] at h
  | fuel + 1, cur, r, fuel1, hf, h => by
    obtain ⟨k, rfl⟩ : ∃ k, fuel1 = k + 1 := ⟨fuel1 - 1, by omega⟩
    rw [mymalloc_scan] at h ⊢
    split_ifs at h ⊢ with h1 h2
    · exact mymalloc_scan_mono s B fuel _ r k (by omega) h
    · exact h
    · exact h

theorem num_of_page_loop_mono (size : Int) :
    ∀ (fuel : Nat) (k j : Int) (fuel1 : Nat), fuel ≤ fuel1 →
      num_of_page_loop fuel k size = some j → num_of_page_loop fuel1 k size = some j
  | 0, _, _, _, _, h => by simp [num_of_page_loop] at h
  | fuel + 1, k, j, fuel1, hf, h => by
    obtain ⟨i, rfl⟩ : ∃ i, fuel1 = i + 1 := ⟨fuel1 - 1, by omega⟩
    rw [num_of_page_loop] at h ⊢
    split_ifs at h ⊢ with h1
    · exact num_of_page_loop_mono size fuel _ j i (by omega) h
    · exact h

theorem coalescing_loop_mono (s : Heap) (ptr start end_ : Int) :
    ∀ (fuel : Nat) (cur : Int) (r : Int × Heap) (fuel1 : Nat), fuel ≤ fuel1 →
      coalescing_loop fuel s ptr start end_ cur = some r →
      coalescing_loop fuel1 s ptr start end_ cur = some r
  | 0, _, _, _, _, h => by simp [coalescing_loop] at h
  | fuel + 1, cur, r, fuel1, hf, h => by
    obtain ⟨k, rfl⟩ : ∃ k, fuel1 = k + 1 := ⟨fuel1 - 1, by omega⟩
    rw [coalescing_loop] at h ⊢
    simp only [] at h ⊢
    split_ifs at h ⊢ with h1 h2 h3
    · exact h
    · exact h
    · exact coalescing_loop_mono s ptr start end_ fuel _ r k (by omega) h
    · exact h

theorem mymalloc_mono {fuel fuel1 : Nat} {s : Heap} {n : Int} {r : Int × Heap}
    (hf : fuel ≤ fuel1) (h : mymalloc fuel s n = some r) : mymalloc fuel1 s n = some r := by
  unfold mymalloc at h ⊢
  simp only [] at h ⊢
  split_ifs at h ⊢ with h1
  · exact h
  · cases h2 : mymalloc_scan fuel s s.head (blockSize n) with
    | none => rw [h2] at h; simp at h
    | some o =>
      rw [mymalloc_scan_mono s _ fuel _ o fuel1 hf h2]
      rw [h2] at h
      cases o with
      | some r1 => exact h
      | none =>
        simp only [] at h ⊢
        cases h3 : num_of_page_loop fuel 1 (blockSize n) with
        | none => rw [h3] at h; simp at h
        | some j =>
          rw [num_of_page_loop_mono _ fuel _ j fuel1 hf h3]
          rw [h3] at h
          exact h

theorem coalescing_free_blocks_mono {fuel fuel1 : Nat} {s : Heap} {ptr : Int} {r : Int × Heap}
    (hf : fuel ≤ fuel1) (h : coalescing_free_blocks fuel s ptr = some r) :
    coalescing_free_blocks fuel1 s ptr = some r := by
  unfold coalescing_free_blocks at h ⊢
  simp only [] at h ⊢
  split_ifs at h ⊢ with h1 h2
  · exact h
  · exact h
  · exact coalescing_loop_mono s _ _ _ fuel _ r fuel1 hf h

theorem myfree_mono {fuel fuel1 : Nat} {s : Heap} {p : Int} {r : Int × Heap}
    (hf : fuel ≤ fuel1) (h : myfree fuel s p = some r) : myfree fuel1 s p = some r := by
  unfold myfree at h ⊢
  simp only [] at h ⊢
  split_ifs at h ⊢ with h1
  · exact h
  · cases h2 : coalescing_free_blocks fuel s (p - sizeof_node_t) with
    | none => rw [h2] at h; simp at h
    | some o =>
      rw [coalescing_free_blocks_mono hf h2]
      rw [h2] at h
      exact h

/-! ## The scan of `coalescing_free_blocks` -/

theorem coalescing_loop_none (s : Heap) (ptr start end_ : Int) :
    ∀ (xs : List Int) (cur : Int) (fuel : Nat),
      Seg s.mem (s.mem cur).next xs 0 →
      (∀ z ∈ xs, ¬ (z + sizeof_node_t + (s.mem z).size = start) ∧ ¬ (z = end_)) →
      xs.length < fuel → coalescing_loop fuel s ptr start end_ cur = some (1, s)
  | [], cur, fuel, h, _, hf => by
    obtain ⟨k, rfl⟩ : ∃ k, fuel = k + 1 := ⟨fuel - 1, by simp at hf; omega⟩
    have h0 : (s.mem cur).next = 0 := h
    simp [coalescing_loop, h0]
  | x :: xs, cur, fuel, h, hs, hf => by
    obtain ⟨k, rfl⟩ : ∃ k, fuel = k + 1 := ⟨fuel - 1, by simp at hf; omega⟩
    obtain ⟨h1, h2, h3⟩ := h
    obtain ⟨hx1, hx2⟩ := hs x (List.mem_cons_self x xs)
    rw [coalescing_loop, h1]
    simp only [ne_eq, h2, not_false_eq_true, if_true, hx1, hx2, if_false]
    exact coalescing_loop_none s ptr start end_ xs x k h3
      (fun z hz => hs z (List.mem_cons_of_mem x hz)) (by simp at hf; omega)

theorem coalescing_loop_found (s : Heap) (ptr start end_ y : Int) (post : List Int) (e : Int) :
    ∀ (pre : List Int) (cur : Int) (fuel : Nat),
      Seg s.mem (s.mem cur).next (pre ++ y :: post) e →
      (∀ z ∈ pre, ¬ (z + sizeof_node_t + (s.mem z).size = start) ∧ ¬ (z = end_)) →
      (y + sizeof_node_t + (s.mem y).size = start ∨ y = end_) →
      pre.length < fuel →
      ∃ q c, cur :: pre = q ++ [c] ∧ (s.mem c).next = y ∧
        coalescing_loop fuel s ptr start end_ cur =
          some (0, if y + sizeof_node_t + (s.mem y).size = start then mergePrev s ptr c
            else mergeNext s ptr c)
  | [], cur, fuel, h, _, hy, hf => by
    obtain ⟨k, rfl⟩ : ∃ k, fuel = k + 1 := ⟨fuel - 1, by simp at hf; omega⟩
    obtain ⟨h1, h2, _⟩ := h
    refine ⟨[], cur, rfl, h1, ?_⟩
    rw [coalescing_loop, h1]
    simp only [ne_eq, h2, not_false_eq_true, if_true]
    split_ifs with h3 h4
    · rfl
    · rfl
    · exact absurd hy (by tauto)
  | x :: xs, cur, fuel, h, hs, hy, hf => by
    obtain ⟨k, rfl⟩ : ∃ k, fuel = k + 1 := ⟨fuel - 1, by simp at hf; omega⟩
    obtain ⟨h1, h2, h3⟩ := h
    obtain ⟨hx1, hx2⟩ := hs x (List.mem_cons_self x xs)
    obtain ⟨q, c, hq, hc, hr⟩ := coalescing_loop_found s ptr start end_ y post e xs x k h3
      (fun z hz => hs z (List.mem_cons_of_mem x hz)) hy (by simp at hf; omega)
    refine ⟨cur :: q, c, by rw [hq]; rfl, hc, ?_⟩
    rw [coalescing_loop, h1]
    simp only [ne_eq, h2, not_false_eq_true, if_true, hx1, hx2, if_false]
    exact hr

/-! ## The fields written by each transformation -/

theorem splitHead_size (s : Heap) (B x : Int) :
    ((splitHead s B).2.mem x).size = if x = s.head then B - 24 else
      if x = s.head + B then (s.mem s.head).size - B else (s.mem x).size := by
  simp [splitHead, sizeof_node_t]

theorem splitHead_magic (s : Heap) (B x : Int) :
    ((splitHead s B).2.mem x).magic = if x = s.head then ALLOCATED else
      if x = s.head + B then FREE else (s.mem x).magic := by
  simp [splitHead, sizeof_node_t]

theorem splitHead_next (s : Heap) (B x : Int) :
    ((splitHead s B).2.mem x).next = if x = s.head then 0 else
      if x = s.head + B then (s.mem s.head).next else (s.mem x).next := by
  simp [splitHead, sizeof_node_t]

theorem splitNext_size (s : Heap) (c B x : Int) (hc : c ≠ (s.mem c).next + B) :
    ((splitNext s c B).2.mem x).size = if x = (s.mem c).next then B - 24 else
      if x = (s.mem c).next + B then (s.mem (s.mem c).next).size - B else (s.mem x).size := by
  simp [splitNext, sizeof_node_t, hc]

theorem splitNext_magic (s : Heap) (c B x : Int) (hc : c ≠ (s.mem c).next + B) :
    ((splitNext s c B).2.mem x).magic = if x = (s.mem c).next then ALLOCATED else
      if x = (s.mem c).next + B then FREE else (s.mem x).magic := by
  simp [splitNext, sizeof_node_t, hc]

theorem splitNext_next (s : Heap) (c B x : Int) :
    ((splitNext s c B).2.mem x).next = if x = c then (s.mem c).next + B else
      if x = (s.mem c).next + B then (s.mem (s.mem c).next).next else (s.mem x).next := by
  simp [splitNext, sizeof_node_t]

theorem grow_size (s : Heap) (B k x : Int) :
    ((grow s B k).2.mem x).size = if x = s.brk then B - 24 else
      if x = s.brk + B then 4096 * k - B - 24 else (s.mem x).size := by
  simp [grow, sizeof_node_t]

theorem grow_magic (s : Heap) (B k x : Int) :
    ((grow s B k).2.mem x).magic = if x = s.brk then ALLOCATED else
      if x = s.brk + B then FREE else (s.mem x).magic := by
  simp [grow, sizeof_node_t]

theorem grow_next (s : Heap) (B k x : Int) :
    ((grow s B k).2.mem x).next = if x = s.head then s.brk + B else
      if x = s.brk + B then 0 else (s.mem x).next := by
  simp [grow, sizeof_node_t]

theorem mergeHead_size (s : Heap) (F x : Int) :
    ((mergeHead s F).mem x).size =
      if x = F then (s.mem F).size + 24 + (s.mem s.head).size else (s.mem x).size := by
  simp [mergeHead, sizeof_node_t]

theorem mergeHead_magic (s : Heap) (F x : Int) :
    ((mergeHead s F).mem x).magic = if x = F then FREE else (s.mem x).magic := by
  simp [mergeHead, sizeof_node_t]

theorem mergeHead_next (s : Heap) (F x : Int) :
    ((mergeHead s F).mem x).next = if x = F then (s.mem s.head).next else (s.mem x).next := by
  simp [mergeHead, sizeof_node_t]

theorem growHead_size (s : Heap) (F x : Int) :
    ((growHead s F).mem x).size =
      if x = s.head then (s.mem s.head).size + 24 + (s.mem F).size else (s.mem x).size := by
  simp only [growHead, sizeof_node_t, setSize_size]
  split_ifs <;> ring

theorem mergePrev_size (s : Heap) (F c x : Int) :
    ((mergePrev s F c).mem x).size =
      if x = (s.mem c).next then (s.mem (s.mem c).next).size + 24 + (s.mem F).size
      else (s.mem x).size := by
  simp [mergePrev, sizeof_node_t]

theorem mergeNext_size (s : Heap) (F c x : Int) (hc : c ≠ F) :
    ((mergeNext s F c).mem x).size =
      if x = F then (s.mem F).size + 24 + (s.mem (s.mem c).next).size else (s.mem x).size := by
  simp [mergeNext, sizeof_node_t, hc]

theorem mergeNext_magic (s : Heap) (F c x : Int) :
    ((mergeNext s F c).mem x).magic = if x = F then FREE else (s.mem x).magic := by
  simp [mergeNext, sizeof_node_t]

theorem mergeNext_next (s : Heap) (F c x : Int) :
    ((mergeNext s F c).mem x).next = if x = c then F else
      if x = F then (s.mem (s.mem c).next).next else (s.mem x).next := by
  simp [mergeNext, sizeof_node_t]

theorem insertSecond_size (s : Heap) (F x : Int) :
    ((insertSecond s F).mem x).size = (s.mem x).size := by
  simp only [insertSecond, setNext_size, setMagic_size, setSize_size]
  split_ifs with h
  · rw [h]
  · rfl

theorem insertSecond_magic (s : Heap) (F x : Int) :
    ((insertSecond s F).mem x).magic = if x = F then FREE else (s.mem x).magic := by
  simp [insertSecond, sizeof_node_t]

theorem insertSecond_next (s : Heap) (F x : Int) :
    ((insertSecond s F).mem x).next = if x = s.head then F else
      if x = F then (s.mem s.head).next else (s.mem x).next := by
  simp [insertSecond, sizeof_node_t]

/-! ## The heap invariant under the elementary transformations -/

theorem Inv.cons {ok : Int → Prop} {b0 : Int} {s : Heap} {l : List Int} {A : Set Int}
    (I : Inv ok b0 s l A) :
    ∃ rest, l = s.head :: rest ∧ Seg s.mem (s.mem s.head).next rest 0 := by
  have h := I.chain
  cases l with
  | nil => exact absurd h I.head_ne
  | cons x xs =>
    obtain ⟨h1, _, h3⟩ := h
    exact ⟨xs, by rw [h1], by rw [h1]; exact h3⟩

/-- Facts about one block of a valid heap, in the form linear arithmetic uses. -/
theorem Inv.blk {ok : Int → Prop} {b0 : Int} {s : Heap} {l : List Int} {A : Set Int}
    (I : Inv ok b0 s l A) {x : Int} (hx : x ∈ l ∨ x ∈ A) :
    0 ≤ (s.mem x).size ∧ b0 ≤ x ∧ x + 24 + (s.mem x).size ≤ s.brk := by
  have hb := I.bounds x hx
  unfold blkEnd sizeof_node_t at hb
  refine ⟨?_, hb.1, hb.2⟩
  rcases hx with hx | hx
  · exact (I.free_ok x hx).2
  · exact (I.alloc_ok x hx).2

theorem Inv.apart {ok : Int → Prop} {b0 : Int} {s : Heap} {l : List Int} {A : Set Int}
    (I : Inv ok b0 s l A) {x y : Int} (hx : x ∈ l ∨ x ∈ A) (hy : y ∈ l ∨ y ∈ A) (h : x ≠ y) :
    x + 24 + (s.mem x).size ≤ y ∨ y + 24 + (s.mem y).size ≤ x := by
  have := I.sep x y hx hy h
  unfold blkEnd sizeof_node_t at this
  exact this

theorem Inv.not_both {ok : Int → Prop} {b0 : Int} {s : Heap} {l : List Int} {A : Set Int}
    (I : Inv ok b0 s l A) {x : Int} (hx : x ∈ l) : x ∉ A := by
  intro ha
  have h1 := (I.free_ok x hx).1
  have h2 := (I.alloc_ok x ha).1
  rw [h1] at h2
  exact absurd h2 (by decide)

/-- Splitting the free block `y`: the first `B` bytes become an allocated block,
the rest a free block at `y + B`. -/
theorem split_inv {ok : Int → Prop} {b0 : Int} {s s1 : Heap} {l l1 : List Int} {A : Set Int}
    {B y : Int} (I : Inv ok b0 s l A) (hy : y ∈ l) (hB8 : B % 8 = 0) (hB : 24 ≤ B)
    (hfit : B ≤ (s.mem y).size)
    (hsz : ∀ x, (s1.mem x).size = if x = y then B - 24 else
      if x = y + B then (s.mem y).size - B else (s.mem x).size)
    (hmg : ∀ x, (s1.mem x).magic = if x = y then ALLOCATED else
      if x = y + B then FREE else (s.mem x).magic)
    (hbrk : s1.brk = s.brk)
    (hchain : Seg s1.mem s1.head l1 0) (hhead : s1.head ≠ 0) (hnodup : l1.Nodup)
    (hmem : ∀ x, x ∈ l1 ↔ x = y + B ∨ (x ∈ l ∧ x ≠ y)) :
    Inv ok b0 s1 l1 (insert y A) := by
  have hyl : y ∈ l ∨ y ∈ A := Or.inl hy
  obtain ⟨hd0, hd1, hd2⟩ := I.blk hyl
  have key : ∀ x, (x ∈ l ∨ x ∈ A) → x ≠ y → x ≠ y + B ∧
      0 ≤ (s.mem x).size ∧ b0 ≤ x ∧ x + 24 + (s.mem x).size ≤ s.brk ∧
      (x + 24 + (s.mem x).size ≤ y ∨ y + 24 + (s.mem y).size ≤ x) := by
    intro x hx hne
    obtain ⟨a, b, c⟩ := I.blk hx
    have d := I.apart hx hyl hne
    refine ⟨?_, a, b, c, d⟩
    omega
  have cls : ∀ x, (x ∈ l1 ∨ x ∈ insert y A) →
      x = y + B ∨ x = y ∨ ((x ∈ l ∨ x ∈ A) ∧ x ≠ y) := by
    intro x hx
    rcases hx with hx | hx
    · rcases (hmem x).1 hx with h | ⟨h1, h2⟩
      · exact Or.inl h
      · exact Or.inr (Or.inr ⟨Or.inl h1, h2⟩)
    · rcases hx with h | hx
      · exact Or.inr (Or.inl h)
      · refine Or.inr (Or.inr ⟨Or.inr hx, ?_⟩)
        rintro rfl
        exact I.not_both hy hx
  constructor
  · exact hchain
  · exact hhead
  · exact hnodup
  · intro x hx
    rw [hsz x, hmg x]
    rcases (hmem x).1 hx with h | ⟨h1, h2⟩
    · subst h
      have : ¬ (y + B = y) := by omega
      simp only [this, if_false, if_true]
      exact ⟨trivial, by omega⟩
    · obtain ⟨k1, k2, _⟩ := key x (Or.inl h1) h2
      simp only [h2, k1, if_false]
      exact ⟨(I.free_ok x h1).1, k2⟩
  · intro x hx
    rw [hsz x, hmg x]
    rcases hx with h | hx
    · subst h
      simp only [if_true]
      exact ⟨trivial, by omega⟩
    · have h2 : x ≠ y := by
        rintro rfl
        exact I.not_both hy hx
      obtain ⟨k1, k2, _⟩ := key x (Or.inr hx) h2
      simp only [h2, k1, if_false]
      exact ⟨(I.alloc_ok x hx).1, k2⟩
  · intro x z hx hz hne
    unfold blkEnd sizeof_node_t
    rw [hsz x, hsz z]
    rcases cls x hx with rfl | rfl | ⟨hx1, hx2⟩ <;>
      rcases cls z hz with rfl | rfl | ⟨hz1, hz2⟩
    · exact absurd rfl hne
    · split_ifs <;> omega
    · obtain ⟨k1, k2, k3, k4, k5⟩ := key z hz1 hz2
      split_ifs <;> omega
    · split_ifs <;> omega
    · exact absurd rfl hne
    · obtain ⟨k1, k2, k3, k4, k5⟩ := key z hz1 hz2
      split_ifs <;> omega
    · obtain ⟨k1, k2, k3, k4, k5⟩ := key x hx1 hx2
      split_ifs <;> omega
    · obtain ⟨k1, k2, k3, k4, k5⟩ := key x hx1 hx2
      split_ifs <;> omega
    · obtain ⟨k1, k2, k3, k4, k5⟩ := key x hx1 hx2
      obtain ⟨j1, j2, j3, j4, j5⟩ := key z hz1 hz2
      have := I.apart hx1 hz1 hne
      split_ifs <;> omega
  · intro x hx
    unfold blkEnd sizeof_node_t
    rw [hsz x, hbrk]
    rcases cls x hx with rfl | rfl | ⟨hx1, hx2⟩
    · split_ifs <;> omega
    · split_ifs <;> omega
    · obtain ⟨k1, k2, k3, k4, k5⟩ := key x hx1 hx2
      split_ifs <;> omega
  · intro x hx
    rcases cls x hx with rfl | rfl | ⟨hx1, hx2⟩
    · obtain ⟨b, hb1, hb2⟩ := I.based y hyl
      exact ⟨b, hb1, by omega⟩
    · exact I.based _ hyl
    · exact I.based x hx1
  · exact I.lo
  · rw [hbrk]; exact I.hi

/-- The freed block `F` absorbs the free block `Y` that starts at its end and
takes its place on the free list. -/
theorem merge_fwd_inv {ok : Int → Prop} {b0 : Int} {s s1 : Heap} {l l1 : List Int}
    {A : Set Int} {F Y : Int} (I : Inv ok b0 s l A) (hF : F ∈ A) (hY : Y ∈ l)
    (hadj : F + 24 + (s.mem F).size = Y)
    (hsz : ∀ x, (s1.mem x).size =
      if x = F then (s.mem F).size + 24 + (s.mem Y).size else (s.mem x).size)
    (hmg : ∀ x, (s1.mem x).magic = if x = F then FREE else (s.mem x).magic)
    (hbrk : s1.brk = s.brk)
    (hchain : Seg s1.mem s1.head l1 0) (hhead : s1.head ≠ 0) (hnodup : l1.Nodup)
    (hmem : ∀ x, x ∈ l1 ↔ x = F ∨ (x ∈ l ∧ x ≠ Y)) :
    Inv ok b0 s1 l1 (A \ {F}) := by
  have hFl : F ∈ l ∨ F ∈ A := Or.inr hF
  have hYl : Y ∈ l ∨ Y ∈ A := Or.inl hY
  obtain ⟨f0, f1, f2⟩ := I.blk hFl
  obtain ⟨y0, y1, y2⟩ := I.blk hYl
  have hFY : F ≠ Y := by omega
  have key : ∀ x, (x ∈ l ∨ x ∈ A) → x ≠ F → x ≠ Y →
      0 ≤ (s.mem x).size ∧ b0 ≤ x ∧ x + 24 + (s.mem x).size ≤ s.brk ∧
      (x + 24 + (s.mem x).size ≤ F ∨ F + 24 + (s.mem F).size ≤ x) ∧
      (x + 24 + (s.mem x).size ≤ Y ∨ Y + 24 + (s.mem Y).size ≤ x) := by
    intro x hx h1 h2
    obtain ⟨a, b, c⟩ := I.blk hx
    exact ⟨a, b, c, I.apart hx hFl h1, I.apart hx hYl h2⟩
  have cls : ∀ x, (x ∈ l1 ∨ x ∈ A \ {F}) →
      x = F ∨ ((x ∈ l ∨ x ∈ A) ∧ x ≠ F ∧ x ≠ Y) := by
    intro x hx
    rcases hx with hx | ⟨hx, hx2⟩
    · rcases (hmem x).1 hx with h | ⟨h1, h2⟩
      · exact Or.inl h
      · refine Or.inr ⟨Or.inl h1, ?_, h2⟩
        rintro rfl
        exact I.not_both h1 hF
    · refine Or.inr ⟨Or.inr hx, hx2, ?_⟩
      rintro rfl
      exact I.not_both hY hx
  constructor
  · exact hchain
  · exact hhead
  · exact hnodup
  · intro x hx
    rw [hsz x, hmg x]
    rcases cls x (Or.inl hx) with rfl | ⟨hx1, hx2, hx3⟩
    · simp only [if_true]
      exact ⟨trivial, by omega⟩
    · simp only [hx2, if_false]
      rcases (hmem x).1 hx with h | ⟨h1, _⟩
      · exact absurd h hx2
      · exact I.free_ok x h1
  · intro x hx
    rw [hsz x, hmg x]
    have hx2 : x ≠ F := hx.2
    simp only [hx2, if_false]
    exact I.alloc_ok x hx.1
  · intro x z hx hz hne
    unfold blkEnd sizeof_node_t
    rw [hsz x, hsz z]
    rcases cls x hx with rfl | ⟨hx1, hx2, hx3⟩ <;>
      rcases cls z hz with rfl | ⟨hz1, hz2, hz3⟩
    · exact absurd rfl hne
    · obtain ⟨k1, k2, k3, k4, k5⟩ := key z hz1 hz2 hz3
      split_ifs <;> omega
    · obtain ⟨k1, k2, k3, k4, k5⟩ := key x hx1 hx2 hx3
      split_ifs <;> omega
    · have := I.apart hx1 hz1 hne
      split_ifs <;> omega
  · intro x hx
    unfold blkEnd sizeof_node_t
    rw [hsz x, hbrk]
    rcases cls x hx with rfl | ⟨hx1, hx2, hx3⟩
    · split_ifs <;> omega
    · obtain ⟨k1, k2, k3, k4, k5⟩ := key x hx1 hx2 hx3
      split_ifs <;> omega
  · intro x hx
    rcases cls x hx with rfl | ⟨hx1, hx2, hx3⟩
    · exact I.based _ hFl
    · exact I.based x hx1
  · exact I.lo
  · rw [hbrk]; exact I.hi

/-- The free block `X`, which ends where the freed block `F` starts, absorbs it. -/
theorem merge_bwd_inv {ok : Int → Prop} {b0 : Int} {s s1 : Heap} {l : List Int}
    {A : Set Int} {F X : Int} (I : Inv ok b0 s l A) (hF : F ∈ A) (hX : X ∈ l)
    (hadj : X + 24 + (s.mem X).size = F)
    (hsz : ∀ x, (s1.mem x).size =
      if x = X then (s.mem X).size + 24 + (s.mem F).size else (s.mem x).size)
    (hmg : ∀ x, (s1.mem x).magic = (s.mem x).magic)
    (hnx : ∀ x, (s1.mem x).next = (s.mem x).next)
    (hbrk : s1.brk = s.brk) (hhd : s1.head = s.head) :
    Inv ok b0 s1 l (A \ {F}) := by
  have hFl : F ∈ l ∨ F ∈ A := Or.inr hF
  have hXl : X ∈ l ∨ X ∈ A := Or.inl hX
  obtain ⟨f0, f1, f2⟩ := I.blk hFl
  obtain ⟨y0, y1, y2⟩ := I.blk hXl
  have hFX : F ≠ X := by omega
  have key : ∀ x, (x ∈ l ∨ x ∈ A) → x ≠ F → x ≠ X →
      0 ≤ (s.mem x).size ∧ b0 ≤ x ∧ x + 24 + (s.mem x).size ≤ s.brk ∧
      (x + 24 + (s.mem x).size ≤ F ∨ F + 24 + (s.mem F).size ≤ x) ∧
      (x + 24 + (s.mem x).size ≤ X ∨ X + 24 + (s.mem X).size ≤ x) := by
    intro x hx h1 h2
    obtain ⟨a, b, c⟩ := I.blk hx
    exact ⟨a, b, c, I.apart hx hFl h1, I.apart hx hXl h2⟩
  have cls : ∀ x, (x ∈ l ∨ x ∈ A \ {F}) →
      x = X ∨ ((x ∈ l ∨ x ∈ A) ∧ x ≠ F ∧ x ≠ X) := by
    intro x hx
    by_cases hxX : x = X
    · exact Or.inl hxX
    · right
      rcases hx with hx | ⟨hx, hx2⟩
      · refine ⟨Or.inl hx, ?_, hxX⟩
        rintro rfl
        exact I.not_both hx hF
      · exact ⟨Or.inr hx, hx2, hxX⟩
  constructor
  · rw [hhd]
    exact Seg_congr l _ _ (fun x _ => hnx x) I.chain
  · rw [hhd]; exact I.head_ne
  · exact I.nodup
  · intro x hx
    rw [hsz x, hmg x]
    refine ⟨(I.free_ok x hx).1, ?_⟩
    have := (I.free_ok x hx).2
    split_ifs <;> omega
  · intro x hx
    rw [hsz x, hmg x]
    have hxX : x ≠ X := by
      rintro rfl
      exact I.not_both hX hx.1
    simp only [hxX, if_false]
    exact I.alloc_ok x hx.1
  · intro x z hx hz hne
    unfold blkEnd sizeof_node_t
    rw [hsz x, hsz z]
    rcases cls x hx with rfl | ⟨hx1, hx2, hx3⟩ <;>
      rcases cls z hz with rfl | ⟨hz1, hz2, hz3⟩
    · exact absurd rfl hne
    · obtain ⟨k1, k2, k3, k4, k5⟩ := key z hz1 hz2 hz3
      split_ifs <;> omega
    · obtain ⟨k1, k2, k3, k4, k5⟩ := key x hx1 hx2 hx3
      split_ifs <;> omega
    · have := I.apart hx1 hz1 hne
      split_ifs <;> omega
  · intro x hx
    unfold blkEnd sizeof_node_t
    rw [hsz x, hbrk]
    rcases cls x hx with rfl | ⟨hx1, hx2, hx3⟩
    · split_ifs <;> omega
    · obtain ⟨k1, k2, k3, k4, k5⟩ := key x hx1 hx2 hx3
      split_ifs <;> omega
  · intro x hx
    rcases cls x hx with rfl | ⟨hx1, hx2, hx3⟩
    · exact I.based _ hXl
    · exact I.based x hx1
  · exact I.lo
  · rw [hbrk]; exact I.hi

/-- The freed block `F` is put on the free list with its size unchanged. -/
theorem insert_inv {ok : Int → Prop} {b0 : Int} {s s1 : Heap} {l l1 : List Int}
    {A : Set Int} {F : Int} (I : Inv ok b0 s l A) (hF : F ∈ A)
    (hsz : ∀ x, (s1.mem x).size = (s.mem x).size)
    (hmg : ∀ x, (s1.mem x).magic = if x = F then FREE else (s.mem x).magic)
    (hbrk : s1.brk = s.brk)
    (hchain : Seg s1.mem s1.head l1 0) (hhead : s1.head ≠ 0) (hnodup : l1.Nodup)
    (hmem : ∀ x, x ∈ l1 ↔ x = F ∨ x ∈ l) :
    Inv ok b0 s1 l1 (A \ {F}) := by
  have hFl : F ∈ l ∨ F ∈ A := Or.inr hF
  have cls : ∀ x, (x ∈ l1 ∨ x ∈ A \ {F}) → (x ∈ l ∨ x ∈ A) := by
    intro x hx
    rcases hx with hx | ⟨hx, _⟩
    · rcases (hmem x).1 hx with h | h
      · exact h ▸ hFl
      · exact Or.inl h
    · exact Or.inr hx
  constructor
  · exact hchain
  · exact hhead
  · exact hnodup
  · intro x hx
    rw [hsz x, hmg x]
    rcases (hmem x).1 hx with h | h
    · subst h
      simp only [if_true]
      exact ⟨trivial, (I.alloc_ok _ hF).2⟩
    · have : x ≠ F := by
        rintro rfl
        exact I.not_both h hF
      simp only [this, if_false]
      exact I.free_ok x h
  · intro x hx
    rw [hsz x, hmg x]
    have hx2 : x ≠ F := hx.2
    simp only [hx2, if_false]
    exact I.alloc_ok x hx.1
  · intro x z hx hz hne
    unfold blkEnd
    rw [hsz x, hsz z]
    exact I.sep x z (cls x hx) (cls z hz) hne
  · intro x hx
    unfold blkEnd
    rw [hsz x, hbrk]
    exact I.bounds x (cls x hx)
  · intro x hx
    exact I.based x (cls x hx)
  · exact I.lo
  · rw [hbrk]; exact I.hi

/-- Growth: `k` pages at the old break are carved into an allocated block of
`B` bytes and a free block; the free list becomes the head and the new block. -/
theorem grow_inv {ok : Int → Prop} {b0 : Int} {s s1 : Heap} {l l1 : List Int}
    {A : Set Int} {B k : Int} (I : Inv ok b0 s l A) (hB8 : B % 8 = 0) (hB : 24 ≤ B)
    (hk : B + 24 ≤ 4096 * k) (hok : ok s.brk)
    (hsz : ∀ x, (s1.mem x).size = if x = s.brk then B - 24 else
      if x = s.brk + B then 4096 * k - B - 24 else (s.mem x).size)
    (hmg : ∀ x, (s1.mem x).magic = if x = s.brk then ALLOCATED else
      if x = s.brk + B then FREE else (s.mem x).magic)
    (hbrk : s1.brk = s.brk + 4096 * k) (hhi : s1.brk ≤ b0 + 2147483647)
    (hchain : Seg s1.mem s1.head l1 0) (hhead : s1.head ≠ 0) (hnodup : l1.Nodup)
    (hmem : ∀ x, x ∈ l1 ↔ x = s.head ∨ x = s.brk + B) (hhd : s.head ∈ l) :
    Inv ok b0 s1 l1 (insert s.brk A) := by
  have hb0 : b0 ≤ s.brk := by
    have := I.blk (Or.inl hhd : s.head ∈ l ∨ s.head ∈ A)
    omega
  have key : ∀ x, (x ∈ l ∨ x ∈ A) → x ≠ s.brk ∧ x ≠ s.brk + B ∧
      0 ≤ (s.mem x).size ∧ b0 ≤ x ∧ x + 24 + (s.mem x).size ≤ s.brk := by
    intro x hx
    obtain ⟨a, b, c⟩ := I.blk hx
    exact ⟨by omega, by omega, a, b, c⟩
  have cls : ∀ x, (x ∈ l1 ∨ x ∈ insert s.brk A) →
      x = s.brk ∨ x = s.brk + B ∨ (x ∈ l ∨ x ∈ A) := by
    intro x hx
    rcases hx with hx | hx
    · rcases (hmem x).1 hx with h | h
      · exact Or.inr (Or.inr (Or.inl (h ▸ hhd)))
      · exact Or.inr (Or.inl h)
    · rcases hx with h | hx
      · exact Or.inl h
      · exact Or.inr (Or.inr (Or.inr hx))
  constructor
  · exact hchain
  · exact hhead
  · exact hnodup
  · intro x hx
    rw [hsz x, hmg x]
    rcases (hmem x).1 hx with h | h
    · subst h
      obtain ⟨k1, k2, k3, _⟩ := key _ (Or.inl hhd)
      simp only [k1, k2, if_false]
      exact I.free_ok _ hhd
    · subst h
      have : ¬ (s.brk + B = s.brk) := by omega
      simp only [this, if_false, if_true]
      exact ⟨trivial, by omega⟩
  · intro x hx
    rw [hsz x, hmg x]
    rcases hx with h | hx
    · subst h
      simp only [if_true]
      exact ⟨trivial, by omega⟩
    · obtain ⟨k1, k2, k3, _⟩ := key _ (Or.inr hx)
      simp only [k1, k2, if_false]
      exact I.alloc_ok x hx
  · intro x z hx hz hne
    unfold blkEnd sizeof_node_t
    rw [hsz x, hsz z]
    rcases cls x hx with rfl | rfl | hx1 <;> rcases cls z hz with rfl | rfl | hz1
    · exact absurd rfl hne
    · split_ifs <;> omega
    · obtain ⟨k1, k2, k3, k4, k5⟩ := key z hz1
      split_ifs <;> omega
    · split_ifs <;> omega
    · exact absurd rfl hne
    · obtain ⟨k1, k2, k3, k4, k5⟩ := key z hz1
      split_ifs <;> omega
    · obtain ⟨k1, k2, k3, k4, k5⟩ := key x hx1
      split_ifs <;> omega
    · obtain ⟨k1, k2, k3, k4, k5⟩ := key x hx1
      split_ifs <;> omega
    · obtain ⟨k1, k2, k3, k4, k5⟩ := key x hx1
      obtain ⟨j1, j2, j3, j4, j5⟩ := key z hz1
      have := I.apart hx1 hz1 hne
      split_ifs <;> omega
  · intro x hx
    unfold blkEnd sizeof_node_t
    rw [hsz x, hbrk]
    rcases cls x hx with rfl | rfl | hx1
    · split_ifs <;> omega
    · split_ifs <;> omega
    · obtain ⟨k1, k2, k3, k4, k5⟩ := key x hx1
      split_ifs <;> omega
  · intro x hx
    rcases cls x hx with rfl | rfl | hx1
    · exact ⟨_, hok, by omega⟩
    · exact ⟨_, hok, by omega⟩
    · exact I.based x hx1
  · exact I.lo
  · exact hhi

/-! ## Replacing and inserting a node of the free list -/

theorem nodup_replace {l1 l2 : List Int} {y z : Int} (h : (l1 ++ y :: l2).Nodup)
    (hz : z ∉ l1 ++ y :: l2) : (l1 ++ z :: l2).Nodup := by
  rw [List.nodup_middle, List.nodup_cons] at h ⊢
  refine ⟨?_, h.2⟩
  intro hm
  apply hz
  rcases List.mem_append.1 hm with h1 | h1
  · exact List.mem_append.2 (Or.inl h1)
  · exact List.mem_append.2 (Or.inr (List.mem_cons_of_mem _ h1))

theorem mem_replace {l1 l2 : List Int} {y z : Int} (h : (l1 ++ y :: l2).Nodup) (x : Int) :
    x ∈ l1 ++ z :: l2 ↔ x = z ∨ (x ∈ l1 ++ y :: l2 ∧ x ≠ y) := by
  rw [List.nodup_middle, List.nodup_cons] at h
  have hy := h.1
  simp only [List.mem_append, List.mem_cons] at hy ⊢
  constructor
  · rintro (h1 | h1 | h1)
    · exact Or.inr ⟨Or.inl h1, fun e => hy (Or.inl (e ▸ h1))⟩
    · exact Or.inl h1
    · exact Or.inr ⟨Or.inr (Or.inr h1), fun e => hy (Or.inr (e ▸ h1))⟩
  · rintro (h1 | ⟨h1 | h1 | h1, h2⟩)
    · exact Or.inr (Or.inl h1)
    · exact Or.inl h1
    · exact absurd h1 h2
    · exact Or.inr (Or.inr h1)

theorem Seg_replace {m m1 : Int → node_t} {a c y z : Int} {q post : List Int}
    (h : Seg m a ((q ++ [c]) ++ y :: post) 0)
    (hq : ∀ x ∈ q, (m1 x).next = (m x).next) (hpost : ∀ x ∈ post, (m1 x).next = (m x).next)
    (hc : (m1 c).next = z) (hz : z ≠ 0) (hzn : (m1 z).next = (m y).next) :
    Seg m1 a ((q ++ [c]) ++ z :: post) 0 := by
  obtain ⟨b, h1, h2⟩ := (Seg_append _ _ _ _).1 h
  obtain ⟨b1, h3, h4⟩ := (Seg_append _ _ _ _).1 h1
  obtain ⟨h5, h6, h7⟩ := h4
  obtain ⟨h8, h9, h10⟩ := h2
  have h7 : (m c).next = b := h7
  refine (Seg_append _ _ _ _).2 ⟨z, (Seg_append _ _ _ _).2 ⟨b1, Seg_congr q _ _ hq h3, ?_⟩, ?_⟩
  · exact ⟨h5, h6, hc⟩
  · refine ⟨rfl, hz, ?_⟩
    rw [hzn]
    exact Seg_congr post _ _ hpost h10

theorem Seg_pred {m : Int → node_t} {a c y : Int} {q post : List Int}
    (h : Seg m a ((q ++ [c]) ++ y :: post) 0) : (m c).next = y ∧ c ≠ 0 ∧ y ≠ 0 := by
  obtain ⟨b, h1, h2⟩ := (Seg_append _ _ _ _).1 h
  obtain ⟨b1, h3, h4⟩ := (Seg_append _ _ _ _).1 h1
  obtain ⟨h5, h6, h7⟩ := h4
  obtain ⟨h8, h9, h10⟩ := h2
  have h7 : (m c).next = b := h7
  exact ⟨by rw [h7, h8], h6, h9⟩

theorem Seg_replace_head {m m1 : Int → node_t} {a z : Int} {post : List Int}
    (h : Seg m a (a :: post) 0) (hpost : ∀ x ∈ post, (m1 x).next = (m x).next)
    (hz : z ≠ 0) (hzn : (m1 z).next = (m a).next) : Seg m1 z (z :: post) 0 := by
  refine ⟨rfl, hz, ?_⟩
  rw [hzn]
  exact Seg_congr post _ _ hpost h.2.2

theorem Seg_insert {m m1 : Int → node_t} {a z : Int} {post : List Int}
    (h : Seg m a (a :: post) 0) (hpost : ∀ x ∈ post, (m1 x).next = (m x).next)
    (ha : (m1 a).next = z) (hz : z ≠ 0) (hzn : (m1 z).next = (m a).next) :
    Seg m1 a (a :: z :: post) 0 := by
  refine ⟨rfl, h.2.1, ?_⟩
  rw [ha]
  refine ⟨rfl, hz, ?_⟩
  rw [hzn]
  exact Seg_congr post _ _ hpost h.2.2

theorem Inv.u32_size {ok : Int → Prop} {b0 : Int} {s : Heap} {l : List Int} {A : Set Int}
    (I : Inv ok b0 s l A) {x : Int} (hx : x ∈ l ∨ x ∈ A) :
    u32 (s.mem x).size = (s.mem x).size := by
  obtain ⟨a, b, c⟩ := I.blk hx
  have := I.hi
  exact u32_of_range a (by omega)

/-- A block strictly inside the extent of a block of the heap is no other block. -/
theorem Inv.inner_ne {ok : Int → Prop} {b0 : Int} {s : Heap} {l : List Int} {A : Set Int}
    (I : Inv ok b0 s l A) {x y : Int} {B : Int} (hx : x ∈ l ∨ x ∈ A) (hy : y ∈ l ∨ y ∈ A)
    (hB : 0 < B) (hfit : B ≤ (s.mem y).size) : x ≠ y + B := by
  intro h
  have hne : x ≠ y := by omega
  have h1 := I.apart hx hy hne
  obtain ⟨a, _, _⟩ := I.blk hx
  omega

@[simp] theorem splitHead_head (s : Heap) (B : Int) : (splitHead s B).2.head = s.head + B := rfl
@[simp] theorem splitHead_brk (s : Heap) (B : Int) : (splitHead s B).2.brk = s.brk := rfl
@[simp] theorem splitHead_fst (s : Heap) (B : Int) : (splitHead s B).1 = s.head + 24 := rfl
@[simp] theorem splitNext_head (s : Heap) (c B : Int) : (splitNext s c B).2.head = s.head := rfl
@[simp] theorem splitNext_brk (s : Heap) (c B : Int) : (splitNext s c B).2.brk = s.brk := rfl
@[simp] theorem grow_head (s : Heap) (B k : Int) : (grow s B k).2.head = s.head := rfl
@[simp] theorem grow_brk (s : Heap) (B k : Int) : (grow s B k).2.brk = s.brk + 4096 * k := rfl
@[simp] theorem grow_fst (s : Heap) (B k : Int) : (grow s B k).1 = s.brk + 24 := rfl
@[simp] theorem mergeHead_head (s : Heap) (F : Int) : (mergeHead s F).head = F := rfl
@[simp] theorem mergeHead_brk (s : Heap) (F : Int) : (mergeHead s F).brk = s.brk := rfl
@[simp] theorem growHead_head (s : Heap) (F : Int) : (growHead s F).head = s.head := rfl
@[simp] theorem growHead_brk (s : Heap) (F : Int) : (growHead s F).brk = s.brk := rfl
@[simp] theorem mergePrev_head (s : Heap) (F c : Int) : (mergePrev s F c).head = s.head := rfl
@[simp] theorem mergePrev_brk (s : Heap) (F c : Int) : (mergePrev s F c).brk = s.brk := rfl
@[simp] theorem mergeNext_head (s : Heap) (F c : Int) : (mergeNext s F c).head = s.head := rfl
@[simp] theorem mergeNext_brk (s : Heap) (F c : Int) : (mergeNext s F c).brk = s.brk := rfl
@[simp] theorem insertSecond_head (s : Heap) (F : Int) : (insertSecond s F).head = s.head := rfl
@[simp] theorem insertSecond_brk (s : Heap) (F : Int) : (insertSecond s F).brk = s.brk := rfl

theorem splitNext_fst (s : Heap) (c B : Int) (hc : c ≠ (s.mem c).next + B) :
    (splitNext s c B).1 = (s.mem c).next + 24 := by
  simp [splitNext, sizeof_node_t, hc]

theorem nodup_pred {q post : List Int} {c y : Int} (h : ((q ++ [c]) ++ y :: post).Nodup) :
    c ≠ y ∧ (∀ x ∈ q, x ≠ c) ∧ (∀ x ∈ post, x ≠ c) := by
  simp only [List.nodup_append, List.nodup_cons, List.mem_append, List.mem_cons,
    List.mem_singleton, List.Disjoint] at h
  obtain ⟨⟨_, _, h1⟩, _, h2⟩ := h
  refine ⟨fun e => h2 (Or.inr (Or.inl rfl)) (Or.inl e), ?_, ?_⟩
  · intro x hx e
    exact h1 hx (Or.inl e)
  · intro x hx e
    exact @h2 x (Or.inr (Or.inl e)) (Or.inr hx)

/-! ## `mymalloc` on a valid heap -/

/-- On a valid heap `mymalloc` returns, with enough fuel, the payload of a fresh
header `F` that records `blockSize n - 24` bytes, the free block right behind it
is on the free list, and the heap stays valid. -/
theorem mymalloc_spec {ok : Int → Prop} {b0 : Int} {s : Heap} {l : List Int} {A : Set Int}
    {n : Int} {fuel : Nat} (I : Inv ok b0 s l A) (hn : NoOverflow n)
    (hf1 : l.length ≤ fuel) (hf2 : blockSize n + 24 ≤ fuel * 4096) :
    ∃ F s1 l1, mymalloc fuel s n = some (F + 24, s1) ∧ F ∉ A ∧ 0 < F ∧
      (s1.mem F).size = blockSize n - 24 ∧ (s1.mem F).magic = ALLOCATED ∧
      F + blockSize n ∈ l1 ∧ s.brk ≤ s1.brk ∧
      ((∃ x ∈ l, blockSize n ≤ (s.mem x).size) → s1.brk = s.brk) ∧
      ((s1.brk ≠ s.brk → ok s.brk) → s1.brk ≤ b0 + 2147483647 →
        Inv ok b0 s1 l1 (insert F A)) := by
  obtain ⟨hB8, hB1, hB2, hB3⟩ := blockSize_bounds hn
  have hn0 : 0 ≤ n := hn.1
  obtain ⟨rest, rfl, hrest⟩ := I.cons
  have hhd : s.head ∈ s.head :: rest ∨ s.head ∈ A := Or.inl (List.mem_cons_self _ _)
  obtain ⟨hd0, hd1, hd2⟩ := I.blk hhd
  have hlo := I.lo
  by_cases hfit : blockSize n ≤ (s.mem s.head).size
  · -- head split
    have hmy : mymalloc fuel s n = some (splitHead s (blockSize n)) := by
      unfold mymalloc
      simp only []
      rw [if_pos]
      rw [I.u32_size hhd]
      exact hfit
    refine ⟨s.head, (splitHead s (blockSize n)).2, (s.head + blockSize n) :: rest, hmy,
      I.not_both (List.mem_cons_self _ _), by omega, ?_, ?_, List.mem_cons_self _ _,
      le_refl _, fun _ => rfl, ?_⟩
    · rw [splitHead_size]; simp
    · rw [splitHead_magic]; simp
    · intro _ _
      have hnd := I.nodup
      rw [List.nodup_cons] at hnd
      have hne : ∀ x ∈ rest, x ≠ s.head ∧ x ≠ s.head + blockSize n := by
        intro x hx
        refine ⟨fun e => hnd.1 (e ▸ hx), ?_⟩
        exact I.inner_ne (Or.inl (List.mem_cons_of_mem _ hx)) hhd (by omega) hfit
      refine split_inv I (List.mem_cons_self _ _) hB8 (by omega) hfit
        (splitHead_size s _) (splitHead_magic s _) rfl ?_ ?_ ?_ ?_
      · have hz : s.head + blockSize n ≠ 0 := by omega
        refine Seg_replace_head I.chain ?_ hz ?_
        · intro x hx
          rw [splitHead_next]
          simp [(hne x hx).1, (hne x hx).2]
        · rw [splitHead_next]
          have : ¬ (s.head + blockSize n = s.head) := by omega
          simp [this]
      · show s.head + blockSize n ≠ 0
        omega
      · rw [List.nodup_cons]
        exact ⟨fun h => (hne _ h).2 rfl, hnd.2⟩
      · intro x
        simp only [List.mem_cons]
        constructor
        · rintro (h | h)
          · exact Or.inl h
          · exact Or.inr ⟨Or.inr h, (hne x h).1⟩
        · rintro (h | ⟨h | h, h2⟩)
          · exact Or.inl h
          · exact absurd h h2
          · exact Or.inr h
  · have hfit1 : ∀ x, x ∈ s.head :: rest → ¬ u32 (s.mem x).size < blockSize n →
        blockSize n ≤ (s.mem x).size := by
      intro x hx h
      rw [I.u32_size (Or.inl hx)] at h
      omega
    have hfr : rest.length < fuel := by
      simp only [List.length_cons] at hf1
      omega
    rcases first_split (fun z => ¬ u32 (s.mem z).size < blockSize n) rest with
      hnone | ⟨pre, y, post, hsplit, hpre, hy⟩
    · -- growth
      have hs := mymalloc_scan_none s (blockSize n) rest s.head fuel hrest
        (fun z hz => not_not.1 (hnone z hz)) hfr
      obtain ⟨j, hj, hj1, hj2, hj3⟩ := num_of_page_loop_spec (blockSize n) fuel 1 (le_refl _)
        (by simp only [sizeof_node_t]; omega) (by simp only [sizeof_node_t]; linarith)
      simp only [sizeof_node_t] at hj2
      have hmy : mymalloc fuel s n = some (grow s (blockSize n) j) := by
        unfold mymalloc
        simp only []
        rw [if_neg, hs]
        · simp only [hj]
        · rw [I.u32_size hhd]
          omega
      have hbA : ∀ x, (x ∈ s.head :: rest ∨ x ∈ A) → x ≠ s.brk ∧ x ≠ s.brk + blockSize n := by
        intro x hx
        obtain ⟨a, b, c⟩ := I.blk hx
        exact ⟨by omega, by omega⟩
      refine ⟨s.brk, (grow s (blockSize n) j).2, [s.head, s.brk + blockSize n], hmy,
        fun h => (hbA _ (Or.inr h)).1 rfl, by omega, ?_, ?_, by simp,
        by simp only [grow_brk]; omega, ?_, ?_⟩
      · rw [grow_size]; simp
      · rw [grow_magic]; simp
      · rintro ⟨x, hx, hxs⟩
        exfalso
        rcases List.mem_cons.1 hx with rfl | hx1
        · exact hfit hxs
        · have := not_not.1 (hnone x hx1)
          rw [I.u32_size (Or.inl hx)] at this
          omega
      · intro hok hhi
        have hnb : (grow s (blockSize n) j).2.brk ≠ s.brk := by
          simp only [grow_brk]; omega
        have hz : s.brk + blockSize n ≠ 0 := by omega
        refine grow_inv I hB8 (by omega) (by omega) (hok hnb) (grow_size s _ j)
          (grow_magic s _ j) rfl hhi ?_ I.head_ne ?_ ?_ (List.mem_cons_self _ _)
        · refine ⟨rfl, I.head_ne, ?_⟩
          have e1 : ((grow s (blockSize n) j).2.mem s.head).next = s.brk + blockSize n := by
            rw [grow_next]; simp
          have e2 : ((grow s (blockSize n) j).2.mem (s.brk + blockSize n)).next = 0 := by
            rw [grow_next]
            have : ¬ (s.brk + blockSize n = s.head) := fun e => (hbA _ hhd).2 e.symm
            simp [this]
          rw [e1]
          refine ⟨rfl, hz, ?_⟩
          rw [e2]
          rfl
        · simp only [List.nodup_cons, List.mem_singleton, List.not_mem_nil, not_false_eq_true,
            List.nodup_nil, and_true]
          exact (hbA _ hhd).2
        · intro x
          simp only [List.mem_cons, List.mem_singleton, List.not_mem_nil, or_false]
    · -- list-scan split
      obtain ⟨q, c, hq, hc, hr⟩ := mymalloc_scan_found s (blockSize n) y post 0 pre s.head fuel
        (hsplit ▸ hrest) (fun z hz => not_not.1 (hpre z hz)) hy
        (by rw [hsplit] at hfr; simp only [List.length_append] at hfr; omega)
      have hl : s.head :: rest = (q ++ [c]) ++ y :: post := by rw [hsplit, ← hq]; rfl
      have I2 : Inv ok b0 s ((q ++ [c]) ++ y :: post) A := hl ▸ I
      have hyl : y ∈ (q ++ [c]) ++ y :: post := by simp
      have hcl : c ∈ (q ++ [c]) ++ y :: post := by simp
      have hfy : blockSize n ≤ (s.mem y).size := hfit1 y (hl ▸ hyl) hy
      obtain ⟨n1, n2, n3⟩ := nodup_pred I2.nodup
      have hcne : c ≠ (s.mem c).next + blockSize n := by
        rw [hc]
        exact I2.inner_ne (Or.inl hcl) (Or.inl hyl) (by omega) hfy
      have hfst : splitNext s c (blockSize n) = (y + 24, (splitNext s c (blockSize n)).2) :=
        Prod.ext (by rw [splitNext_fst s c _ hcne, hc]) rfl
      have hmy : mymalloc fuel s n = some (y + 24, (splitNext s c (blockSize n)).2) := by
        unfold mymalloc
        simp only []
        rw [if_neg, hr]
        · simp only []
          rw [← hfst]
        · rw [I.u32_size hhd]
          omega
      obtain ⟨y0, y1, y2⟩ := I2.blk (Or.inl hyl)
      refine ⟨y, (splitNext s c (blockSize n)).2, (q ++ [c]) ++ (y + blockSize n) :: post, hmy,
        I2.not_both hyl, by omega, ?_, ?_, by simp, le_refl _, fun _ => rfl, ?_⟩
      · rw [splitNext_size s c _ y hcne, hc]; simp
      · rw [splitNext_magic s c _ y hcne, hc]; simp
      · intro _ _
        have hin : ∀ x, x ∈ (q ++ [c]) ++ y :: post → x ≠ y + blockSize n := fun x hx =>
          I2.inner_ne (Or.inl hx) (Or.inl hyl) (by omega) hfy
        have hz : y + blockSize n ≠ 0 := by omega
        refine split_inv I2 hyl hB8 (by omega) hfy
          (fun x => by rw [splitNext_size s c _ x hcne, hc])
          (fun x => by rw [splitNext_magic s c _ x hcne, hc]) rfl ?_ I.head_ne
          (nodup_replace I2.nodup (fun h => hin _ h rfl)) (mem_replace I2.nodup)
        refine Seg_replace I2.chain ?_ ?_ ?_ hz ?_
        · intro x hx
          rw [splitNext_next, hc]
          have h1 : x ≠ c := n2 x hx
          have h2 : x ≠ y + blockSize n := hin x (by simp [hx])
          simp [h1, h2]
        · intro x hx
          rw [splitNext_next, hc]
          have h1 : x ≠ c := n3 x hx
          have h2 : x ≠ y + blockSize n := hin x (by simp [hx])
          simp [h1, h2]
        · rw [splitNext_next, hc]; simp
        · rw [splitNext_next, hc]
          have h1 : ¬ (y + blockSize n = c) := fun e => hin c hcl e.symm
          simp [h1]

theorem growHead_magic (s : Heap) (F x : Int) :
    ((growHead s F).mem x).magic = (s.mem x).magic := by
  simp [growHead]

theorem growHead_next (s : Heap) (F x : Int) :
    ((growHead s F).mem x).next = (s.mem x).next := by
  simp [growHead]

theorem mergePrev_magic (s : Heap) (F c x : Int) :
    ((mergePrev s F c).mem x).magic = (s.mem x).magic := by
  simp [mergePrev]

theorem mergePrev_next (s : Heap) (F c x : Int) :
    ((mergePrev s F c).mem x).next = (s.mem x).next := by
  simp [mergePrev]

/-! ## `myfree` on a valid heap -/

theorem myfree_of_merge {fuel : Nat} {s s1 : Heap} {F : Int}
    (hm : (s.mem F).magic = ALLOCATED) (h : coalescing_free_blocks fuel s F = some (0, s1)) :
    myfree fuel s (F + 24) = some (0, s1) := by
  have e : F + 24 - sizeof_node_t = F := by simp [sizeof_node_t]
  unfold myfree
  simp only [e, hm, ne_eq, not_true_eq_false, if_false, h, if_true]

theorem myfree_of_nomerge {fuel : Nat} {s : Heap} {F : Int}
    (hm : (s.mem F).magic = ALLOCATED) (h : coalescing_free_blocks fuel s F = some (1, s)) :
    myfree fuel s (F + 24) = some (0, insertSecond s F) := by
  have e : F + 24 - sizeof_node_t = F := by simp [sizeof_node_t]
  unfold myfree
  simp only [e, hm, ne_eq, not_true_eq_false, if_false, h]
  simp

/-- On a valid heap `myfree` of a live pointer returns 0 with enough fuel, does
not move the break, and keeps the heap valid.  If a node of the free list is
physically adjacent to the freed block, a node of the resulting list holds
the freed block and its header; otherwise the block is inserted second. -/
theorem myfree_spec {ok : Int → Prop} {b0 : Int} {s : Heap} {l : List Int} {A : Set Int}
    {F : Int} {fuel : Nat} (I : Inv ok b0 s l A) (hF : F ∈ A) (hf : l.length ≤ fuel) :
    ∃ s1 l1, myfree fuel s (F + 24) = some (0, s1) ∧ s1.brk = s.brk ∧
      Inv ok b0 s1 l1 (A \ {F}) ∧
      ((∃ z ∈ l, z = F + 24 + (s.mem F).size ∨ z + 24 + (s.mem z).size = F) →
        ∃ x ∈ l1, (s.mem F).size + 24 ≤ (s1.mem x).size) ∧
      ((∀ z ∈ l, ¬ (z = F + 24 + (s.mem F).size) ∧ ¬ (z + 24 + (s.mem z).size = F)) →
        s1 = insertSecond s F ∧ l1 = s.head :: F :: l.tail) := by
  obtain ⟨rest, rfl, hrest⟩ := I.cons
  have hhd : s.head ∈ s.head :: rest := List.mem_cons_self _ _
  have hhd1 : s.head ∈ s.head :: rest ∨ s.head ∈ A := Or.inl hhd
  obtain ⟨hd0, hd1, hd2⟩ := I.blk hhd1
  obtain ⟨f0, f1, f2⟩ := I.blk (Or.inr hF : F ∈ s.head :: rest ∨ F ∈ A)
  have hmagic := (I.alloc_ok F hF).1
  have hlo := I.lo
  have hFl : ∀ x, x ∈ s.head :: rest → x ≠ F := fun x hx e => I.not_both hx (e ▸ hF)
  have hnd := I.nodup
  rw [List.nodup_cons] at hnd
  have hF0 : F ≠ 0 := by omega
  have hfr : rest.length < fuel := by
    simp only [List.length_cons] at hf
    omega
  by_cases h1 : s.head = F + 24 + (s.mem F).size
  · -- the freed block becomes the head
    have hco : coalescing_free_blocks fuel s F = some (0, mergeHead s F) := by
      unfold coalescing_free_blocks
      simp only [sizeof_node_t]
      rw [if_pos h1]
    refine ⟨mergeHead s F, F :: rest, myfree_of_merge hmagic hco, rfl, ?_, ?_, ?_⟩
    · refine merge_fwd_inv I hF hhd h1.symm (mergeHead_size s F) (mergeHead_magic s F) rfl
        ?_ hF0 ?_ ?_
      · refine Seg_replace_head I.chain ?_ hF0 ?_
        · intro x hx
          rw [mergeHead_next]
          simp [hFl x (List.mem_cons_of_mem _ hx)]
        · rw [mergeHead_next]; simp
      · rw [List.nodup_cons]
        exact ⟨fun h => hFl F (List.mem_cons_of_mem _ h) rfl, hnd.2⟩
      · intro x
        simp only [List.mem_cons]
        constructor
        · rintro (h | h)
          · exact Or.inl h
          · exact Or.inr ⟨Or.inr h, fun e => hnd.1 (e ▸ h)⟩
        · rintro (h | ⟨h | h, h2⟩)
          · exact Or.inl h
          · exact absurd h h2
          · exact Or.inr h
    · intro _
      refine ⟨F, List.mem_cons_self _ _, ?_⟩
      rw [mergeHead_size]; simp; omega
    · intro h
      exact absurd h1 (h _ hhd).1
  · by_cases h2 : s.head + 24 + (s.mem s.head).size = F
    · -- the head absorbs the freed block
      have hco : coalescing_free_blocks fuel s F = some (0, growHead s F) := by
        unfold coalescing_free_blocks
        simp only [sizeof_node_t]
        rw [if_neg h1, if_pos h2]
      refine ⟨growHead s F, s.head :: rest, myfree_of_merge hmagic hco, rfl, ?_, ?_, ?_⟩
      · exact merge_bwd_inv I hF hhd h2 (growHead_size s F) (growHead_magic s F)
          (growHead_next s F) rfl rfl
      · intro _
        refine ⟨s.head, hhd, ?_⟩
        rw [growHead_size]; simp; omega
      · intro h
        exact absurd h2 (h _ hhd).2
    · have hco0 : coalescing_free_blocks fuel s F =
          coalescing_loop fuel s F F (F + 24 + (s.mem F).size) s.head := by
        unfold coalescing_free_blocks
        simp only [sizeof_node_t]
        rw [if_neg h1, if_neg h2]
      rcases first_split
        (fun z => z + sizeof_node_t + (s.mem z).size = F ∨ z = F + 24 + (s.mem F).size) rest with
        hnone | ⟨pre, y, post, hsplit, hpre, hy⟩
      · -- nothing to merge
        have hco : coalescing_free_blocks fuel s F = some (1, s) := by
          rw [hco0]
          exact coalescing_loop_none s F F _ rest s.head fuel hrest
            (fun z hz => not_or.1 (hnone z hz)) hfr
        refine ⟨insertSecond s F, s.head :: F :: rest, myfree_of_nomerge hmagic hco, rfl,
          ?_, ?_, fun _ => ⟨rfl, rfl⟩⟩
        · refine insert_inv I hF (insertSecond_size s F) (insertSecond_magic s F) rfl
            ?_ I.head_ne ?_ ?_
          · refine Seg_insert I.chain ?_ ?_ hF0 ?_
            · intro x hx
              rw [insertSecond_next]
              have e1 : x ≠ s.head := fun e => hnd.1 (e ▸ hx)
              simp [e1, hFl x (List.mem_cons_of_mem _ hx)]
            · rw [insertSecond_next]; simp
            · rw [insertSecond_next]
              have : ¬ (F = s.head) := fun e => hFl _ hhd e.symm
              simp [this]
          · rw [List.nodup_cons, List.nodup_cons]
            refine ⟨?_, fun h => hFl F (List.mem_cons_of_mem _ h) rfl, hnd.2⟩
            intro h
            rcases List.mem_cons.1 h with e | h
            · exact hFl _ hhd e
            · exact hnd.1 h
          · intro x
            simp only [List.mem_cons]
            tauto
        · rintro ⟨z, hz, hadj⟩
          exfalso
          rcases List.mem_cons.1 hz with rfl | hz1
          · rcases hadj with e | e
            · exact h1 e
            · exact h2 e
          · have := hnone z hz1
            simp only [sizeof_node_t] at this
            tauto
      · obtain ⟨q, c, hq, hc, hr⟩ := coalescing_loop_found s F F (F + 24 + (s.mem F).size) y
          post 0 pre s.head fuel (hsplit ▸ hrest) (fun z hz => not_or.1 (hpre z hz)) hy
          (by rw [hsplit] at hfr; simp only [List.length_append] at hfr; omega)
        have hl : s.head :: rest = (q ++ [c]) ++ y :: post := by rw [hsplit, ← hq]; rfl
        have I2 : Inv ok b0 s ((q ++ [c]) ++ y :: post) A := hl ▸ I
        have hyl : y ∈ (q ++ [c]) ++ y :: post := by simp
        have hcl : c ∈ (q ++ [c]) ++ y :: post := by simp
        have hFl2 : ∀ x, x ∈ (q ++ [c]) ++ y :: post → x ≠ F := fun x hx => hFl x (hl ▸ hx)
        obtain ⟨y0, y1, y2⟩ := I2.blk (Or.inl hyl)
        obtain ⟨n1, n2, n3⟩ := nodup_pred I2.nodup
        rw [← hco0] at hr
        by_cases hya : y + sizeof_node_t + (s.mem y).size = F
        · -- a later node absorbs the freed block
          rw [if_pos hya] at hr
          refine ⟨mergePrev s F c, s.head :: rest, myfree_of_merge hmagic hr, rfl, ?_, ?_, ?_⟩
          · rw [hl]
            exact merge_bwd_inv I2 hF hyl hya (fun x => by rw [mergePrev_size, hc])
              (mergePrev_magic s F c) (mergePrev_next s F c) rfl rfl
          · intro _
            refine ⟨y, hl ▸ hyl, ?_⟩
            rw [mergePrev_size, hc]; simp; omega
          · intro h
            exact absurd hya (h y (hl ▸ hyl)).2
        · -- the freed block absorbs a later node
          have hyb : y = F + 24 + (s.mem F).size := by tauto
          rw [if_neg hya] at hr
          have hcF : c ≠ F := hFl2 c hcl
          refine ⟨mergeNext s F c, (q ++ [c]) ++ F :: post, myfree_of_merge hmagic hr, rfl,
            ?_, ?_, ?_⟩
          · refine merge_fwd_inv I2 hF hyl hyb.symm
              (fun x => by rw [mergeNext_size s F c x hcF, hc]) (mergeNext_magic s F c) rfl
              ?_ I.head_ne (nodup_replace I2.nodup (fun h => hFl2 F h rfl))
              (mem_replace I2.nodup)
            refine Seg_replace I2.chain ?_ ?_ ?_ hF0 ?_
            · intro x hx
              rw [mergeNext_next]
              have e1 : x ≠ c := n2 x hx
              have e2 : x ≠ F := hFl2 x (by simp [hx])
              simp [e1, e2]
            · intro x hx
              rw [mergeNext_next]
              have e1 : x ≠ c := n3 x hx
              have e2 : x ≠ F := hFl2 x (by simp [hx])
              simp [e1, e2]
            · rw [mergeNext_next]; simp
            · rw [mergeNext_next, hc]
              have : ¬ (F = c) := fun e => hcF e.symm
              simp [this]
          · intro _
            refine ⟨F, by simp, ?_⟩
            rw [mergeNext_size s F c F hcF, hc]; simp; omega
          · intro h
            exact absurd hyb (h y (hl ▸ hyl)).1

/-! ## Reachable heaps are valid -/

theorem Seg_unique {m : Int → node_t} :
    ∀ (l l1 : List Int) (a : Int), Seg m a l 0 → Seg m a l1 0 → l = l1
  | [], [], _, _, _ => rfl
  | [], x :: xs, a, h, h1 => by
    have e : a = 0 := h
    exact absurd (h1.1 ▸ e) h1.2.1
  | x :: xs, [], a, h, h1 => by
    have e : a = 0 := h1
    exact absurd (h.1 ▸ e) h.2.1
  | x :: xs, y :: ys, a, h, h1 => by
    have e : x = y := h.1.symm.trans h1.1
    subst e
    rw [Seg_unique xs ys _ h.2.2 h1.2.2]

theorem Inv.freeList {ok : Int → Prop} {b0 : Int} {s : Heap} {l : List Int} {A : Set Int}
    (I : Inv ok b0 s l A) : FreeList s l := ⟨I.chain, I.head_ne⟩

theorem Inv.freeList_eq {ok : Int → Prop} {b0 : Int} {s : Heap} {l l1 : List Int}
    {A : Set Int} (I : Inv ok b0 s l A) (h : FreeList s l1) : l1 = l :=
  Seg_unique l1 l _ h.1 I.chain

theorem init_inv {ok : Int → Prop} {b0 : Int} (hd : Int) (m : Int → node_t)
    (h0 : 0 < b0) (hok : ok b0) :
    Inv ok b0 (mymalloc_init ⟨hd, m, b0⟩).2 [b0] ∅ := by
  have hsz : ∀ x, ((mymalloc_init ⟨hd, m, b0⟩).2.mem x).size =
      if x = b0 then 4072 else (m x).size := by
    intro x; simp [mymalloc_init, sizeof_node_t]
  constructor
  · refine ⟨rfl, by omega, ?_⟩
    show ((mymalloc_init ⟨hd, m, b0⟩).2.mem b0).next = 0
    simp [mymalloc_init]
  · show b0 ≠ 0
    omega
  · simp
  · intro x hx
    rw [List.mem_singleton] at hx
    subst hx
    rw [hsz]
    simp [mymalloc_init]
  · intro a ha
    exact absurd ha (Set.not_mem_empty a)
  · intro x y hx hy hne
    simp only [List.mem_singleton, Set.mem_empty_iff_false, or_false] at hx hy
    exact absurd (hx.trans hy.symm) hne
  · intro x hx
    simp only [List.mem_singleton, Set.mem_empty_iff_false, or_false] at hx
    subst hx
    unfold blkEnd
    rw [hsz]
    simp only [mymalloc_init, sizeof_node_t, if_true]
    omega
  · intro x hx
    simp only [List.mem_singleton, Set.mem_empty_iff_false, or_false] at hx
    subst hx
    exact ⟨x, hok, by simp⟩
  · exact h0
  · show b0 + 4096 ≤ b0 + 2147483647
    omega

/-- Fuel that suffices for `mymalloc` on a heap whose free list is `l`. -/
theorem fuel_enough (l : List Int) (B : Int) (fuel : Nat)
    (h : l.length + (B + 24).toNat ≤ fuel) :
    l.length ≤ fuel ∧ B + 24 ≤ fuel * 4096 := by
  refine ⟨by omega, ?_⟩
  have : B + 24 ≤ (fuel : Int) := by omega
  omega

theorem reachable_inv {ok : Int → Prop} {b0 : Int} {s : Heap} {L : Set Int}
    (h : Reachable ok b0 s L) : ∃ l, Inv ok b0 s l {a | a + 24 ∈ L} := by
  induction h with
  | init hd m h0 hok =>
    refine ⟨[b0], ?_⟩
    have e : {a : Int | a + 24 ∈ (∅ : Set Int)} = ∅ := by
      ext a; simp
    rw [e]
    exact init_inv hd m h0 hok
  | @malloc s L fuel n p s1 _ hn hm hok hhi ih =>
    obtain ⟨l, I⟩ := ih
    obtain ⟨hf1, hf2⟩ := fuel_enough l (blockSize n) (fuel + (l.length + (blockSize n + 24).toNat))
      (by omega)
    obtain ⟨F, s2, l1, hm2, _, _, _, _, _, _, _, hI⟩ := mymalloc_spec I hn hf1 hf2
    have hm3 := mymalloc_mono (Nat.le_add_right fuel (l.length + (blockSize n + 24).toNat)) hm
    rw [hm2] at hm3
    obtain ⟨rfl, rfl⟩ := Prod.mk.inj (Option.some.inj hm3)
    refine ⟨l1, ?_⟩
    have e : {a : Int | a + 24 ∈ insert (F + 24) L} = insert F {a | a + 24 ∈ L} := by
      ext a
      simp only [Set.mem_setOf_eq, Set.mem_insert_iff]
      constructor
      · rintro (h | h)
        · exact Or.inl (by omega)
        · exact Or.inr h
      · rintro (h | h)
        · exact Or.inl (by omega)
        · exact Or.inr h
    rw [e]
    exact hI hok hhi
  | @free s L fuel p r s1 _ hp hm ih =>
    obtain ⟨l, I⟩ := ih
    have hF : p - 24 ∈ {a : Int | a + 24 ∈ L} := by
      show p - 24 + 24 ∈ L
      rw [sub_add_cancel]; exact hp
    obtain ⟨s2, l1, hm2, _, hI, _⟩ := myfree_spec I hF (Nat.le_add_left l.length fuel)
    have hm3 := myfree_mono (Nat.le_add_right fuel l.length) hm
    rw [sub_add_cancel, hm3] at hm2
    obtain ⟨rfl, rfl⟩ := Prod.mk.inj (Option.some.inj hm2)
    refine ⟨l1, ?_⟩
    have e : {a : Int | a + 24 ∈ L \ {p}} = {a | a + 24 ∈ L} \ {p - 24} := by
      ext a
      simp only [Set.mem_setOf_eq, Set.mem_diff, Set.mem_singleton_iff]
      constructor
      · rintro ⟨h1, h2⟩
        exact ⟨h1, by omega⟩
      · rintro ⟨h1, h2⟩
        exact ⟨h1, by omega⟩
    rw [e]
    exact hI
  | @foreign s L g _ hg hhi ih =>
    obtain ⟨l, I⟩ := ih
    refine ⟨l, ?_⟩
    constructor
    · exact I.chain
    · exact I.head_ne
    · exact I.nodup
    · exact I.free_ok
    · exact I.alloc_ok
    · exact I.sep
    · intro x hx
      have := I.bounds x hx
      exact ⟨this.1, le_trans this.2 (by show s.brk ≤ s.brk + g; omega)⟩
    · exact I.based
    · exact I.lo
    · exact hhi

theorem Reachable.mono {ok ok1 : Int → Prop} {b0 : Int} {s : Heap} {L : Set Int}
    (hok : ∀ b, ok b → ok1 b) (h : Reachable ok b0 s L) : Reachable ok1 b0 s L := by
  induction h with
  | init hd m h0 h1 => exact Reachable.init hd m h0 (hok _ h1)
  | malloc fuel n p s1 _ hn hm h1 hhi ih =>
    exact Reachable.malloc fuel n p s1 ih hn hm (fun h => hok _ (h1 h)) hhi
  | free fuel p r s1 _ hp hm ih => exact Reachable.free fuel p r s1 ih hp hm
  | foreign g _ hg hhi ih => exact Reachable.foreign g ih hg hhi

/-! ## The example heaps are reachable -/

theorem afterMalloc_eq {s : Heap} {n p : Int}
    (h : (mymalloc 16 s n).map Prod.fst = some p) :
    mymalloc 16 s n = some (p, afterMalloc s n) := by
  unfold afterMalloc
  cases hm : mymalloc 16 s n with
  | none => rw [hm] at h; simp at h
  | some r =>
    rw [hm] at h
    simp only [Option.map_some', Option.some.injEq] at h
    subst h
    rfl

theorem afterFree_eq {s : Heap} {p r : Int}
    (h : (myfree 16 s p).map Prod.fst = some r) :
    myfree 16 s p = some (r, afterFree s p) := by
  unfold afterFree
  cases hm : myfree 16 s p with
  | none => rw [hm] at h; simp at h
  | some x =>
    rw [hm] at h
    simp only [Option.map_some', Option.some.injEq] at h
    subst h
    rfl

theorem noOverflow_small {n : Int} (h0 : 0 ≤ n) (h1 : n ≤ 100000) : NoOverflow n := by
  unfold NoOverflow roundup8 sizeof_node_t
  omega

theorem demoFull_reachable : Reachable (fun b => b % 8 = 0) 4096 demoFull demoFullLive := by
  have r0 : Reachable (fun b => b % 8 = 0) 4096 fresh ∅ :=
    Reachable.init 0 (fun _ => ⟨0, 0, 0⟩) (by decide) (by decide)
  have r1 := Reachable.malloc 16 16 4120 _ r0 (noOverflow_small (by decide) (by decide))
    (afterMalloc_eq (by decide)) (fun h => absurd (by decide) h) (by decide)
  have r2 := Reachable.malloc 16 8 4160 _ r1 (noOverflow_small (by decide) (by decide))
    (afterMalloc_eq (by decide)) (fun h => absurd (by decide) h) (by decide)
  have r3 := Reachable.malloc 16 64 4192 _ r2 (noOverflow_small (by decide) (by decide))
    (afterMalloc_eq (by decide)) (fun h => absurd (by decide) h) (by decide)
  have r4 := Reachable.malloc 16 8 4280 _ r3 (noOverflow_small (by decide) (by decide))
    (afterMalloc_eq (by decide)) (fun h => absurd (by decide) h) (by decide)
  have r5 := Reachable.malloc 16 32 4312 _ r4 (noOverflow_small (by decide) (by decide))
    (afterMalloc_eq (by decide)) (fun h => absurd (by decide) h) (by decide)
  have r6 := Reachable.malloc 16 8 4368 _ r5 (noOverflow_small (by decide) (by decide))
    (afterMalloc_eq (by decide)) (fun h => absurd (by decide) h) (by decide)
  have r7 := Reachable.malloc 16 3768 4400 _ r6 (noOverflow_small (by decide) (by decide))
    (afterMalloc_eq (by decide)) (fun h => absurd (by decide) h) (by decide)
  exact r7

theorem demoList_reachable : Reachable (fun b => b % 8 = 0) 4096 demoList demoLive := by
  have r8 := Reachable.free 16 4312 0 _ demoFull_reachable (by simp [demoFullLive])
    (afterFree_eq (by decide))
  have r9 := Reachable.free 16 4192 0 _ r8 (by simp [demoFullLive]) (afterFree_eq (by decide))
  have r10 := Reachable.free 16 4120 0 _ r9 (by simp [demoFullLive]) (afterFree_eq (by decide))
  exact r10

theorem node_t.ext_fields {x y : node_t} (h1 : x.size = y.size) (h2 : x.next = y.next)
    (h3 : x.magic = y.magic) : x = y := by
  cases x; cases y
  simp only [node_t.mk.injEq]
  exact ⟨h1, h2, h3⟩

theorem myfree_prev_second {s : Heap} {b : Int} (fuel : Nat)
    (hmagic : (s.mem b).magic = ALLOCATED)
    (h1 : ¬ (s.head = b + 24 + (s.mem b).size))
    (h2 : ¬ (s.head + 24 + (s.mem s.head).size = b))
    (hn0 : (s.mem s.head).next ≠ 0)
    (hadj : (s.mem s.head).next + 24 + (s.mem (s.mem s.head).next).size = b) :
    myfree (fuel + 1) s (b + 24) = some (0, mergePrev s b s.head) := by
  refine myfree_of_merge hmagic ?_
  unfold coalescing_free_blocks
  simp only [sizeof_node_t]
  rw [if_neg h1, if_neg h2, coalescing_loop]
  simp only [sizeof_node_t, ne_eq, hn0, not_false_eq_true, if_true, hadj]

theorem myfree_next_second {s : Heap} {a : Int} (fuel : Nat)
    (hmagic : (s.mem a).magic = ALLOCATED)
    (h1 : ¬ (s.head = a + 24 + (s.mem a).size))
    (h2 : ¬ (s.head + 24 + (s.mem s.head).size = a))
    (hn0 : (s.mem s.head).next ≠ 0)
    (hadj1 : ¬ ((s.mem s.head).next + 24 + (s.mem (s.mem s.head).next).size = a))
    (hadj2 : (s.mem s.head).next = a + 24 + (s.mem a).size) :
    myfree (fuel + 1) s (a + 24) = some (0, mergeNext s a s.head) := by
  refine myfree_of_merge hmagic ?_
  unfold coalescing_free_blocks
  simp only [sizeof_node_t]
  rw [if_neg h1, if_neg h2, coalescing_loop]
  simp only [sizeof_node_t, ne_eq, hn0, not_false_eq_true, if_true, hadj1, if_false]
  rw [if_pos hadj2]

/-- Freeing two adjacent live blocks `a`, `b` that have no neighbour on the free
list, in either order. -/
theorem commute_core {ok : Int → Prop} {b0 : Int} {s : Heap} {l : List Int} {A : Set Int}
    {a b : Int} {fuel : Nat} (I : Inv ok b0 s l A) (ha : a ∈ A) (hb : b ∈ A)
    (hadj : a + 24 + (s.mem a).size = b)
    (hiso : ∀ z ∈ l, z + 24 + (s.mem z).size ≠ a ∧ z ≠ b + 24 + (s.mem b).size)
    (hf : l.length + 1 ≤ fuel) :
    ∃ s2 t2, myfree fuel s (a + 24) = some (0, insertSecond s a) ∧
      myfree fuel (insertSecond s a) (b + 24) = some (0, s2) ∧
      myfree fuel s (b + 24) = some (0, insertSecond s b) ∧
      myfree fuel (insertSecond s b) (a + 24) = some (0, t2) ∧
      s2.head = s.head ∧ t2.head = s.head ∧
      FreeList s2 (s.head :: a :: l.tail) ∧ FreeList t2 (s.head :: a :: l.tail) ∧
      (s2.mem a).magic = FREE ∧
      (s2.mem a).size = (s.mem a).size + (s.mem b).size + 24 ∧
      (∀ x, x ≠ a → (s2.mem x).size = (s.mem x).size) ∧
      (∀ x, x ≠ b → s2.mem x = t2.mem x) := by
  obtain ⟨rest, rfl, hrest⟩ := I.cons
  have hhd : s.head ∈ s.head :: rest := List.mem_cons_self _ _
  obtain ⟨a0, a1, a2⟩ := I.blk (Or.inr ha : a ∈ s.head :: rest ∨ a ∈ A)
  obtain ⟨c0, c1, c2⟩ := I.blk (Or.inr hb : b ∈ s.head :: rest ∨ b ∈ A)
  have hlo := I.lo
  have hab : a ≠ b := by omega
  have hla : ∀ z, z ∈ s.head :: rest → z ≠ a := fun z hz e => I.not_both hz (e ▸ ha)
  have hlb : ∀ z, z ∈ s.head :: rest → z ≠ b := fun z hz e => I.not_both hz (e ▸ hb)
  have hnd := I.nodup
  rw [List.nodup_cons] at hnd
  -- the two adjacencies that the invariant excludes
  have hiso2 : ∀ z ∈ s.head :: rest,
      ¬ (z = a + 24 + (s.mem a).size) ∧ ¬ (z + 24 + (s.mem z).size = b) := by
    intro z hz
    have h1 := I.apart (Or.inl hz) (Or.inr ha) (hla z hz)
    obtain ⟨z0, _, _⟩ := I.blk (Or.inl hz : z ∈ s.head :: rest ∨ z ∈ A)
    have := hlb z hz
    constructor <;> omega
  obtain ⟨k, rfl⟩ : ∃ k, fuel = k + 1 := ⟨fuel - 1, by omega⟩
  have hfk : (s.head :: rest).length ≤ k + 1 := by omega
  -- first calls: nothing to merge
  obtain ⟨s1, l1, hfa, _, I1, _, hins1⟩ := myfree_spec I ha hfk
  obtain ⟨rfl, rfl⟩ := hins1 (fun z hz => ⟨(hiso2 z hz).1, (hiso z hz).1⟩)
  obtain ⟨t1, m1, hfb, _, J1, _, hins2⟩ := myfree_spec I hb hfk
  obtain ⟨rfl, rfl⟩ := hins2 (fun z hz => ⟨(hiso z hz).2, (hiso2 z hz).2⟩)
  have hha : s.head ≠ a := hla _ hhd
  have hhb : s.head ≠ b := hlb _ hhd
  -- second calls
  have e1 : ((insertSecond s a).mem s.head).next = a := by
    rw [insertSecond_next]; simp
  have e2 : ((insertSecond s b).mem s.head).next = b := by
    rw [insertSecond_next]; simp
  have hsa : myfree (k + 1) (insertSecond s a) (b + 24) =
      some (0, mergePrev (insertSecond s a) b s.head) := by
    refine myfree_prev_second k ?_ ?_ ?_ ?_ ?_
    · rw [insertSecond_magic]; simp [hab.symm, (I.alloc_ok b hb).1]
    · simp only [insertSecond_head, insertSecond_size]
      exact fun e => (hiso _ hhd).2 e
    · simp only [insertSecond_head, insertSecond_size]
      exact (hiso2 _ hhd).2
    · simp only [insertSecond_head, e1]; omega
    · simp only [insertSecond_head, e1, insertSecond_size]; exact hadj
  have hsb : myfree (k + 1) (insertSecond s b) (a + 24) =
      some (0, mergeNext (insertSecond s b) a s.head) := by
    refine myfree_next_second k ?_ ?_ ?_ ?_ ?_ ?_
    · rw [insertSecond_magic]; simp [hab, (I.alloc_ok a ha).1]
    · simp only [insertSecond_head, insertSecond_size]
      exact (hiso2 _ hhd).1
    · simp only [insertSecond_head, insertSecond_size]
      exact (hiso _ hhd).1
    · simp only [insertSecond_head, e2]; omega
    · simp only [insertSecond_head, e2, insertSecond_size]; omega
    · simp only [insertSecond_head, e2, insertSecond_size]; omega
  refine ⟨_, _, hfa, hsa, hfb, hsb, rfl, rfl, ?_, ?_, ?_, ?_, ?_, ?_⟩
  · refine ⟨?_, I.head_ne⟩
    exact Seg_congr _ _ _ (fun x _ => mergePrev_next _ _ _ x) I1.chain
  · refine ⟨?_, I.head_ne⟩
    have hch : Seg (insertSecond s b).mem s.head (([] ++ [s.head]) ++ b :: rest) 0 := J1.chain
    have := @Seg_replace (insertSecond s b).mem (mergeNext (insertSecond s b) a s.head).mem
      s.head s.head b a [] rest hch (fun x hx => by cases hx) ?_ ?_ (by omega) ?_
    · exact this
    · intro x hx
      rw [mergeNext_next]
      have x1 : x ≠ s.head := fun e => hnd.1 (e ▸ hx)
      have x2 : x ≠ a := hla x (List.mem_cons_of_mem _ hx)
      simp [x1, x2]
    · rw [mergeNext_next]; simp
    · rw [mergeNext_next]
      simp only [insertSecond_head, e2]
      have : ¬ (a = s.head) := fun e => hha e.symm
      simp [this]
  · rw [mergePrev_magic, insertSecond_magic]; simp
  · rw [mergePrev_size]
    simp only [insertSecond_head, e1, insertSecond_size, if_true]
    ring
  · intro x hx
    rw [mergePrev_size]
    simp only [insertSecond_head, e1, insertSecond_size, hx, if_false]
  · intro x hx
    apply node_t.ext_fields
    · rw [mergePrev_size, mergeNext_size _ _ _ _ hha]
      simp only [insertSecond_head, e1, e2, insertSecond_size]
    · rw [mergePrev_next, mergeNext_next]
      simp only [insertSecond_head, e2, insertSecond_next]
      have : ¬ (b = s.head) := fun e => hhb e.symm
      simp only [this, if_false, if_true, hx]
      split_ifs <;> rfl
    · rw [mergePrev_magic, mergeNext_magic, insertSecond_magic, insertSecond_magic]
      simp only [hx, if_false]

/-! ## Claims -/

/-- C1: in every heap state reached from `mymalloc_init` by valid calls (each
`myfree` is given a live pointer, sizes do not overflow, `sbrk` hands out fresh
regions), the address ranges `[p - H, p + size)` of two distinct live blocks
are disjoint. -/
theorem live_blocks_disjoint {b0 : Int} {s : Heap} {L : Set Int}
    (h : Reachable (fun _ => True) b0 s L) {p q : Int} (hp : p ∈ L) (hq : q ∈ L)
    (hne : p ≠ q) :
    p + (s.mem (p - sizeof_node_t)).size ≤ q - sizeof_node_t ∨
      q + (s.mem (q - sizeof_node_t)).size ≤ p - sizeof_node_t := by
  obtain ⟨l, I⟩ := reachable_inv h
  have hp1 : p - 24 ∈ {a : Int | a + 24 ∈ L} := by
    show p - 24 + 24 ∈ L
    rw [sub_add_cancel]; exact hp
  have hq1 : q - 24 ∈ {a : Int | a + 24 ∈ L} := by
    show q - 24 + 24 ∈ L
    rw [sub_add_cancel]; exact hq
  have := I.apart (Or.inr hp1) (Or.inr hq1) (by omega)
  simp only [sizeof_node_t]
  omega

/-- Witness of C1 on the example heap: the live blocks at 4160 and 4280. -/
theorem live_blocks_disjoint_witness :
    Reachable (fun _ => True) 4096 demoList demoLive ∧ (4160 : Int) ∈ demoLive ∧
      (4280 : Int) ∈ demoLive ∧
      ((4160 : Int) + (demoList.mem (4160 - sizeof_node_t)).size ≤ 4280 - sizeof_node_t ∨
        (4280 : Int) + (demoList.mem (4280 - sizeof_node_t)).size ≤ 4160 - sizeof_node_t) :=
  ⟨demoList_reachable.mono (fun _ _ => trivial), by simp [demoLive, demoFullLive], by simp [demoLive, demoFullLive],
    live_blocks_disjoint (demoList_reachable.mono (fun _ _ => trivial)) (by simp [demoLive, demoFullLive])
      (by simp [demoLive, demoFullLive]) (by decide)⟩

/-- C2: if every base address returned by `sbrk` is a multiple of 8, then in
every reachable heap state every live pointer, every allocated header, the head
and every node of the free list is a multiple of 8, and so is the pointer
returned by any further valid call of `mymalloc`. -/
theorem pointers_aligned {b0 : Int} {s : Heap} {L : Set Int}
    (h : Reachable (fun b => b % 8 = 0) b0 s L) :
    (∀ p ∈ L, p % 8 = 0 ∧ (p - sizeof_node_t) % 8 = 0) ∧ s.head % 8 = 0 ∧
      (∀ l, FreeList s l → ∀ x ∈ l, x % 8 = 0) ∧
      (∀ fuel n p s1, NoOverflow n → mymalloc fuel s n = some (p, s1) →
        (s1.brk ≠ s.brk → s.brk % 8 = 0) → s1.brk ≤ b0 + 2147483647 → p % 8 = 0) := by
  have key : ∀ {s : Heap} {L : Set Int}, Reachable (fun b => b % 8 = 0) b0 s L →
      (∀ p ∈ L, p % 8 = 0 ∧ (p - sizeof_node_t) % 8 = 0) ∧ s.head % 8 = 0 ∧
      (∀ l, FreeList s l → ∀ x ∈ l, x % 8 = 0) := by
    intro s L h
    obtain ⟨l, I⟩ := reachable_inv h
    have hl : ∀ x ∈ l, x % 8 = 0 := by
      intro x hx
      obtain ⟨b, hb, hxb⟩ := I.based x (Or.inl hx)
      have hb : b % 8 = 0 := hb
      omega
    refine ⟨?_, ?_, ?_⟩
    · intro p hp
      have hp1 : p - 24 ∈ {a : Int | a + 24 ∈ L} := by
        show p - 24 + 24 ∈ L
        rw [sub_add_cancel]; exact hp
      obtain ⟨b, hb, hxb⟩ := I.based _ (Or.inr hp1)
      have hb : b % 8 = 0 := hb
      simp only [sizeof_node_t]
      omega
    · obtain ⟨rest, rfl, _⟩ := I.cons
      exact hl _ (List.mem_cons_self _ _)
    · intro l1 hl1 x hx
      rw [I.freeList_eq hl1] at hx
      exact hl x hx
  obtain ⟨k1, k2, k3⟩ := key h
  refine ⟨k1, k2, k3, ?_⟩
  intro fuel n p s1 hn hm hok hhi
  exact ((key (Reachable.malloc fuel n p s1 h hn hm hok hhi)).1 p (Set.mem_insert p L)).1

/-- Witness of C2 on the example heap. -/
theorem pointers_aligned_witness :
    Reachable (fun b => b % 8 = 0) 4096 demoList demoLive ∧
      ((∀ p ∈ demoLive, p % 8 = 0 ∧ (p - sizeof_node_t) % 8 = 0) ∧ demoList.head % 8 = 0 ∧
      (∀ l, FreeList demoList l → ∀ x ∈ l, x % 8 = 0) ∧
      (∀ fuel n p s1, NoOverflow n → mymalloc fuel demoList n = some (p, s1) →
        (s1.brk ≠ demoList.brk → demoList.brk % 8 = 0) → s1.brk ≤ 4096 + 2147483647 →
        p % 8 = 0)) :=
  ⟨demoList_reachable, pointers_aligned demoList_reachable⟩

theorem coalescing_free_blocks_total {s : Heap} {l : List Int} (hl : FreeList s l)
    (F : Int) {fuel : Nat} (hf : l.length ≤ fuel) :
    ∃ r, coalescing_free_blocks fuel s F = some r := by
  obtain ⟨hseg, hne⟩ := hl
  cases l with
  | nil => exact absurd hseg hne
  | cons x rest =>
    obtain ⟨h1, _, h3⟩ := hseg
    rw [← h1] at h3
    have hfr : rest.length < fuel := by
      simp only [List.length_cons] at hf
      omega
    unfold coalescing_free_blocks
    simp only []
    split_ifs with c1 c2
    · exact ⟨_, rfl⟩
    · exact ⟨_, rfl⟩
    · rcases first_split (fun z => z + sizeof_node_t + (s.mem z).size = F ∨
          z = F + sizeof_node_t + (s.mem F).size) rest with
        hnone | ⟨pre, y, post, hsplit, hpre, hy⟩
      · exact ⟨_, coalescing_loop_none s F F _ rest s.head fuel h3
          (fun z hz => not_or.1 (hnone z hz)) hfr⟩
      · obtain ⟨q, c, _, _, hr⟩ := coalescing_loop_found s F F
          (F + sizeof_node_t + (s.mem F).size) y post 0 pre s.head fuel (hsplit ▸ h3)
          (fun z hz => not_or.1 (hpre z hz)) hy
          (by rw [hsplit] at hfr; simp only [List.length_append] at hfr; omega)
        exact ⟨_, hr⟩

/-- C4 (the code at the failing input): after `p, q, r = mymalloc(8)` on the fresh
heap and `myfree(p)`, the calls `myfree(q); myfree(q)` both return 0: the first
one merges `q` into the free block before it without tagging its header
`FREE`, so the second one passes the tag check. -/
theorem double_free_returns_zero : doubleFreeTrace = some (0, 0) := by decide

/-- C5: `myfree(p)` returns 1 exactly when the tag of the header at `p - H` is
not `ALLOCATED`, and then the heap state is unchanged; otherwise it returns 0
(it does return when the free list is a finite chain and the fuel covers it). -/
theorem myfree_status (s : Heap) (p : Int) :
    ((s.mem (p - sizeof_node_t)).magic ≠ ALLOCATED → ∀ fuel, myfree fuel s p = some (1, s)) ∧
    ((s.mem (p - sizeof_node_t)).magic = ALLOCATED → ∀ l, FreeList s l →
      ∀ fuel, l.length ≤ fuel → ∃ s1, myfree fuel s p = some (0, s1)) ∧
    (∀ fuel r s1, myfree fuel s p = some (r, s1) →
      (r = 1 ↔ (s.mem (p - sizeof_node_t)).magic ≠ ALLOCATED) ∧ (r = 1 ∨ r = 0) ∧
      (r = 1 → s1 = s)) := by
  refine ⟨?_, ?_, ?_⟩
  · intro h fuel
    unfold myfree
    simp only []
    rw [if_pos h]
  · intro h l hl fuel hf
    obtain ⟨⟨r, s1⟩, hr⟩ := coalescing_free_blocks_total hl (p - sizeof_node_t) hf
    unfold myfree
    simp only [h, ne_eq, not_true_eq_false, if_false, hr]
    split_ifs
    · exact ⟨_, rfl⟩
    · exact ⟨_, rfl⟩
  · intro fuel r s1 h
    unfold myfree at h
    simp only [] at h
    split_ifs at h with c
    · obtain ⟨rfl, rfl⟩ := Prod.mk.inj (Option.some.inj h)
      exact ⟨⟨fun _ => c, fun _ => rfl⟩, Or.inl rfl, fun _ => rfl⟩
    · have c1 : (s.mem (p - sizeof_node_t)).magic = ALLOCATED := not_not.1 c
      cases hc : coalescing_free_blocks fuel s (p - sizeof_node_t) with
      | none => rw [hc] at h; simp at h
      | some x =>
        rw [hc] at h
        simp only [] at h
        have hr : r = 0 := by
          split_ifs at h
          · exact ((Prod.mk.inj (Option.some.inj h)).1).symm
          · exact ((Prod.mk.inj (Option.some.inj h)).1).symm
        subst hr
        exact ⟨⟨fun e => absurd e (by decide), fun e => absurd c1 e⟩, Or.inr rfl,
          fun e => absurd e (by decide)⟩

theorem demoList_freeList : FreeList demoList [8168, 4096, 4168, 4288] :=
  ⟨⟨by decide, by decide, by decide, by decide, by decide, by decide, by decide, by decide,
    (by decide : (demoList.mem 4288).next = 0)⟩, by decide⟩

/-- Witness of C5 on the example heap: 4120 was freed, 4160 is live. -/
theorem myfree_status_witness :
    (demoList.mem (4120 - sizeof_node_t)).magic ≠ ALLOCATED ∧
      myfree 16 demoList 4120 = some (1, demoList) ∧
      (demoList.mem (4160 - sizeof_node_t)).magic = ALLOCATED ∧
      ∃ s1, myfree 16 demoList 4160 = some (0, s1) :=
  ⟨by decide, (myfree_status demoList 4120).1 (by decide) 16, by decide,
    (myfree_status demoList 4160).2.1 (by decide) _ demoList_freeList 16 (by decide)⟩

theorem mymalloc_scan_brk (s : Heap) (B : Int) :
    ∀ (fuel : Nat) (cur : Int) (r : Int × Heap),
      mymalloc_scan fuel s cur B = some (some r) → r.2.brk = s.brk
  | 0, _, _, h => by simp [mymalloc_scan] at h
  | fuel + 1, cur, r, h => by
    rw [mymalloc_scan] at h
    split_ifs at h with h1 h2
    · exact mymalloc_scan_brk s B fuel _ r h
    · have e : splitNext s cur B = r := Option.some.inj (Option.some.inj h)
      rw [← e]; rfl
    · simp at h

theorem num_of_page_loop_sound {B k : Int} {fuel : Nat} (hB : 0 < B + 24)
    (h : num_of_page_loop fuel 1 B = some k) :
    1 ≤ k ∧ B + 24 ≤ k * 4096 ∧ ∀ j : Int, 1 ≤ j → B + 24 ≤ j * 4096 → k ≤ j := by
  obtain ⟨j1, hj, h1, h2, h3⟩ := num_of_page_loop_spec B (fuel + (B + 24).toNat) 1 (le_refl _)
    (by simp only [sizeof_node_t]; omega)
    (by simp only [sizeof_node_t]; push_cast; omega)
  have := num_of_page_loop_mono B fuel 1 k (fuel + (B + 24).toNat) (Nat.le_add_right _ _) h
  rw [hj] at this
  obtain rfl := Option.some.inj this
  simp only [sizeof_node_t] at h2 h3
  refine ⟨h1, h2, fun j hj1 hj2 => ?_⟩
  by_contra hlt
  have := h3 (by omega)
  omega

/-- How `mymalloc` ends: by a split that leaves the break alone, or by growth
with the page count of the loop. -/
theorem mymalloc_cases {s : Heap} {n : Int} {fuel : Nat} {r : Int × Heap}
    (h : mymalloc fuel s n = some r) :
    r.2.brk = s.brk ∨
      ∃ k, num_of_page_loop fuel 1 (blockSize n) = some k ∧ r = grow s (blockSize n) k := by
  unfold mymalloc at h
  simp only [] at h
  split_ifs at h with h1
  · left
    rw [← Option.some.inj h]; rfl
  · cases h2 : mymalloc_scan fuel s s.head (blockSize n) with
    | none => rw [h2] at h; simp at h
    | some o =>
      rw [h2] at h
      cases o with
      | some r1 =>
        left
        simp only [] at h
        rw [← Option.some.inj h]
        exact mymalloc_scan_brk s _ fuel _ r1 h2
      | none =>
        right
        simp only [] at h
        cases h3 : num_of_page_loop fuel 1 (blockSize n) with
        | none => rw [h3] at h; simp at h
        | some k =>
          rw [h3] at h
          exact ⟨k, rfl, (Option.some.inj h).symm⟩

theorem mymalloc_fresh_grows (hd : Int) (m : Int → node_t) (b0 : Int) (n k : Int)
    (hb : blockSize n > 4072) (hk : num_of_page_loop 3 1 (blockSize n) = some k) :
    mymalloc 3 (mymalloc_init ⟨hd, m, b0⟩).2 n =
      some (grow (mymalloc_init ⟨hd, m, b0⟩).2 (blockSize n) k) := by
  have h1 : ((mymalloc_init ⟨hd, m, b0⟩).2.mem (mymalloc_init ⟨hd, m, b0⟩).2.head).size
      = 4072 := by
    simp [mymalloc_init, sizeof_node_t]
  have h2 : ((mymalloc_init ⟨hd, m, b0⟩).2.mem (mymalloc_init ⟨hd, m, b0⟩).2.head).next
      = 0 := by
    simp [mymalloc_init, sizeof_node_t]
  unfold mymalloc
  simp only []
  rw [h1, if_neg]
  · rw [mymalloc_scan, h2]
    simp only [ne_eq, not_true_eq_false, if_false, hk]
  · have : u32 4072 = 4072 := by decide
    rw [this]
    omega

/-- C9 (counterexample): from the fresh heap `mymalloc(4096 - H + 1)` does not
extend the arena by 4096 bytes, and `mymalloc(8192)` does not extend it by 8192
bytes. -/
theorem growth_sizing_counterexample :
    (mymalloc 16 fresh (4096 - sizeof_node_t + 1)).map (fun r => r.2.brk - fresh.brk)
        ≠ some 4096 ∧
      (mymalloc 16 fresh 8192).map (fun r => r.2.brk - fresh.brk) ≠ some 8192 := by
  decide

/-- C9 (amended): from the freshly initialised heap, `mymalloc(4096 - H + 1)`
requests two pages (8192 bytes) from `sbrk` and `mymalloc(8192)` requests three
pages (12288 bytes). -/
theorem growth_sizing_fresh (hd : Int) (m : Int → node_t) (b0 : Int) (fuel : Nat)
    (hf : 3 ≤ fuel) :
    (∃ p s1, mymalloc fuel (mymalloc_init ⟨hd, m, b0⟩).2 (4096 - sizeof_node_t + 1)
        = some (p, s1) ∧ s1.brk = (mymalloc_init ⟨hd, m, b0⟩).2.brk + 2 * 4096) ∧
      (∃ p s1, mymalloc fuel (mymalloc_init ⟨hd, m, b0⟩).2 8192 = some (p, s1) ∧
        s1.brk = (mymalloc_init ⟨hd, m, b0⟩).2.brk + 3 * 4096) := by
  constructor
  · have h := mymalloc_fresh_grows hd m b0 (4096 - sizeof_node_t + 1) 2 (by decide) (by decide)
    exact ⟨_, _, mymalloc_mono hf h, by simp⟩
  · have h := mymalloc_fresh_grows hd m b0 8192 3 (by decide) (by decide)
    exact ⟨_, _, mymalloc_mono hf h, by simp⟩

/-- Witness of the amended C9 on the fresh heap at address 4096. -/
theorem growth_sizing_fresh_witness :
    (∃ p s1, mymalloc 16 fresh (4096 - sizeof_node_t + 1) = some (p, s1) ∧
        s1.brk = fresh.brk + 2 * 4096) ∧
      (∃ p s1, mymalloc 16 fresh 8192 = some (p, s1) ∧ s1.brk = fresh.brk + 3 * 4096) :=
  growth_sizing_fresh 0 (fun _ => ⟨0, 0, 0⟩) 4096 16 (by decide)

/-- C6: round trip.  In every reachable heap state and for every `N` without
size overflow, `p = mymalloc(N)` returns; if the arena stays within the `int`
range, `myfree(p)` returns 0 and the next `mymalloc(N)` returns a non-null
pointer without moving the break, that is without calling `sbrk`. -/
theorem round_trip {b0 : Int} {s : Heap} {L : Set Int}
    (h : Reachable (fun _ => True) b0 s L) {n : Int} (hn : NoOverflow n) :
    ∃ f0 : Nat, ∀ fuel, f0 ≤ fuel → ∃ p s1, mymalloc fuel s n = some (p, s1) ∧
      (s1.brk ≤ b0 + 2147483647 →
        ∃ s2, (∃ f1 : Nat, ∀ fuel1, f1 ≤ fuel1 → myfree fuel1 s1 p = some (0, s2)) ∧
          ∃ f2 : Nat, ∀ fuel2, f2 ≤ fuel2 →
            ∃ q s3, mymalloc fuel2 s2 n = some (q, s3) ∧ q ≠ 0 ∧ s3.brk = s2.brk) := by
  obtain ⟨l, I⟩ := reachable_inv h
  refine ⟨l.length + (blockSize n + 24).toNat, fun fuel hf => ?_⟩
  obtain ⟨hf1, hf2⟩ := fuel_enough l (blockSize n) fuel hf
  obtain ⟨F, s1, l1, hm, _, _, hsz, _, hnext, _, _, hI⟩ := mymalloc_spec I hn hf1 hf2
  refine ⟨F + 24, s1, hm, fun hhi => ?_⟩
  have I1 := hI (fun _ => trivial) hhi
  have hFA : F ∈ insert F {a : Int | a + 24 ∈ L} := Set.mem_insert _ _
  obtain ⟨s2, l2, hfree, _, I2, hadj, _⟩ := myfree_spec I1 hFA (le_refl l1.length)
  refine ⟨s2, ⟨l1.length, fun fuel1 hf1 => myfree_mono hf1 hfree⟩, ?_⟩
  obtain ⟨x, hx, hxs⟩ := hadj ⟨F + blockSize n, hnext, Or.inl (by rw [hsz]; ring)⟩
  rw [hsz] at hxs
  refine ⟨l2.length + (blockSize n + 24).toNat, fun fuel2 hf => ?_⟩
  obtain ⟨hf3, hf4⟩ := fuel_enough l2 (blockSize n) fuel2 hf
  obtain ⟨G, s3, l3, hm3, _, hG, _, _, _, _, hbrk, _⟩ := mymalloc_spec I2 hn hf3 hf4
  exact ⟨G + 24, s3, hm3, by omega, hbrk ⟨x, hx, by omega⟩⟩

/-- Witness of C6 on the example heap. -/
theorem round_trip_witness :
    Reachable (fun _ => True) 4096 demoList demoLive ∧ NoOverflow 200 ∧
    ∃ f0 : Nat, ∀ fuel, f0 ≤ fuel → ∃ p s1, mymalloc fuel demoList 200 = some (p, s1) ∧
      (s1.brk ≤ 4096 + 2147483647 →
        ∃ s2, (∃ f1 : Nat, ∀ fuel1, f1 ≤ fuel1 → myfree fuel1 s1 p = some (0, s2)) ∧
          ∃ f2 : Nat, ∀ fuel2, f2 ≤ fuel2 →
            ∃ q s3, mymalloc fuel2 s2 200 = some (q, s3) ∧ q ≠ 0 ∧ s3.brk = s2.brk) :=
  ⟨demoList_reachable.mono (fun _ _ => trivial), noOverflow_small (by decide) (by decide),
    round_trip (demoList_reachable.mono (fun _ _ => trivial))
      (noOverflow_small (by decide) (by decide))⟩

/-- C8: first fit.  On a reachable heap whose free list is the head followed
by `rest`, with `B = roundup8 (n + H)`: if the head has size at least `B` the
request is served from the head; otherwise it is served from the first node
`y` of `rest` of size at least `B` (every node before it being smaller), whatever
comes after it.  The pointer returned is that node plus `H`. -/
theorem first_fit {b0 : Int} {s : Heap} {L : Set Int}
    (h : Reachable (fun _ => True) b0 s L) {n : Int} (hn : NoOverflow n)
    {rest : List Int} (hl : FreeList s (s.head :: rest)) :
    (roundup8 (n + sizeof_node_t) ≤ (s.mem s.head).size →
      ∀ fuel, ∃ s1, mymalloc fuel s n = some (s.head + sizeof_node_t, s1)) ∧
    ((s.mem s.head).size < roundup8 (n + sizeof_node_t) →
      ∀ pre y post, rest = pre ++ y :: post →
        (∀ z ∈ pre, (s.mem z).size < roundup8 (n + sizeof_node_t)) →
        roundup8 (n + sizeof_node_t) ≤ (s.mem y).size →
        ∀ fuel, pre.length < fuel →
          ∃ s1, mymalloc fuel s n = some (y + sizeof_node_t, s1)) := by
  obtain ⟨l, I⟩ := reachable_inv h
  have hl1 := I.freeList_eq hl
  subst hl1
  obtain ⟨_, hB1, _, _⟩ := blockSize_bounds hn
  have hn0 : 0 ≤ n := hn.1
  have hhd : s.head ∈ s.head :: rest ∨ s.head ∈ {a : Int | a + 24 ∈ L} :=
    Or.inl (List.mem_cons_self _ _)
  rw [← blockSize_eq hn]
  constructor
  · intro hfit fuel
    refine ⟨(splitHead s (blockSize n)).2, ?_⟩
    unfold mymalloc
    simp only []
    rw [if_pos]
    · rfl
    · rw [I.u32_size hhd]; exact hfit
  · intro hsmall pre y post hsplit hpre hy fuel hf
    have hmem : ∀ z, z ∈ rest → z ∈ s.head :: rest ∨ z ∈ {a : Int | a + 24 ∈ L} :=
      fun z hz => Or.inl (List.mem_cons_of_mem _ hz)
    have hyr : y ∈ rest := by rw [hsplit]; simp
    obtain ⟨q, c, hq, hc, hr⟩ := mymalloc_scan_found s (blockSize n) y post 0 pre s.head fuel
      (hsplit ▸ hl.1.2.2)
      (fun z hz => by
        rw [I.u32_size (hmem z (by rw [hsplit]; simp [hz]))]
        exact hpre z hz)
      (by rw [I.u32_size (hmem y hyr)]; omega) hf
    have hcl : c ∈ s.head :: rest := by
      have : c ∈ s.head :: pre := by rw [hq]; simp
      rw [hsplit]
      rcases List.mem_cons.1 this with e | e
      · exact e ▸ List.mem_cons_self _ _
      · exact List.mem_cons_of_mem _ (by simp [e])
    have hcne : c ≠ (s.mem c).next + blockSize n := by
      rw [hc]
      exact I.inner_ne (Or.inl hcl) (hmem y hyr) (by omega) hy
    refine ⟨(splitNext s c (blockSize n)).2, ?_⟩
    unfold mymalloc
    simp only []
    rw [if_neg, hr]
    · simp only []
      congr 1
      exact Prod.ext (by rw [splitNext_fst s c _ hcne, hc]; rfl) rfl
    · rw [I.u32_size hhd]
      omega

/-- Witness of C8: the free list of the example heap is a head of size 0
followed by nodes of size 16, 64 and 32; a request of 8 bytes (`B = 32`) is
served from the node of size 64, not from the node of size 32. -/
theorem first_fit_witness :
    FreeList demoList [8168, 4096, 4168, 4288] ∧ (demoList.mem 8168).size = 0 ∧
      (demoList.mem 4096).size = 16 ∧ (demoList.mem 4168).size = 64 ∧
      (demoList.mem 4288).size = 32 ∧ roundup8 (8 + sizeof_node_t) = 32 ∧
      ∃ s1, mymalloc 16 demoList 8 = some (4168 + sizeof_node_t, s1) :=
  ⟨demoList_freeList, by decide, by decide, by decide, by decide, by decide,
    (first_fit (demoList_reachable.mono (fun _ _ => trivial))
      (noOverflow_small (by decide) (by decide)) demoList_freeList).2 (by decide)
      [4096] 4168 [4288] rfl (by decide) (by decide) 16 (by decide)⟩

/-- C7 (counterexample): `twoBlocks` has two adjacent live blocks of payload 8 at
4096 and 4128, followed by the head.  Freeing the first then the second leaves
the head at 4128 with size 4040, linked to a second free node at 4096; freeing
the second then the first leaves one free block at 4096 with size 4072.  Neither
order yields a free block of size `8 + 8 + H = 40`, and the results differ. -/
theorem coalescing_order_counterexample :
    (twoBlocks.mem 4096).magic = ALLOCATED ∧ (twoBlocks.mem 4128).magic = ALLOCATED ∧
      blkEnd twoBlocks.mem 4096 = 4128 ∧
      (twoBlocks.mem 4096).size + (twoBlocks.mem 4128).size + sizeof_node_t = 40 ∧
      freeBoth twoBlocks 4120 4152 = some (0, 0, 4128, 4040, 4096) ∧
      freeBoth twoBlocks 4152 4120 = some (0, 0, 4096, 4072, 0) := by
  decide

/-- C7 (amended): in a reachable heap state let `a` and `b` be the headers of two
live blocks with `a`'s end equal to `b`, such that no node of the free list
(the head included) ends at `a` or starts at the end of `b`.  Then freeing `a`
then `b` and freeing `b` then `a` both return 0 and both leave the free list
`head, a, rest` (the old list being `head, rest`), where `a` is tagged `FREE`
with size `a.size + b.size + H`, no other size has changed, and the two final
memories agree on every header other than the absorbed header `b`. -/
theorem coalescing_commutes_isolated {b0 : Int} {s : Heap} {L : Set Int}
    (h : Reachable (fun _ => True) b0 s L) {a b : Int}
    (ha : a + sizeof_node_t ∈ L) (hb : b + sizeof_node_t ∈ L)
    (hadj : blkEnd s.mem a = b)
    (hiso : ∀ l, FreeList s l → ∀ z ∈ l, blkEnd s.mem z ≠ a ∧ z ≠ blkEnd s.mem b) :
    ∃ f0 : Nat, ∀ fuel, f0 ≤ fuel → ∃ s1 s2 t1 t2,
      myfree fuel s (a + sizeof_node_t) = some (0, s1) ∧
      myfree fuel s1 (b + sizeof_node_t) = some (0, s2) ∧
      myfree fuel s (b + sizeof_node_t) = some (0, t1) ∧
      myfree fuel t1 (a + sizeof_node_t) = some (0, t2) ∧
      s2.head = s.head ∧ t2.head = s.head ∧
      (∀ l, FreeList s l →
        FreeList s2 (s.head :: a :: l.tail) ∧ FreeList t2 (s.head :: a :: l.tail)) ∧
      (s2.mem a).magic = FREE ∧
      (s2.mem a).size = (s.mem a).size + (s.mem b).size + sizeof_node_t ∧
      (∀ x, x ≠ a → (s2.mem x).size = (s.mem x).size) ∧
      (∀ x, x ≠ b → s2.mem x = t2.mem x) := by
  obtain ⟨l, I⟩ := reachable_inv h
  refine ⟨l.length + 1, fun fuel hf => ?_⟩
  have hiso1 := hiso l I.freeList
  unfold blkEnd at hadj hiso1
  simp only [sizeof_node_t] at ha hb hadj hiso1 ⊢
  obtain ⟨s2, t2, h1, h2, h3, h4, h5, h6, h7, h8, h9, h10, h11, h12⟩ :=
    commute_core I ha hb hadj hiso1 hf
  refine ⟨_, s2, _, t2, h1, h2, h3, h4, h5, h6, ?_, h9, h10, h11, h12⟩
  intro l1 hl1
  rw [I.freeList_eq hl1]
  exact ⟨h7, h8⟩

theorem demoFull_freeList : FreeList demoFull [8168] :=
  ⟨⟨by decide, by decide, (by decide : (demoFull.mem 8168).next = 0)⟩, by decide⟩

/-- Witness of the amended C7: the live blocks at 4096 and 4136 of `demoFull`,
whose free list is the head at 8168 alone. -/
theorem coalescing_commutes_isolated_witness :
    Reachable (fun _ => True) 4096 demoFull demoFullLive ∧
    (4096 : Int) + sizeof_node_t ∈ demoFullLive ∧ (4136 : Int) + sizeof_node_t ∈ demoFullLive ∧
    blkEnd demoFull.mem 4096 = 4136 ∧
    ∃ f0 : Nat, ∀ fuel, f0 ≤ fuel → ∃ s1 s2 t1 t2,
      myfree fuel demoFull (4096 + sizeof_node_t) = some (0, s1) ∧
      myfree fuel s1 (4136 + sizeof_node_t) = some (0, s2) ∧
      myfree fuel demoFull (4136 + sizeof_node_t) = some (0, t1) ∧
      myfree fuel t1 (4096 + sizeof_node_t) = some (0, t2) ∧
      s2.head = demoFull.head ∧ t2.head = demoFull.head ∧
      (∀ l, FreeList demoFull l →
        FreeList s2 (demoFull.head :: 4096 :: l.tail) ∧
        FreeList t2 (demoFull.head :: 4096 :: l.tail)) ∧
      (s2.mem 4096).magic = FREE ∧
      (s2.mem 4096).size = (demoFull.mem 4096).size + (demoFull.mem 4136).size
        + sizeof_node_t ∧
      (∀ x, x ≠ 4096 → (s2.mem x).size = (demoFull.mem x).size) ∧
      (∀ x, x ≠ 4136 → s2.mem x = t2.mem x) :=
  ⟨demoFull_reachable.mono (fun _ _ => trivial), by simp [demoFullLive, sizeof_node_t],
    by simp [demoFullLive, sizeof_node_t], by decide,
    coalescing_commutes_isolated (demoFull_reachable.mono (fun _ _ => trivial))
      (by simp [demoFullLive, sizeof_node_t]) (by simp [demoFullLive, sizeof_node_t])
      (by decide)
      (fun l hl z hz => by
        rw [Seg_unique l [8168] _ hl.1 demoFull_freeList.1, List.mem_singleton] at hz
        subst hz
        decide)⟩

theorem roundup8_least (x : Int) :
    roundup8 x % 8 = 0 ∧ x ≤ roundup8 x ∧ ∀ m : Int, m % 8 = 0 → x ≤ m → roundup8 x ≤ m := by
  unfold roundup8
  refine ⟨by omega, by omega, fun m h1 h2 => by omega⟩

/-- C11 (counterexample): after `mymalloc_init`, the block returned by
`mymalloc(100)` records the size 104 in its header, not `roundup8 (100 + H) = 128`. -/
theorem usable_size_counterexample :
    roundup8 (100 + sizeof_node_t) = 128 ∧
      (mymalloc 16 fresh 100).map (fun r => (r.2.mem (r.1 - sizeof_node_t)).size) = some 104 ∧
      (mymalloc 16 fresh 100).map (fun r => (r.2.mem (r.1 - sizeof_node_t)).size) ≠ some 128 := by
  decide

theorem mymalloc_init_sbrk_ok (s : Heap) : mymalloc_init_sbrk true s = mymalloc_init s := rfl

/-- C12 (the code at the failing input): when `sbrk(4096)` fails and returns
`(void *) -1`, `mymalloc_init` still returns the status 0, with `head` set to
that value; when the provider supplies the page it returns 0 with a single
`FREE` head block of size `4096 - H` and a `NULL` link. -/
theorem mymalloc_init_status (s : Heap) :
    (mymalloc_init_sbrk false s).1 = 0 ∧ (mymalloc_init_sbrk false s).2.head = -1 ∧
    (mymalloc_init_sbrk true s).1 = 0 ∧ (mymalloc_init_sbrk true s).2.head = s.brk ∧
    ((mymalloc_init_sbrk true s).2.mem s.brk).magic = FREE ∧
    ((mymalloc_init_sbrk true s).2.mem s.brk).size = 4096 - sizeof_node_t ∧
    ((mymalloc_init_sbrk true s).2.mem s.brk).next = 0 := by
  simp [mymalloc_init_sbrk, sbrk]

/-- C14 (the code at the failing input): before `mymalloc(5000)` the free list
is the head and then the freed block at 4096; after the growth the head at 4160
is linked to the remainder of the new region at 13216, whose link is `NULL`: the
block at 4096 is no longer on the free list. -/
theorem growth_drops_free_list : growthDropTrace = some (4096, 4160, 13216, 0) := by
  decide

/-! ## Termination and result of the scans on a finite chain -/

theorem mymalloc_scan_total {s : Heap} {l : List Int} (hl : FreeList s l) (B : Int)
    {fuel : Nat} (hf : l.length ≤ fuel) :
    ∃ r, mymalloc_scan fuel s s.head B = some r := by
  obtain ⟨hseg, hne⟩ := hl
  cases l with
  | nil => exact absurd hseg hne
  | cons x rest =>
    obtain ⟨h1, _, h3⟩ := hseg
    rw [← h1] at h3
    have hfr : rest.length < fuel := by
      simp only [List.length_cons] at hf
      omega
    rcases first_split (fun z => ¬ u32 (s.mem z).size < B) rest with
      hnone | ⟨pre, y, post, hsplit, hpre, hy⟩
    · exact ⟨_, mymalloc_scan_none s B rest s.head fuel h3
        (fun z hz => not_not.1 (hnone z hz)) hfr⟩
    · obtain ⟨q, c, _, _, hr⟩ := mymalloc_scan_found s B y post 0 pre s.head fuel
        (hsplit ▸ h3) (fun z hz => not_not.1 (hpre z hz)) hy
        (by rw [hsplit] at hfr; simp only [List.length_append] at hfr; omega)
      exact ⟨_, hr⟩

theorem coalescing_loop_status (s : Heap) (ptr start end_ : Int) :
    ∀ (fuel : Nat) (cur r : Int) (s1 : Heap),
      coalescing_loop fuel s ptr start end_ cur = some (r, s1) →
      r = 0 ∨ (r = 1 ∧ s1 = s)
  | 0, _, _, _, h => by simp [coalescing_loop] at h
  | fuel + 1, cur, r, s1, h => by
    rw [coalescing_loop] at h
    simp only [] at h
    split_ifs at h with h1 h2 h3
    · exact Or.inl (Prod.mk.inj (Option.some.inj h)).1.symm
    · exact Or.inl (Prod.mk.inj (Option.some.inj h)).1.symm
    · exact coalescing_loop_status s ptr start end_ fuel _ r s1 h
    · obtain ⟨e1, e2⟩ := Prod.mk.inj (Option.some.inj h)
      exact Or.inr ⟨e1.symm, e2.symm⟩

theorem coalescing_status {s : Heap} {F r : Int} {s1 : Heap} {fuel : Nat}
    (h : coalescing_free_blocks fuel s F = some (r, s1)) : r = 0 ∨ (r = 1 ∧ s1 = s) := by
  unfold coalescing_free_blocks at h
  simp only [] at h
  split_ifs at h with h1 h2
  · exact Or.inl (Prod.mk.inj (Option.some.inj h)).1.symm
  · exact Or.inl (Prod.mk.inj (Option.some.inj h)).1.symm
  · exact coalescing_loop_status s _ _ _ fuel _ r s1 h

theorem coalescing_one_eq {s : Heap} {F : Int} {fuel : Nat}
    (h : (coalescing_free_blocks fuel s F).map Prod.fst = some 1) :
    coalescing_free_blocks fuel s F = some (1, s) := by
  cases hc : coalescing_free_blocks fuel s F with
  | none => rw [hc] at h; simp at h
  | some x =>
    obtain ⟨r, s1⟩ := x
    rw [hc] at h
    simp only [Option.map_some', Option.some.injEq] at h
    subst h
    rcases coalescing_status hc with e | ⟨_, e⟩
    · exact absurd e (by decide)
    · rw [e]

/-- C17: on a heap whose free list is a finite chain, `coalescing_free_blocks`
returns (with fuel for its scan) 0 exactly when some node of the free list, the
head or a later node, is physically adjacent to the freed block on either side;
otherwise it returns 1 and leaves the head pointer and the memory unchanged. -/
theorem coalescing_reports_adjacency {s : Heap} {l : List Int} (hl : FreeList s l)
    (F : Int) {fuel : Nat} (hf : l.length ≤ fuel) :
    ∃ r s1, coalescing_free_blocks fuel s F = some (r, s1) ∧ (r = 0 ∨ r = 1) ∧
      (r = 0 ↔ ∃ z ∈ l, blkEnd s.mem z = F ∨ blkEnd s.mem F = z) ∧
      ((¬ ∃ z ∈ l, blkEnd s.mem z = F ∨ blkEnd s.mem F = z) → r = 1 ∧ s1 = s) := by
  obtain ⟨hseg, hne⟩ := hl
  cases l with
  | nil => exact absurd hseg hne
  | cons x rest =>
    obtain ⟨h1, _, h3⟩ := hseg
    subst h1
    have hfr : rest.length < fuel := by
      simp only [List.length_cons] at hf
      omega
    have hhd : s.head ∈ s.head :: rest := List.mem_cons_self _ _
    unfold blkEnd
    by_cases c1 : s.head = F + sizeof_node_t + (s.mem F).size
    · have hco : coalescing_free_blocks fuel s F = some (0, mergeHead s F) := by
        unfold coalescing_free_blocks
        simp only []
        rw [if_pos c1]
      exact ⟨0, _, hco, Or.inl rfl, ⟨fun _ => ⟨_, hhd, Or.inr c1.symm⟩, fun _ => rfl⟩,
        fun h => absurd ⟨_, hhd, Or.inr c1.symm⟩ h⟩
    · by_cases c2 : s.head + sizeof_node_t + (s.mem s.head).size = F
      · have hco : coalescing_free_blocks fuel s F = some (0, growHead s F) := by
          unfold coalescing_free_blocks
          simp only []
          rw [if_neg c1, if_pos c2]
        exact ⟨0, _, hco, Or.inl rfl, ⟨fun _ => ⟨_, hhd, Or.inl c2⟩, fun _ => rfl⟩,
          fun h => absurd ⟨_, hhd, Or.inl c2⟩ h⟩
      · have hco0 : coalescing_free_blocks fuel s F =
            coalescing_loop fuel s F F (F + sizeof_node_t + (s.mem F).size) s.head := by
          unfold coalescing_free_blocks
          simp only []
          rw [if_neg c1, if_neg c2]
        rcases first_split (fun z => z + sizeof_node_t + (s.mem z).size = F ∨
            z = F + sizeof_node_t + (s.mem F).size) rest with
          hnone | ⟨pre, y, post, hsplit, hpre, hy⟩
        · have hco : coalescing_free_blocks fuel s F = some (1, s) := by
            rw [hco0]
            exact coalescing_loop_none s F F _ rest s.head fuel h3
              (fun z hz => not_or.1 (hnone z hz)) hfr
          have hno : ¬ ∃ z ∈ s.head :: rest, z + sizeof_node_t + (s.mem z).size = F ∨
              F + sizeof_node_t + (s.mem F).size = z := by
            rintro ⟨z, hz, hadj⟩
            rcases List.mem_cons.1 hz with rfl | hz1
            · rcases hadj with e | e
              · exact c2 e
              · exact c1 e.symm
            · rcases hadj with e | e
              · exact hnone z hz1 (Or.inl e)
              · exact hnone z hz1 (Or.inr e.symm)
          exact ⟨1, s, hco, Or.inr rfl,
            ⟨fun e => absurd e (by decide), fun h => absurd h hno⟩, fun _ => ⟨rfl, rfl⟩⟩
        · obtain ⟨q, c, _, _, hr⟩ := coalescing_loop_found s F F
            (F + sizeof_node_t + (s.mem F).size) y post 0 pre s.head fuel (hsplit ▸ h3)
            (fun z hz => not_or.1 (hpre z hz)) hy
            (by rw [hsplit] at hfr; simp only [List.length_append] at hfr; omega)
          rw [← hco0] at hr
          have hyl : y ∈ s.head :: rest := by rw [hsplit]; simp
          have hex : ∃ z ∈ s.head :: rest, z + sizeof_node_t + (s.mem z).size = F ∨
              F + sizeof_node_t + (s.mem F).size = z := by
            rcases hy with e | e
            · exact ⟨y, hyl, Or.inl e⟩
            · exact ⟨y, hyl, Or.inr e.symm⟩
          exact ⟨0, _, hr, Or.inl rfl, ⟨fun _ => hex, fun _ => rfl⟩, fun h => absurd hex h⟩

/-- Witness of C17 on the example heap: the live block at 4136 follows the free
node at 4096, the free node at 4168 follows it. -/
theorem coalescing_reports_adjacency_witness :
    FreeList demoList [8168, 4096, 4168, 4288] ∧
    ∃ r s1, coalescing_free_blocks 16 demoList 4136 = some (r, s1) ∧ (r = 0 ∨ r = 1) ∧
      (r = 0 ↔ ∃ z ∈ [8168, 4096, 4168, 4288],
        blkEnd demoList.mem z = 4136 ∨ blkEnd demoList.mem 4136 = z) ∧
      ((¬ ∃ z ∈ [8168, 4096, 4168, 4288],
        blkEnd demoList.mem z = 4136 ∨ blkEnd demoList.mem 4136 = z) → r = 1 ∧ s1 = demoList) :=
  ⟨demoList_freeList, coalescing_reports_adjacency demoList_freeList 4136 (by decide)⟩

/-- C16: in every reachable heap state the free list is a finite chain from
the head to the `NULL` link without repeated nodes; the head and every node of
the chain is tagged `FREE` and is not the header of a live allocated block; and
the scans of `mymalloc` and `coalescing_free_blocks` return once the fuel covers
the length of the chain. -/
theorem free_list_well_formed {b0 : Int} {s : Heap} {L : Set Int}
    (h : Reachable (fun _ => True) b0 s L) :
    ∃ l, FreeList s l ∧ l.Nodup ∧ s.head ∈ l ∧ (s.mem s.head).magic = FREE ∧
      (∀ x ∈ l, (s.mem x).magic = FREE ∧ x + sizeof_node_t ∉ L) ∧
      (∀ fuel, l.length ≤ fuel → ∀ B, ∃ r, mymalloc_scan fuel s s.head B = some r) ∧
      (∀ fuel, l.length ≤ fuel → ∀ F, ∃ r, coalescing_free_blocks fuel s F = some r) := by
  obtain ⟨l, I⟩ := reachable_inv h
  have hhd : s.head ∈ l := by
    obtain ⟨rest, rfl, _⟩ := I.cons
    exact List.mem_cons_self _ _
  refine ⟨l, I.freeList, I.nodup, hhd, (I.free_ok _ hhd).1, ?_, ?_, ?_⟩
  · intro x hx
    refine ⟨(I.free_ok x hx).1, ?_⟩
    intro hL
    exact I.not_both hx (by simpa [sizeof_node_t] using hL)
  · intro fuel hf B
    exact mymalloc_scan_total I.freeList B hf
  · intro fuel hf F
    exact coalescing_free_blocks_total I.freeList F hf

/-- Witness of C16 on the example heap. -/
theorem free_list_well_formed_witness :
    Reachable (fun _ => True) 4096 demoList demoLive ∧
    ∃ l, FreeList demoList l ∧ l.Nodup ∧ demoList.head ∈ l ∧
      (demoList.mem demoList.head).magic = FREE ∧
      (∀ x ∈ l, (demoList.mem x).magic = FREE ∧ x + sizeof_node_t ∉ demoLive) ∧
      (∀ fuel, l.length ≤ fuel → ∀ B, ∃ r, mymalloc_scan fuel demoList demoList.head B = some r) ∧
      (∀ fuel, l.length ≤ fuel → ∀ F, ∃ r, coalescing_free_blocks fuel demoList F = some r) :=
  ⟨demoList_reachable.mono (fun _ _ => trivial),
    free_list_well_formed (demoList_reachable.mono (fun _ _ => trivial))⟩

theorem mergeHead_frame (s : Heap) (F x : Int) (hx : x ≠ F) :
    (mergeHead s F).mem x = s.mem x := by
  simp [mergeHead, setSize, setNext, setMagic, hx]

theorem growHead_frame (s : Heap) (F x : Int) (hx : x ≠ s.head) :
    (growHead s F).mem x = s.mem x := by
  simp [growHead, setSize, hx]

/-- C18: the head cases of `coalescing_free_blocks`.  (1) If the freed block
ends at the head, the freed block becomes the head, tagged `FREE`, with size
`freed.size + H + old head.size` and the link of the old head.  (2) Otherwise, if
the head ends at the freed header, the head stays the head with its link
unchanged and its size grown by `H + freed.size`, so that it ends where the freed
block ended.  In both cases the status is 0 and no other header changes. -/
theorem coalescing_head_cases (s : Heap) (F : Int) (fuel : Nat) :
    (s.head = blkEnd s.mem F →
      ∃ s1, coalescing_free_blocks fuel s F = some (0, s1) ∧ s1.head = F ∧
        (s1.mem F).magic = FREE ∧
        (s1.mem F).size = (s.mem F).size + sizeof_node_t + (s.mem s.head).size ∧
        (s1.mem F).next = (s.mem s.head).next ∧ ∀ x, x ≠ F → s1.mem x = s.mem x) ∧
    (s.head ≠ blkEnd s.mem F → blkEnd s.mem s.head = F →
      ∃ s1, coalescing_free_blocks fuel s F = some (0, s1) ∧ s1.head = s.head ∧
        (s1.mem s.head).next = (s.mem s.head).next ∧
        (s1.mem s.head).magic = (s.mem s.head).magic ∧
        (s1.mem s.head).size = (s.mem s.head).size + sizeof_node_t + (s.mem F).size ∧
        blkEnd s1.mem s.head = blkEnd s.mem F ∧ ∀ x, x ≠ s.head → s1.mem x = s.mem x) := by
  unfold blkEnd
  constructor
  · intro c1
    refine ⟨mergeHead s F, ?_, rfl, ?_, ?_, ?_, mergeHead_frame s F⟩
    · unfold coalescing_free_blocks
      simp only []
      rw [if_pos c1]
    · rw [mergeHead_magic]; simp
    · rw [mergeHead_size]; simp [sizeof_node_t]
    · rw [mergeHead_next]; simp
  · intro c1 c2
    refine ⟨growHead s F, ?_, rfl, growHead_next s F _, growHead_magic s F _, ?_, ?_,
      growHead_frame s F⟩
    · unfold coalescing_free_blocks
      simp only []
      rw [if_neg c1, if_pos c2]
    · rw [growHead_size]; simp [sizeof_node_t]
    · rw [growHead_size]
      simp only [if_true, sizeof_node_t] at c2 ⊢
      omega

/-- Witness of C18: after `mymalloc(8)` on the fresh heap the block at 4096 ends
at the head 4128; after `mymalloc(5000)` on the fresh heap the head at 4096 ends
at the block at 8192. -/
theorem coalescing_head_cases_witness :
    ((afterMalloc fresh 8).head = blkEnd (afterMalloc fresh 8).mem 4096 ∧
      ∃ s1, coalescing_free_blocks 16 (afterMalloc fresh 8) 4096 = some (0, s1) ∧
        s1.head = 4096 ∧ (s1.mem 4096).magic = FREE ∧
        (s1.mem 4096).size = ((afterMalloc fresh 8).mem 4096).size + sizeof_node_t +
          ((afterMalloc fresh 8).mem (afterMalloc fresh 8).head).size ∧
        (s1.mem 4096).next = ((afterMalloc fresh 8).mem (afterMalloc fresh 8).head).next ∧
        ∀ x, x ≠ 4096 → s1.mem x = (afterMalloc fresh 8).mem x) ∧
    ((afterMalloc fresh 5000).head ≠ blkEnd (afterMalloc fresh 5000).mem 8192 ∧
      blkEnd (afterMalloc fresh 5000).mem (afterMalloc fresh 5000).head = 8192 ∧
      ∃ s1, coalescing_free_blocks 16 (afterMalloc fresh 5000) 8192 = some (0, s1) ∧
        s1.head = (afterMalloc fresh 5000).head ∧
        (s1.mem (afterMalloc fresh 5000).head).next =
          ((afterMalloc fresh 5000).mem (afterMalloc fresh 5000).head).next ∧
        (s1.mem (afterMalloc fresh 5000).head).magic =
          ((afterMalloc fresh 5000).mem (afterMalloc fresh 5000).head).magic ∧
        (s1.mem (afterMalloc fresh 5000).head).size =
          ((afterMalloc fresh 5000).mem (afterMalloc fresh 5000).head).size + sizeof_node_t +
            ((afterMalloc fresh 5000).mem 8192).size ∧
        blkEnd s1.mem (afterMalloc fresh 5000).head = blkEnd (afterMalloc fresh 5000).mem 8192 ∧
        ∀ x, x ≠ (afterMalloc fresh 5000).head → s1.mem x = (afterMalloc fresh 5000).mem x) :=
  ⟨⟨by decide, (coalescing_head_cases (afterMalloc fresh 8) 4096 16).1 (by decide)⟩,
    ⟨by decide, by decide,
      (coalescing_head_cases (afterMalloc fresh 5000) 8192 16).2 (by decide) (by decide)⟩⟩

theorem insertSecond_frame (s : Heap) (F x : Int) (h1 : x ≠ s.head) (h2 : x ≠ F) :
    (insertSecond s F).mem x = s.mem x := by
  simp [insertSecond, setSize, setNext, setMagic, h1, h2]

/-- C19: on a reachable heap, when `coalescing_free_blocks` reports no merge for
the header `F` of a live pointer, `myfree` returns 0, tags `F` as `FREE`, keeps its
size and inserts it second in the free list: the link of `F` is the previous
link of the head and the link of the head is `F`; the head pointer, the size and
tag of the head and every other header are unchanged, and the free list
`head, rest` becomes `head, F, rest`. -/
theorem myfree_inserts_second {b0 : Int} {s : Heap} {L : Set Int}
    (h : Reachable (fun _ => True) b0 s L) {p : Int} (hp : p ∈ L) {fuel : Nat} {s0 : Heap}
    (hno : coalescing_free_blocks fuel s (p - sizeof_node_t) = some (1, s0)) :
    ∃ s1, myfree fuel s p = some (0, s1) ∧ s1.head = s.head ∧
      (s1.mem (p - sizeof_node_t)).magic = FREE ∧
      (s1.mem (p - sizeof_node_t)).size = (s.mem (p - sizeof_node_t)).size ∧
      (s1.mem (p - sizeof_node_t)).next = (s.mem s.head).next ∧
      (s1.mem s.head).next = p - sizeof_node_t ∧
      (s1.mem s.head).size = (s.mem s.head).size ∧
      (s1.mem s.head).magic = (s.mem s.head).magic ∧
      (∀ x, x ≠ s.head → x ≠ p - sizeof_node_t → s1.mem x = s.mem x) ∧
      (∀ l, FreeList s l → FreeList s1 (s.head :: (p - sizeof_node_t) :: l.tail)) := by
  obtain ⟨l, I⟩ := reachable_inv h
  obtain ⟨F, rfl⟩ : ∃ F, p = F + 24 := ⟨p - 24, by ring⟩
  have e : F + 24 - sizeof_node_t = F := by simp [sizeof_node_t]
  rw [e] at hno ⊢
  have hF : F ∈ {a : Int | a + 24 ∈ L} := hp
  have hs0 : s0 = s := by
    rcases coalescing_status hno with c | ⟨_, c⟩
    · exact absurd c (by decide)
    · exact c
  subst hs0
  obtain ⟨rest, rfl, hrest⟩ := I.cons
  have hhd : s0.head ∈ s0.head :: rest := List.mem_cons_self _ _
  have hFl : ∀ x, x ∈ s0.head :: rest → x ≠ F := fun x hx c => I.not_both hx (c ▸ hF)
  have hFh : ¬ (F = s0.head) := fun c => hFl _ hhd c.symm
  have hnd := I.nodup
  rw [List.nodup_cons] at hnd
  have hF0 : F ≠ 0 := by
    have := I.blk (Or.inr hF : F ∈ s0.head :: rest ∨ F ∈ _)
    have := I.lo
    omega
  refine ⟨insertSecond s0 F, myfree_of_nomerge (I.alloc_ok F hF).1 hno, rfl, ?_,
    insertSecond_size s0 F F, ?_, ?_, insertSecond_size s0 F _, ?_,
    insertSecond_frame s0 F, ?_⟩
  · rw [insertSecond_magic]; simp
  · rw [insertSecond_next]; simp [hFh]
  · rw [insertSecond_next]; simp
  · rw [insertSecond_magic, if_neg (fun c : s0.head = F => hFh c.symm)]
  · intro l1 hl1
    rw [I.freeList_eq hl1]
    refine ⟨?_, I.head_ne⟩
    refine Seg_insert I.chain ?_ ?_ hF0 ?_
    · intro x hx
      rw [insertSecond_next]
      have e1 : x ≠ s0.head := fun c => hnd.1 (c ▸ hx)
      simp [e1, hFl x (List.mem_cons_of_mem _ hx)]
    · rw [insertSecond_next]; simp
    · rw [insertSecond_next]; simp [hFh]

/-- Witness of C19: freeing the block at 4096 of `demoFull`, whose neighbours
are not on the free list. -/
theorem myfree_inserts_second_witness :
    Reachable (fun _ => True) 4096 demoFull demoFullLive ∧ (4120 : Int) ∈ demoFullLive ∧
    coalescing_free_blocks 16 demoFull (4120 - sizeof_node_t) = some (1, demoFull) ∧
    ∃ s1, myfree 16 demoFull 4120 = some (0, s1) ∧ s1.head = demoFull.head ∧
      (s1.mem (4120 - sizeof_node_t)).magic = FREE ∧
      (s1.mem (4120 - sizeof_node_t)).size = (demoFull.mem (4120 - sizeof_node_t)).size ∧
      (s1.mem (4120 - sizeof_node_t)).next = (demoFull.mem demoFull.head).next ∧
      (s1.mem demoFull.head).next = 4120 - sizeof_node_t ∧
      (s1.mem demoFull.head).size = (demoFull.mem demoFull.head).size ∧
      (s1.mem demoFull.head).magic = (demoFull.mem demoFull.head).magic ∧
      (∀ x, x ≠ demoFull.head → x ≠ 4120 - sizeof_node_t → s1.mem x = demoFull.mem x) ∧
      (∀ l, FreeList demoFull l →
        FreeList s1 (demoFull.head :: (4120 - sizeof_node_t) :: l.tail)) :=
  ⟨demoFull_reachable.mono (fun _ _ => trivial), by simp [demoFullLive],
    coalescing_one_eq (by decide),
    myfree_inserts_second (demoFull_reachable.mono (fun _ _ => trivial))
      (by simp [demoFullLive]) (coalescing_one_eq (by decide))⟩

/-! ## The shape of the state after `myfree` -/

/-- What `myfree` of a live header `F` does on a valid heap: either nothing is
merged and `F` is inserted second, or one block `X` absorbs the block `Z` that
starts at its end, where one of the two is `F` and the other a node of the free
list; `Z` leaves the free list, `F` is on it unless it is `Z`, and only the size
of `X` changes. -/
theorem myfree_cases {ok : Int → Prop} {b0 : Int} {s : Heap} {l : List Int} {A : Set Int}
    {F : Int} {fuel : Nat} (I : Inv ok b0 s l A) (hF : F ∈ A) (hf : l.length ≤ fuel) :
    ∃ s1 l1, myfree fuel s (F + 24) = some (0, s1) ∧ Inv ok b0 s1 l1 (A \ {F}) ∧
      s1.brk = s.brk ∧
      ((coalescing_free_blocks fuel s F = some (1, s) ∧ s1 = insertSecond s F ∧
          l1 = s.head :: F :: l.tail ∧
          ∀ z ∈ l, ¬ (z + 24 + (s.mem z).size = F) ∧ ¬ (z = F + 24 + (s.mem F).size)) ∨
        ((∃ s0, coalescing_free_blocks fuel s F = some (0, s0)) ∧
          ∃ X Z, ((X = F ∧ Z ∈ l) ∨ (X ∈ l ∧ Z = F)) ∧ X + 24 + (s.mem X).size = Z ∧
            (∀ x, (s1.mem x).size =
              if x = X then (s.mem X).size + 24 + (s.mem Z).size else (s.mem x).size) ∧
            l1.length = l.length ∧ ∀ x, x ∈ l1 ↔ (x ∈ l ∨ x = F) ∧ x ≠ Z)) := by
  obtain ⟨s1, l1, hfree, hbrk, I1, _, _⟩ := myfree_spec I hF hf
  refine ⟨s1, l1, hfree, I1, hbrk, ?_⟩
  -- the state and the list are those of the path taken
  have key : ∀ (t : Heap) (m : List Int), myfree fuel s (F + 24) = some (0, t) →
      Seg t.mem t.head m 0 → s1 = t ∧ l1 = m := by
    intro t m ht hm
    rw [hfree] at ht
    have e : s1 = t := (Prod.mk.inj (Option.some.inj ht)).2
    subst e
    exact ⟨rfl, Seg_unique _ _ _ I1.chain hm⟩
  obtain ⟨rest, rfl, hrest⟩ := I.cons
  have hhd : s.head ∈ s.head :: rest := List.mem_cons_self _ _
  obtain ⟨f0, f1, f2⟩ := I.blk (Or.inr hF : F ∈ s.head :: rest ∨ F ∈ A)
  have hmagic := (I.alloc_ok F hF).1
  have hlo := I.lo
  have hFl : ∀ x, x ∈ s.head :: rest → x ≠ F := fun x hx e => I.not_both hx (e ▸ hF)
  have hnd := I.nodup
  rw [List.nodup_cons] at hnd
  have hF0 : F ≠ 0 := by omega
  have hfr : rest.length < fuel := by
    simp only [List.length_cons] at hf
    omega
  by_cases h1 : s.head = F + 24 + (s.mem F).size
  · have hco : coalescing_free_blocks fuel s F = some (0, mergeHead s F) := by
      unfold coalescing_free_blocks
      simp only [sizeof_node_t]
      rw [if_pos h1]
    have hseg : Seg (mergeHead s F).mem (mergeHead s F).head (F :: rest) 0 := by
      refine Seg_replace_head I.chain ?_ hF0 ?_
      · intro x hx
        rw [mergeHead_next]
        simp [hFl x (List.mem_cons_of_mem _ hx)]
      · rw [mergeHead_next]; simp
    obtain ⟨rfl, rfl⟩ := key _ _ (myfree_of_merge hmagic hco) hseg
    right
    refine ⟨⟨_, hco⟩, F, s.head, Or.inl ⟨rfl, hhd⟩, h1.symm, mergeHead_size s F, rfl, ?_⟩
    intro x
    simp only [List.mem_cons]
    constructor
    · rintro (h | h)
      · exact ⟨Or.inr h, fun e => hFl _ hhd (e.symm.trans h)⟩
      · exact ⟨Or.inl (Or.inr h), fun e => hnd.1 (e ▸ h)⟩
    · rintro ⟨(h | h) | h, h2⟩
      · exact absurd h h2
      · exact Or.inr h
      · exact Or.inl h
  · by_cases h2 : s.head + 24 + (s.mem s.head).size = F
    · have hco : coalescing_free_blocks fuel s F = some (0, growHead s F) := by
        unfold coalescing_free_blocks
        simp only [sizeof_node_t]
        rw [if_neg h1, if_pos h2]
      have hseg : Seg (growHead s F).mem (growHead s F).head (s.head :: rest) 0 :=
        Seg_congr _ _ _ (fun x _ => growHead_next s F x) I.chain
      obtain ⟨rfl, rfl⟩ := key _ _ (myfree_of_merge hmagic hco) hseg
      right
      refine ⟨⟨_, hco⟩, s.head, F, Or.inr ⟨hhd, rfl⟩, h2, growHead_size s F, rfl, ?_⟩
      intro x
      constructor
      · intro h
        exact ⟨Or.inl h, hFl x h⟩
      · rintro ⟨h | h, h2⟩
        · exact h
        · exact absurd h h2
    · have hco0 : coalescing_free_blocks fuel s F =
          coalescing_loop fuel s F F (F + 24 + (s.mem F).size) s.head := by
        unfold coalescing_free_blocks
        simp only [sizeof_node_t]
        rw [if_neg h1, if_neg h2]
      rcases first_split
        (fun z => z + sizeof_node_t + (s.mem z).size = F ∨ z = F + 24 + (s.mem F).size) rest with
        hnone | ⟨pre, y, post, hsplit, hpre, hy⟩
      · have hco : coalescing_free_blocks fuel s F = some (1, s) := by
          rw [hco0]
          exact coalescing_loop_none s F F _ rest s.head fuel hrest
            (fun z hz => not_or.1 (hnone z hz)) hfr
        have hseg : Seg (insertSecond s F).mem (insertSecond s F).head (s.head :: F :: rest) 0 := by
          refine Seg_insert I.chain ?_ ?_ hF0 ?_
          · intro x hx
            rw [insertSecond_next]
            have e1 : x ≠ s.head := fun e => hnd.1 (e ▸ hx)
            simp [e1, hFl x (List.mem_cons_of_mem _ hx)]
          · rw [insertSecond_next]; simp
          · rw [insertSecond_next]
            have : ¬ (F = s.head) := fun e => hFl _ hhd e.symm
            simp [this]
        obtain ⟨rfl, rfl⟩ := key _ _ (myfree_of_nomerge hmagic hco) hseg
        refine Or.inl ⟨hco, rfl, rfl, ?_⟩
        intro z hz
        rcases List.mem_cons.1 hz with rfl | hz1
        · exact ⟨h2, h1⟩
        · have := not_or.1 (hnone z hz1)
          simp only [sizeof_node_t] at this
          exact this
      · obtain ⟨q, c, hq, hc, hr⟩ := coalescing_loop_found s F F (F + 24 + (s.mem F).size) y
          post 0 pre s.head fuel (hsplit ▸ hrest) (fun z hz => not_or.1 (hpre z hz)) hy
          (by rw [hsplit] at hfr; simp only [List.length_append] at hfr; omega)
        have hl : s.head :: rest = (q ++ [c]) ++ y :: post := by rw [hsplit, ← hq]; rfl
        have I2 : Inv ok b0 s ((q ++ [c]) ++ y :: post) A := hl ▸ I
        have hyl : y ∈ (q ++ [c]) ++ y :: post := by simp
        have hcl : c ∈ (q ++ [c]) ++ y :: post := by simp
        have hFl2 : ∀ x, x ∈ (q ++ [c]) ++ y :: post → x ≠ F := fun x hx => hFl x (hl ▸ hx)
        obtain ⟨n1, n2, n3⟩ := nodup_pred I2.nodup
        rw [← hco0] at hr
        right
        by_cases hya : y + sizeof_node_t + (s.mem y).size = F
        · rw [if_pos hya] at hr
          have hseg : Seg (mergePrev s F c).mem (mergePrev s F c).head (s.head :: rest) 0 :=
            Seg_congr _ _ _ (fun x _ => mergePrev_next s F c x) I.chain
          obtain ⟨rfl, rfl⟩ := key _ _ (myfree_of_merge hmagic hr) hseg
          refine ⟨⟨_, hr⟩, y, F, Or.inr ⟨hl ▸ hyl, rfl⟩, hya,
            (fun x => by rw [mergePrev_size, hc]), rfl, ?_⟩
          intro x
          constructor
          · intro h
            exact ⟨Or.inl h, hFl x h⟩
          · rintro ⟨h | h, h2⟩
            · exact h
            · exact absurd h h2
        · have hyb : y = F + 24 + (s.mem F).size := by tauto
          rw [if_neg hya] at hr
          have hcF : c ≠ F := hFl2 c hcl
          have hseg : Seg (mergeNext s F c).mem (mergeNext s F c).head
              ((q ++ [c]) ++ F :: post) 0 := by
            refine Seg_replace I2.chain ?_ ?_ ?_ hF0 ?_
            · intro x hx
              rw [mergeNext_next]
              have e1 : x ≠ c := n2 x hx
              have e2 : x ≠ F := hFl2 x (by simp [hx])
              simp [e1, e2]
            · intro x hx
              rw [mergeNext_next]
              have e1 : x ≠ c := n3 x hx
              have e2 : x ≠ F := hFl2 x (by simp [hx])
              simp [e1, e2]
            · rw [mergeNext_next]; simp
            · rw [mergeNext_next, hc]
              have : ¬ (F = c) := fun e => hcF e.symm
              simp [this]
          obtain ⟨rfl, rfl⟩ := key _ _ (myfree_of_merge hmagic hr) hseg
          refine ⟨⟨_, hr⟩, F, y, Or.inl ⟨rfl, hl ▸ hyl⟩, hyb.symm,
            (fun x => by rw [mergeNext_size s F c x hcF, hc]), ?_, ?_⟩
          · rw [hl]; simp
          · intro x
            rw [hl, mem_replace I2.nodup x]
            constructor
            · rintro (h | ⟨h, h2⟩)
              · exact ⟨Or.inr h, fun e => hFl2 y hyl (e.symm.trans h)⟩
              · exact ⟨Or.inl h, h2⟩
            · rintro ⟨h | h, h2⟩
              · exact Or.inr ⟨h, h2⟩
              · exact Or.inl h

/-- C20: at most one merge per deallocation.  On a reachable heap, `myfree` of
a live pointer returns 0 (with fuel for the scan) and the free list does not
shrink: its length is unchanged when `coalescing_free_blocks` reports a merge
and grows by one otherwise; at most one header changes its size.  If the freed
block `F` has the free-list nodes `X` before it and `Y` behind it, it is merged
with exactly one of them: either `X` absorbs `F` and is then adjacent to the node
`Y`, or `F` absorbs `Y` and is then a node adjacent to `X`; in both cases two
physically adjacent free blocks stay on the list. -/
theorem one_merge_per_free {b0 : Int} {s : Heap} {L : Set Int}
    (h : Reachable (fun _ => True) b0 s L) {p : Int} (hp : p ∈ L) {l : List Int}
    (hl : FreeList s l) :
    ∃ f0 : Nat, ∀ fuel, f0 ≤ fuel → ∃ s1 l1, myfree fuel s p = some (0, s1) ∧
      FreeList s1 l1 ∧
      (((∃ s0, coalescing_free_blocks fuel s (p - sizeof_node_t) = some (0, s0)) ∧
          l1.length = l.length) ∨
        (coalescing_free_blocks fuel s (p - sizeof_node_t) = some (1, s) ∧
          l1.length = l.length + 1)) ∧
      (∃ x0, ∀ x, x ≠ x0 → (s1.mem x).size = (s.mem x).size) ∧
      (∀ X Y, X ∈ l → Y ∈ l → blkEnd s.mem X = p - sizeof_node_t →
        blkEnd s.mem (p - sizeof_node_t) = Y →
        l1.length = l.length ∧ X ∈ l1 ∧
        ((Y ∈ l1 ∧ p - sizeof_node_t ∉ l1 ∧
            (s1.mem X).size =
              (s.mem X).size + sizeof_node_t + (s.mem (p - sizeof_node_t)).size ∧
            (s1.mem Y).size = (s.mem Y).size ∧ blkEnd s1.mem X = Y) ∨
          (p - sizeof_node_t ∈ l1 ∧ Y ∉ l1 ∧
            (s1.mem (p - sizeof_node_t)).size =
              (s.mem (p - sizeof_node_t)).size + sizeof_node_t + (s.mem Y).size ∧
            (s1.mem X).size = (s.mem X).size ∧ blkEnd s1.mem X = p - sizeof_node_t))) := by
  obtain ⟨l0, I⟩ := reachable_inv h
  have e0 := I.freeList_eq hl
  subst e0
  obtain ⟨F, rfl⟩ : ∃ F, p = F + 24 := ⟨p - 24, by ring⟩
  have e : F + 24 - sizeof_node_t = F := by simp [sizeof_node_t]
  rw [e]
  have hF : F ∈ {a : Int | a + 24 ∈ L} := hp
  refine ⟨l.length, fun fuel hf => ?_⟩
  obtain ⟨s1, l1, hfree, I1, _, hcase⟩ := myfree_cases I hF hf
  refine ⟨s1, l1, hfree, I1.freeList, ?_, ?_, ?_⟩
  · rcases hcase with ⟨hco, _, rfl, _⟩ | ⟨hco, X, Z, _, _, _, hlen, _⟩
    · right
      refine ⟨hco, ?_⟩
      obtain ⟨rest, rfl, _⟩ := I.cons
      simp
    · exact Or.inl ⟨hco, hlen⟩
  · rcases hcase with ⟨_, rfl, _, _⟩ | ⟨_, X, Z, _, _, hsz, _, _⟩
    · exact ⟨F, fun x _ => insertSecond_size s F x⟩
    · exact ⟨X, fun x hx => by rw [hsz x, if_neg hx]⟩
  · intro X0 Y0 hX0 hY0 hXF hFY
    unfold blkEnd at hXF hFY ⊢
    simp only [sizeof_node_t] at hXF hFY ⊢
    obtain ⟨x0, x1, x2⟩ := I.blk (Or.inl hX0 : X0 ∈ l ∨ X0 ∈ _)
    obtain ⟨y0, y1, y2⟩ := I.blk (Or.inl hY0 : Y0 ∈ l ∨ Y0 ∈ _)
    obtain ⟨f0, f1, f2⟩ := I.blk (Or.inr hF : F ∈ l ∨ F ∈ _)
    have hXF' : X0 ≠ F := by omega
    have hYF' : Y0 ≠ F := by omega
    have hXY : X0 ≠ Y0 := by omega
    rcases hcase with ⟨_, _, _, hno⟩ | ⟨_, X, Z, hXZ, hadj, hsz, hlen, hmem⟩
    · -- no merge is impossible: `X0` is adjacent
      exact absurd hXF (hno X0 hX0).1
    · refine ⟨hlen, ?_⟩
      rcases hXZ with ⟨rfl, hZ⟩ | ⟨hX, rfl⟩
      · -- `F` absorbs `Z = Y0`
        have hZY : Z = Y0 := by omega
        subst hZY
        refine ⟨(hmem X0).2 ⟨Or.inl hX0, hXY⟩, Or.inr ⟨(hmem X).2 ⟨Or.inr rfl, hYF'.symm⟩,
          fun hc => ((hmem Z).1 hc).2 rfl, ?_, ?_, ?_⟩⟩
        · rw [hsz, if_pos rfl]
        · rw [hsz, if_neg hXF']
        · rw [hsz, if_neg hXF']; exact hXF
      · -- `X` absorbs `F`; `X` is `X0`
        have hXX : X = X0 := by
          by_contra hne
          have := I.apart (Or.inl hX : X ∈ l ∨ X ∈ _) (Or.inl hX0) hne
          obtain ⟨a0, _, _⟩ := I.blk (Or.inl hX : X ∈ l ∨ X ∈ _)
          omega
        subst hXX
        refine ⟨(hmem X).2 ⟨Or.inl hX0, hXF'⟩, Or.inl ⟨(hmem Y0).2 ⟨Or.inl hY0, hYF'⟩,
          fun hc => ((hmem Z).1 hc).2 rfl, ?_, ?_, ?_⟩⟩
        · rw [hsz, if_pos rfl]
        · rw [hsz, if_neg hXY.symm]
        · rw [hsz, if_pos rfl]; omega

/-- Witness of C20 on the example heap: the live block at 4136 lies between the
free-list nodes at 4096 and 4168. -/
theorem one_merge_per_free_witness :
    Reachable (fun _ => True) 4096 demoList demoLive ∧ (4160 : Int) ∈ demoLive ∧
    FreeList demoList [8168, 4096, 4168, 4288] ∧
    blkEnd demoList.mem 4096 = 4160 - sizeof_node_t ∧
    blkEnd demoList.mem (4160 - sizeof_node_t) = 4168 ∧
    ∃ f0 : Nat, ∀ fuel, f0 ≤ fuel → ∃ s1 l1, myfree fuel demoList 4160 = some (0, s1) ∧
      FreeList s1 l1 ∧
      (((∃ s0, coalescing_free_blocks fuel demoList (4160 - sizeof_node_t) = some (0, s0)) ∧
          l1.length = [8168, 4096, 4168, 4288].length) ∨
        (coalescing_free_blocks fuel demoList (4160 - sizeof_node_t) = some (1, demoList) ∧
          l1.length = [8168, 4096, 4168, 4288].length + 1)) ∧
      (∃ x0, ∀ x, x ≠ x0 → (s1.mem x).size = (demoList.mem x).size) ∧
      (∀ X Y, X ∈ [8168, 4096, 4168, 4288] → Y ∈ [8168, 4096, 4168, 4288] →
        blkEnd demoList.mem X = 4160 - sizeof_node_t →
        blkEnd demoList.mem (4160 - sizeof_node_t) = Y →
        l1.length = [8168, 4096, 4168, 4288].length ∧ X ∈ l1 ∧
        ((Y ∈ l1 ∧ 4160 - sizeof_node_t ∉ l1 ∧
            (s1.mem X).size =
              (demoList.mem X).size + sizeof_node_t + (demoList.mem (4160 - sizeof_node_t)).size ∧
            (s1.mem Y).size = (demoList.mem Y).size ∧ blkEnd s1.mem X = Y) ∨
          (4160 - sizeof_node_t ∈ l1 ∧ Y ∉ l1 ∧
            (s1.mem (4160 - sizeof_node_t)).size =
              (demoList.mem (4160 - sizeof_node_t)).size + sizeof_node_t +
                (demoList.mem Y).size ∧
            (s1.mem X).size = (demoList.mem X).size ∧
            blkEnd s1.mem X = 4160 - sizeof_node_t))) :=
  ⟨demoList_reachable.mono (fun _ _ => trivial), by simp [demoLive, demoFullLive],
    demoList_freeList, by decide, by decide,
    one_merge_per_free (demoList_reachable.mono (fun _ _ => trivial))
      (by simp [demoLive, demoFullLive]) demoList_freeList⟩

/-- C13: every call of `mymalloc` and of `myfree` that starts with the mutex
free takes the mutex once and, on whichever path it returns, has released it
once: at the return the mutex is free; no heap mutation and no call of `sbrk` is
made while the mutex is not held.  The pointer, the status and the heap are
those of the functions without the lock operations, which return exactly when
the locked ones do. -/
theorem lock_discipline (fuel : Nat) (g : Guarded) (hg : g.held = false) :
    (∀ n p g1, mymalloc_locked fuel g n = some (p, g1) →
      g1.held = false ∧ g1.locks = g.locks + 1 ∧ g1.unlocks = g.unlocks + 1 ∧
      g1.unguarded = g.unguarded ∧ mymalloc fuel g.heap n = some (p, g1.heap)) ∧
    (∀ n p h1, mymalloc fuel g.heap n = some (p, h1) →
      ∃ g1, mymalloc_locked fuel g n = some (p, g1) ∧ g1.heap = h1) ∧
    (∀ q r g1, myfree_locked fuel g q = some (r, g1) →
      g1.held = false ∧ g1.locks = g.locks + 1 ∧ g1.unlocks = g.unlocks + 1 ∧
      g1.unguarded = g.unguarded ∧ myfree fuel g.heap q = some (r, g1.heap)) ∧
    (∀ q r h1, myfree fuel g.heap q = some (r, h1) →
      ∃ g1, myfree_locked fuel g q = some (r, g1) ∧ g1.heap = h1) := by
  have hlock : pthread_mutex_lock g = some { g with held := true, locks := g.locks + 1 } := by
    simp [pthread_mutex_lock, hg]
  refine ⟨?_, ?_, ?_, ?_⟩
  · intro n p g1 h
    unfold mymalloc_locked at h
    unfold mymalloc
    rw [hlock] at h
    simp only [] at h ⊢
    split_ifs at h ⊢ with c1
    · obtain ⟨rfl, rfl⟩ := Prod.mk.inj (Option.some.inj h)
      exact ⟨rfl, rfl, rfl, rfl, rfl⟩
    · cases hs : mymalloc_scan fuel g.heap g.heap.head (blockSize n) with
      | none => rw [hs] at h; simp at h
      | some o =>
        rw [hs] at h
        cases o with
        | some r =>
          simp only [] at h ⊢
          obtain ⟨rfl, rfl⟩ := Prod.mk.inj (Option.some.inj h)
          exact ⟨rfl, rfl, rfl, rfl, rfl⟩
        | none =>
          simp only [] at h ⊢
          cases hk : num_of_page_loop fuel 1 (blockSize n) with
          | none => rw [hk] at h; simp at h
          | some k =>
            rw [hk] at h
            simp only [] at h ⊢
            obtain ⟨rfl, rfl⟩ := Prod.mk.inj (Option.some.inj h)
            exact ⟨rfl, rfl, rfl, rfl, rfl⟩
  · intro n p h1 h
    unfold mymalloc at h
    unfold mymalloc_locked
    rw [hlock]
    simp only [] at h ⊢
    split_ifs at h ⊢ with c1
    · obtain ⟨rfl, rfl⟩ := Prod.mk.inj (Option.some.inj h)
      exact ⟨_, rfl, rfl⟩
    · cases hs : mymalloc_scan fuel g.heap g.heap.head (blockSize n) with
      | none => rw [hs] at h; simp at h
      | some o =>
        rw [hs] at h
        cases o with
        | some r =>
          simp only [] at h ⊢
          obtain ⟨rfl, rfl⟩ := Prod.mk.inj (Option.some.inj h)
          exact ⟨_, rfl, rfl⟩
        | none =>
          simp only [] at h ⊢
          cases hk : num_of_page_loop fuel 1 (blockSize n) with
          | none => rw [hk] at h; simp at h
          | some k =>
            rw [hk] at h
            simp only [] at h ⊢
            obtain ⟨rfl, rfl⟩ := Prod.mk.inj (Option.some.inj h)
            exact ⟨_, rfl, rfl⟩
  · intro q r g1 h
    unfold myfree_locked at h
    unfold myfree
    rw [hlock] at h
    simp only [] at h ⊢
    split_ifs at h ⊢ with c1
    · obtain ⟨rfl, rfl⟩ := Prod.mk.inj (Option.some.inj h)
      exact ⟨rfl, rfl, rfl, rfl, rfl⟩
    · cases hc : coalescing_free_blocks fuel g.heap (q - sizeof_node_t) with
      | none => rw [hc] at h; simp at h
      | some x =>
        obtain ⟨r1, h1⟩ := x
        rw [hc] at h
        simp only [] at h ⊢
        split_ifs at h ⊢ with c2
        · obtain ⟨rfl, rfl⟩ := Prod.mk.inj (Option.some.inj h)
          exact ⟨rfl, rfl, rfl, rfl, rfl⟩
        · obtain ⟨rfl, rfl⟩ := Prod.mk.inj (Option.some.inj h)
          exact ⟨rfl, rfl, rfl, rfl, rfl⟩
  · intro q r h1 h
    unfold myfree at h
    unfold myfree_locked
    rw [hlock]
    simp only [] at h ⊢
    split_ifs at h ⊢ with c1
    · obtain ⟨rfl, rfl⟩ := Prod.mk.inj (Option.some.inj h)
      exact ⟨_, rfl, rfl⟩
    · cases hc : coalescing_free_blocks fuel g.heap (q - sizeof_node_t) with
      | none => rw [hc] at h; simp at h
      | some x =>
        obtain ⟨r1, h2⟩ := x
        rw [hc] at h
        simp only [] at h ⊢
        split_ifs at h ⊢ with c2
        · obtain ⟨rfl, rfl⟩ := Prod.mk.inj (Option.some.inj h)
          exact ⟨_, rfl, rfl⟩
        · obtain ⟨rfl, rfl⟩ := Prod.mk.inj (Option.some.inj h)
          exact ⟨_, rfl, rfl⟩

/-- Witness of C13 on the example heap with the mutex free: the growth return
of `mymalloc(200)`, the list-scan return of `mymalloc(8)`, the merged return of
`myfree(4160)` and the invalid-tag return of `myfree(4120)` are among the calls
covered. -/
theorem lock_discipline_witness :
    demoGuarded.held = false ∧
    (mymalloc_locked 16 demoGuarded 200).isSome = true ∧
    (mymalloc_locked 16 demoGuarded 8).isSome = true ∧
    (myfree_locked 16 demoGuarded 4160).isSome = true ∧
    (myfree_locked 16 demoGuarded 4120).isSome = true ∧
    ((∀ n p g1, mymalloc_locked 16 demoGuarded n = some (p, g1) →
      g1.held = false ∧ g1.locks = demoGuarded.locks + 1 ∧
      g1.unlocks = demoGuarded.unlocks + 1 ∧
      g1.unguarded = demoGuarded.unguarded ∧ mymalloc 16 demoGuarded.heap n = some (p, g1.heap)) ∧
    (∀ n p h1, mymalloc 16 demoGuarded.heap n = some (p, h1) →
      ∃ g1, mymalloc_locked 16 demoGuarded n = some (p, g1) ∧ g1.heap = h1) ∧
    (∀ q r g1, myfree_locked 16 demoGuarded q = some (r, g1) →
      g1.held = false ∧ g1.locks = demoGuarded.locks + 1 ∧
      g1.unlocks = demoGuarded.unlocks + 1 ∧
      g1.unguarded = demoGuarded.unguarded ∧ myfree 16 demoGuarded.heap q = some (r, g1.heap)) ∧
    (∀ q r h1, myfree 16 demoGuarded.heap q = some (r, h1) →
      ∃ g1, myfree_locked 16 demoGuarded q = some (r, g1) ∧ g1.heap = h1)) :=
  ⟨rfl, by decide, by decide, by decide, by decide, lock_discipline 16 demoGuarded rfl⟩

/-! ## The tiling under the elementary transformations -/

theorem Tiled.below {b0 : Int} {s : Heap} {R : List (Int × Int)} {G : Set Int}
    (T : Tiled b0 s R G) {x : Int} (hx : x ∈ G) : x + 24 + (s.mem x).size ≤ s.brk := by
  have h0 := T.nonneg x hx
  obtain ⟨r, hr, _, h2⟩ := (T.cover (x + 24 + (s.mem x).size - 1)).2
    ⟨x, hx, by omega, by unfold blkEnd sizeof_node_t; omega⟩
  have := T.regs r hr
  omega

theorem tiled_same {b0 : Int} {s s1 : Heap} {R : List (Int × Int)} {G : Set Int}
    (T : Tiled b0 s R G) (hsz : ∀ x, (s1.mem x).size = (s.mem x).size)
    (hbrk : s.brk ≤ s1.brk) : Tiled b0 s1 R G := by
  have hend : ∀ x, blkEnd s1.mem x = blkEnd s.mem x := fun x => by unfold blkEnd; rw [hsz]
  constructor
  · intro x hx; rw [hsz]; exact T.nonneg x hx
  · intro x hx y hy hne; rw [hend, hend]; exact T.sep x hx y hy hne
  · intro a
    rw [T.cover a]
    constructor
    · rintro ⟨x, hx, h1, h2⟩; exact ⟨x, hx, h1, by rw [hend]; exact h2⟩
    · rintro ⟨x, hx, h1, h2⟩; exact ⟨x, hx, h1, by rw [← hend]; exact h2⟩
  · intro r hr; exact le_trans (T.regs r hr) hbrk
  · exact T.first
  · exact T.above

theorem tiled_split {b0 : Int} {s s1 : Heap} {R : List (Int × Int)} {G : Set Int}
    {y B : Int} (T : Tiled b0 s R G) (hy : y ∈ G) (hB : 24 ≤ B) (hfit : B ≤ (s.mem y).size)
    (hsz : ∀ x, (s1.mem x).size = if x = y then B - 24 else
      if x = y + B then (s.mem y).size - B else (s.mem x).size)
    (hbrk : s1.brk = s.brk) : Tiled b0 s1 R (insert (y + B) G) := by
  have key : ∀ x ∈ G, x ≠ y → x ≠ y + B ∧ 0 ≤ (s.mem x).size ∧
      (x + 24 + (s.mem x).size ≤ y ∨ y + 24 + (s.mem y).size ≤ x) := by
    intro x hx hne
    have h1 := T.sep x hx y hy hne
    have h2 := T.nonneg x hx
    unfold blkEnd sizeof_node_t at h1
    exact ⟨by omega, h2, h1⟩
  have cls : ∀ x, x ∈ insert (y + B) G → x = y + B ∨ x = y ∨ (x ∈ G ∧ x ≠ y) := by
    intro x hx
    rcases hx with h | h
    · exact Or.inl h
    · by_cases e : x = y
      · exact Or.inr (Or.inl e)
      · exact Or.inr (Or.inr ⟨h, e⟩)
  have hyb : ¬ (y + B = y) := by omega
  constructor
  · intro x hx
    rw [hsz]
    rcases cls x hx with rfl | rfl | ⟨h1, h2⟩
    · rw [if_neg hyb, if_pos rfl]; omega
    · rw [if_pos rfl]; omega
    · obtain ⟨k1, k2, _⟩ := key x h1 h2
      rw [if_neg h2, if_neg k1]; exact k2
  · intro x hx z hz hne
    unfold blkEnd sizeof_node_t
    rw [hsz x, hsz z]
    rcases cls x hx with rfl | rfl | ⟨hx1, hx2⟩ <;>
      rcases cls z hz with rfl | rfl | ⟨hz1, hz2⟩
    · exact absurd rfl hne
    · split_ifs <;> omega
    · obtain ⟨k1, k2, k3⟩ := key z hz1 hz2
      split_ifs <;> omega
    · split_ifs <;> omega
    · exact absurd rfl hne
    · obtain ⟨k1, k2, k3⟩ := key z hz1 hz2
      split_ifs <;> omega
    · obtain ⟨k1, k2, k3⟩ := key x hx1 hx2
      split_ifs <;> omega
    · obtain ⟨k1, k2, k3⟩ := key x hx1 hx2
      split_ifs <;> omega
    · obtain ⟨k1, k2, k3⟩ := key x hx1 hx2
      obtain ⟨j1, j2, j3⟩ := key z hz1 hz2
      have := T.sep x hx1 z hz1 hne
      unfold blkEnd sizeof_node_t at this
      split_ifs <;> omega
  · intro a
    rw [T.cover a]
    unfold blkEnd sizeof_node_t
    constructor
    · rintro ⟨x, hx, h1, h2⟩
      by_cases e : x = y
      · subst e
        by_cases c : a < x + B
        · exact ⟨x, Or.inr hx, h1, by rw [hsz, if_pos rfl]; omega⟩
        · exact ⟨x + B, Or.inl rfl, by omega, by rw [hsz, if_neg hyb, if_pos rfl]; omega⟩
      · obtain ⟨k1, _, _⟩ := key x hx e
        exact ⟨x, Or.inr hx, h1, by rw [hsz, if_neg e, if_neg k1]; exact h2⟩
    · rintro ⟨x, hx, h1, h2⟩
      rcases cls x hx with rfl | rfl | ⟨hx1, hx2⟩
      · rw [hsz, if_neg hyb, if_pos rfl] at h2
        exact ⟨y, hy, by omega, by omega⟩
      · rw [hsz, if_pos rfl] at h2
        exact ⟨x, hy, h1, by omega⟩
      · obtain ⟨k1, _, _⟩ := key x hx1 hx2
        rw [hsz, if_neg hx2, if_neg k1] at h2
        exact ⟨x, hx1, h1, h2⟩
  · intro r hr; rw [hbrk]; exact T.regs r hr
  · exact Or.inr T.first
  · intro x hx
    rcases cls x hx with rfl | rfl | ⟨h1, _⟩
    · have := T.above y hy; omega
    · exact T.above _ hy
    · exact T.above x h1

theorem tiled_merge {b0 : Int} {s s1 : Heap} {R : List (Int × Int)} {G : Set Int}
    {X Z : Int} (T : Tiled b0 s R G) (hX : X ∈ G) (hZ : Z ∈ G)
    (hadj : X + 24 + (s.mem X).size = Z)
    (hsz : ∀ x, (s1.mem x).size =
      if x = X then (s.mem X).size + 24 + (s.mem Z).size else (s.mem x).size)
    (hbrk : s1.brk = s.brk) : Tiled b0 s1 R (G \ {Z}) := by
  have hX0 := T.nonneg X hX
  have hZ0 := T.nonneg Z hZ
  have hXZ : X ≠ Z := by omega
  have key : ∀ x ∈ G, x ≠ X → x ≠ Z → 0 ≤ (s.mem x).size ∧
      (x + 24 + (s.mem x).size ≤ X ∨ X + 24 + (s.mem X).size ≤ x) ∧
      (x + 24 + (s.mem x).size ≤ Z ∨ Z + 24 + (s.mem Z).size ≤ x) := by
    intro x hx h1 h2
    have a1 := T.sep x hx X hX h1
    have a2 := T.sep x hx Z hZ h2
    unfold blkEnd sizeof_node_t at a1 a2
    exact ⟨T.nonneg x hx, a1, a2⟩
  have cls : ∀ x, x ∈ G \ {Z} → x = X ∨ (x ∈ G ∧ x ≠ X ∧ x ≠ Z) := by
    intro x hx
    by_cases e : x = X
    · exact Or.inl e
    · exact Or.inr ⟨hx.1, e, hx.2⟩
  constructor
  · intro x hx
    rw [hsz]
    rcases cls x hx with rfl | ⟨h1, h2, h3⟩
    · rw [if_pos rfl]; omega
    · rw [if_neg h2]; exact T.nonneg x h1
  · intro x hx z hz hne
    unfold blkEnd sizeof_node_t
    rw [hsz x, hsz z]
    rcases cls x hx with rfl | ⟨hx1, hx2, hx3⟩ <;>
      rcases cls z hz with rfl | ⟨hz1, hz2, hz3⟩
    · exact absurd rfl hne
    · obtain ⟨k1, k2, k3⟩ := key z hz1 hz2 hz3
      split_ifs <;> omega
    · obtain ⟨k1, k2, k3⟩ := key x hx1 hx2 hx3
      split_ifs <;> omega
    · have := T.sep x hx1 z hz1 hne
      unfold blkEnd sizeof_node_t at this
      split_ifs <;> omega
  · intro a
    rw [T.cover a]
    unfold blkEnd sizeof_node_t
    constructor
    · rintro ⟨x, hx, h1, h2⟩
      by_cases e : x = X
      · subst e
        exact ⟨x, ⟨hx, hXZ⟩, h1, by rw [hsz, if_pos rfl]; omega⟩
      · by_cases e2 : x = Z
        · subst e2
          exact ⟨X, ⟨hX, hXZ⟩, by omega, by rw [hsz, if_pos rfl]; omega⟩
        · exact ⟨x, ⟨hx, e2⟩, h1, by rw [hsz, if_neg e]; exact h2⟩
    · rintro ⟨x, hx, h1, h2⟩
      rcases cls x hx with rfl | ⟨hx1, hx2, hx3⟩
      · rw [hsz, if_pos rfl] at h2
        by_cases c : a < Z
        · exact ⟨x, hX, h1, by omega⟩
        · exact ⟨Z, hZ, by omega, by omega⟩
      · rw [hsz, if_neg hx2] at h2
        exact ⟨x, hx1, h1, h2⟩
  · intro r hr; rw [hbrk]; exact T.regs r hr
  · refine ⟨T.first, ?_⟩
    have := T.above X hX
    intro e
    have e : b0 = Z := e
    omega
  · intro x hx; exact T.above x hx.1

theorem tiled_grow {b0 : Int} {s s1 : Heap} {R : List (Int × Int)} {G : Set Int}
    {B k : Int} (T : Tiled b0 s R G) (hB : 24 ≤ B) (hk : B + 24 ≤ 4096 * k)
    (hsz : ∀ x, (s1.mem x).size = if x = s.brk then B - 24 else
      if x = s.brk + B then 4096 * k - B - 24 else (s.mem x).size)
    (hbrk : s1.brk = s.brk + 4096 * k) :
    Tiled b0 s1 (R ++ [(s.brk, s.brk + 4096 * k)]) (insert s.brk (insert (s.brk + B) G)) := by
  have key : ∀ x ∈ G, x ≠ s.brk ∧ x ≠ s.brk + B ∧ 0 ≤ (s.mem x).size ∧
      x + 24 + (s.mem x).size ≤ s.brk := by
    intro x hx
    have h1 := T.below hx
    have h2 := T.nonneg x hx
    exact ⟨by omega, by omega, h2, h1⟩
  have cls : ∀ x, x ∈ insert s.brk (insert (s.brk + B) G) →
      x = s.brk ∨ x = s.brk + B ∨ x ∈ G := fun x hx => hx
  have hbb : ¬ (s.brk + B = s.brk) := by omega
  constructor
  · intro x hx
    rw [hsz]
    rcases cls x hx with rfl | rfl | h1
    · rw [if_pos rfl]; omega
    · rw [if_neg hbb, if_pos rfl]; omega
    · obtain ⟨k1, k2, k3, _⟩ := key x h1
      rw [if_neg k1, if_neg k2]; exact k3
  · intro x hx z hz hne
    unfold blkEnd sizeof_node_t
    rw [hsz x, hsz z]
    rcases cls x hx with rfl | rfl | hx1 <;> rcases cls z hz with rfl | rfl | hz1
    · exact absurd rfl hne
    · split_ifs <;> omega
    · obtain ⟨k1, k2, k3, k4⟩ := key z hz1
      split_ifs <;> omega
    · split_ifs <;> omega
    · exact absurd rfl hne
    · obtain ⟨k1, k2, k3, k4⟩ := key z hz1
      split_ifs <;> omega
    · obtain ⟨k1, k2, k3, k4⟩ := key x hx1
      split_ifs <;> omega
    · obtain ⟨k1, k2, k3, k4⟩ := key x hx1
      split_ifs <;> omega
    · obtain ⟨k1, k2, k3, k4⟩ := key x hx1
      obtain ⟨j1, j2, j3, j4⟩ := key z hz1
      have := T.sep x hx1 z hz1 hne
      unfold blkEnd sizeof_node_t at this
      split_ifs <;> omega
  · intro a
    unfold blkEnd sizeof_node_t
    constructor
    · rintro ⟨r, hr, h1, h2⟩
      rcases List.mem_append.1 hr with hr1 | hr1
      · obtain ⟨x, hx, g1, g2⟩ := (T.cover a).1 ⟨r, hr1, h1, h2⟩
        unfold blkEnd sizeof_node_t at g2
        obtain ⟨k1, k2, _⟩ := key x hx
        exact ⟨x, Or.inr (Or.inr hx), g1, by rw [hsz, if_neg k1, if_neg k2]; exact g2⟩
      · rw [List.mem_singleton] at hr1
        subst hr1
        simp only [] at h1 h2
        by_cases c : a < s.brk + B
        · exact ⟨s.brk, Or.inl rfl, h1, by rw [hsz, if_pos rfl]; omega⟩
        · exact ⟨s.brk + B, Or.inr (Or.inl rfl), by omega,
            by rw [hsz, if_neg hbb, if_pos rfl]; omega⟩
    · rintro ⟨x, hx, h1, h2⟩
      rcases cls x hx with rfl | rfl | hx1
      · rw [hsz, if_pos rfl] at h2
        exact ⟨(s.brk, s.brk + 4096 * k), List.mem_append.2 (Or.inr (List.mem_singleton.2 rfl)),
          h1, by simp only []; omega⟩
      · rw [hsz, if_neg hbb, if_pos rfl] at h2
        exact ⟨(s.brk, s.brk + 4096 * k), List.mem_append.2 (Or.inr (List.mem_singleton.2 rfl)),
          by simp only []; omega, by simp only []; omega⟩
      · obtain ⟨k1, k2, _⟩ := key x hx1
        rw [hsz, if_neg k1, if_neg k2] at h2
        obtain ⟨r, hr, g1, g2⟩ := (T.cover a).2 ⟨x, hx1, h1, h2⟩
        exact ⟨r, List.mem_append.2 (Or.inl hr), g1, g2⟩
  · intro r hr
    rw [hbrk]
    rcases List.mem_append.1 hr with hr1 | hr1
    · have := T.regs r hr1
      omega
    · rw [List.mem_singleton] at hr1
      subst hr1
      exact le_refl _
  · exact Or.inr (Or.inr T.first)
  · intro x hx
    have hb := T.below T.first
    have h0 := T.nonneg _ T.first
    rcases cls x hx with rfl | rfl | h1
    · omega
    · omega
    · exact T.above x h1

/-! ## The free list after `mymalloc`, by the path taken -/

theorem Seg_next_mem {m : Int → node_t} :
    ∀ (l : List Int) (a : Int), Seg m a l 0 → ∀ x ∈ l, (m x).next = 0 ∨ (m x).next ∈ l
  | [], _, _, x, hx => by cases hx
  | y :: ys, a, h, x, hx => by
    obtain ⟨_, _, h3⟩ := h
    rcases List.mem_cons.1 hx with rfl | hx1
    · cases ys with
      | nil => exact Or.inl h3
      | cons z zs => exact Or.inr (List.mem_cons_of_mem _ (h3.1 ▸ List.mem_cons_self _ _))
    · rcases Seg_next_mem ys _ h3 x hx1 with h | h
      · exact Or.inl h
      · exact Or.inr (List.mem_cons_of_mem _ h)

theorem Seg_closed {m : Int → node_t} (S : Int → Prop)
    (hS : ∀ x, S x → (m x).next = 0 ∨ S (m x).next) :
    ∀ (l : List Int) (a : Int), Seg m a l 0 → (a = 0 ∨ S a) → ∀ x ∈ l, S x
  | [], _, _, _, x, hx => by cases hx
  | y :: ys, a, h, ha, x, hx => by
    obtain ⟨h1, h2, h3⟩ := h
    have hy : S y := by
      rcases ha with e | e
      · exact absurd (h1 ▸ e) h2
      · exact h1 ▸ e
    rcases List.mem_cons.1 hx with rfl | hx1
    · exact hy
    · exact Seg_closed S hS ys _ h3 (hS y hy) x hx1

theorem mymalloc_paths {ok : Int → Prop} {b0 : Int} {s : Heap} {l : List Int} {A : Set Int}
    {n : Int} {fuel : Nat} (I : Inv ok b0 s l A) (hn : NoOverflow n)
    (hf1 : l.length ≤ fuel) (hf2 : blockSize n + 24 ≤ fuel * 4096) :
    ∃ F s1, mymalloc fuel s n = some (F + 24, s1) ∧
      ((s1.brk = s.brk ∧ F ∈ l ∧ blockSize n ≤ (s.mem F).size ∧
        (∀ x, (s1.mem x).size = if x = F then blockSize n - 24 else
          if x = F + blockSize n then (s.mem F).size - blockSize n else (s.mem x).size) ∧
        (∀ l1, FreeList s1 l1 → ∀ x ∈ l1, x = F + blockSize n ∨ x ∈ l)) ∨
       (F = s.brk ∧ ∃ k, 1 ≤ k ∧ blockSize n + 24 ≤ 4096 * k ∧ s1.brk = s.brk + 4096 * k ∧
        (∀ x, (s1.mem x).size = if x = s.brk then blockSize n - 24 else
          if x = s.brk + blockSize n then 4096 * k - blockSize n - 24 else (s.mem x).size) ∧
        (∀ l1, FreeList s1 l1 → ∀ x ∈ l1, x = s.head ∨ x = s.brk + blockSize n))) := by
  obtain ⟨hB8, hB1, hB2, hB3⟩ := blockSize_bounds hn
  have hn0 : 0 ≤ n := hn.1
  have hnext := Seg_next_mem _ _ I.chain
  obtain ⟨rest, rfl, hrest⟩ := I.cons
  have hhd : s.head ∈ s.head :: rest ∨ s.head ∈ A := Or.inl (List.mem_cons_self _ _)
  by_cases hfit : blockSize n ≤ (s.mem s.head).size
  · -- head split
    have hmy : mymalloc fuel s n = some (splitHead s (blockSize n)) := by
      unfold mymalloc
      simp only []
      rw [if_pos]
      rw [I.u32_size hhd]
      exact hfit
    refine ⟨s.head, (splitHead s (blockSize n)).2, hmy, Or.inl ⟨rfl, List.mem_cons_self _ _,
      hfit, splitHead_size s _, ?_⟩⟩
    intro l1 hl1
    refine Seg_closed (fun x => x = s.head + blockSize n ∨ x ∈ s.head :: rest) ?_ l1 _ hl1.1
      (Or.inr (Or.inl rfl))
    intro x hx
    rw [splitHead_next]
    by_cases e1 : x = s.head
    · rw [if_pos e1]; exact Or.inl rfl
    · rw [if_neg e1]
      by_cases e2 : x = s.head + blockSize n
      · rw [if_pos e2]
        rcases hnext s.head (List.mem_cons_self _ _) with h | h
        · exact Or.inl h
        · exact Or.inr (Or.inr h)
      · rw [if_neg e2]
        rcases hx with hx | hx
        · exact absurd hx e2
        · rcases hnext x hx with h | h
          · exact Or.inl h
          · exact Or.inr (Or.inr h)
  · have hfit1 : ∀ x, x ∈ s.head :: rest → ¬ u32 (s.mem x).size < blockSize n →
        blockSize n ≤ (s.mem x).size := by
      intro x hx h
      rw [I.u32_size (Or.inl hx)] at h
      omega
    have hfr : rest.length < fuel := by
      simp only [List.length_cons] at hf1
      omega
    rcases first_split (fun z => ¬ u32 (s.mem z).size < blockSize n) rest with
      hnone | ⟨pre, y, post, hsplit, hpre, hy⟩
    · -- growth
      have hs := mymalloc_scan_none s (blockSize n) rest s.head fuel hrest
        (fun z hz => not_not.1 (hnone z hz)) hfr
      obtain ⟨j, hj, hj1, hj2, hj3⟩ := num_of_page_loop_spec (blockSize n) fuel 1 (le_refl _)
        (by simp only [sizeof_node_t]; omega) (by simp only [sizeof_node_t]; linarith)
      simp only [sizeof_node_t] at hj2
      have hmy : mymalloc fuel s n = some (grow s (blockSize n) j) := by
        unfold mymalloc
        simp only []
        rw [if_neg, hs]
        · simp only [hj]
        · rw [I.u32_size hhd]
          omega
      refine ⟨s.brk, (grow s (blockSize n) j).2, hmy, Or.inr ⟨rfl, j, hj1, by omega,
        grow_brk s _ j, grow_size s _ j, ?_⟩⟩
      intro l1 hl1
      refine Seg_closed (fun x => x = s.head ∨ x = s.brk + blockSize n) ?_ l1 _ hl1.1
        (Or.inr (Or.inl rfl))
      intro x hx
      rw [grow_next]
      by_cases e1 : x = s.head
      · rw [if_pos e1]; exact Or.inr (Or.inr rfl)
      · rw [if_neg e1]
        rcases hx with hx | hx
        · exact absurd hx e1
        · rw [if_pos hx]; exact Or.inl rfl
    · -- list-scan split
      obtain ⟨q, c, hq, hc, hr⟩ := mymalloc_scan_found s (blockSize n) y post 0 pre s.head fuel
        (hsplit ▸ hrest) (fun z hz => not_not.1 (hpre z hz)) hy
        (by rw [hsplit] at hfr; simp only [List.length_append] at hfr; omega)
      have hl : s.head :: rest = (q ++ [c]) ++ y :: post := by rw [hsplit, ← hq]; rfl
      have hyl : y ∈ s.head :: rest := by rw [hl]; simp
      have hcl : c ∈ s.head :: rest := by rw [hl]; simp
      have hfy : blockSize n ≤ (s.mem y).size := hfit1 y hyl hy
      have hcne : c ≠ (s.mem c).next + blockSize n := by
        rw [hc]
        exact I.inner_ne (Or.inl hcl) (Or.inl hyl) (by omega) hfy
      have hfst : splitNext s c (blockSize n) = (y + 24, (splitNext s c (blockSize n)).2) :=
        Prod.ext (by rw [splitNext_fst s c _ hcne, hc]) rfl
      have hmy : mymalloc fuel s n = some (y + 24, (splitNext s c (blockSize n)).2) := by
        unfold mymalloc
        simp only []
        rw [if_neg, hr]
        · simp only []
          rw [← hfst]
        · rw [I.u32_size hhd]
          omega
      refine ⟨y, (splitNext s c (blockSize n)).2, hmy, Or.inl ⟨rfl, hyl, hfy,
        fun x => by rw [splitNext_size s c _ x hcne, hc], ?_⟩⟩
      intro l1 hl1
      refine Seg_closed (fun x => x = y + blockSize n ∨ x ∈ s.head :: rest) ?_ l1 _ hl1.1
        (Or.inr (Or.inr (List.mem_cons_self _ _)))
      intro x hx
      rw [splitNext_next, hc]
      by_cases e1 : x = c
      · rw [if_pos e1]; exact Or.inr (Or.inl rfl)
      · rw [if_neg e1]
        by_cases e2 : x = y + blockSize n
        · rw [if_pos e2]
          rcases hnext y hyl with h | h
          · exact Or.inl h
          · exact Or.inr (Or.inr h)
        · rw [if_neg e2]
          rcases hx with hx | hx
          · exact absurd hx e2
          · rcases hnext x hx with h | h
            · exact Or.inl h
            · exact Or.inr (Or.inr h)

/-! ## The arena is tiled in every reachable state -/

theorem reachableFrom_reachable {b0 : Int} {s : Heap} {L : Set Int} {R : List (Int × Int)}
    (h : ReachableFrom b0 s L R) : Reachable (fun _ => True) b0 s L := by
  induction h with
  | init hd m h0 => exact Reachable.init hd m h0 trivial
  | malloc fuel n p s1 _ hn hm hhi ih =>
    exact Reachable.malloc fuel n p s1 ih hn hm (fun _ => trivial) hhi
  | free fuel p r s1 _ hp hm ih => exact Reachable.free fuel p r s1 ih hp hm
  | foreign g _ hg hhi ih => exact Reachable.foreign g ih hg hhi

theorem reachableFrom_tiled {b0 : Int} {s : Heap} {L : Set Int} {R : List (Int × Int)}
    (h : ReachableFrom b0 s L R) :
    ∃ G : Set Int, Tiled b0 s R G ∧ (∀ l, FreeList s l → ∀ x ∈ l, x ∈ G) ∧
      ∀ p ∈ L, p - 24 ∈ G := by
  induction h with
  | init hd m h0 =>
    have I : Inv (fun _ => True) b0 (mymalloc_init ⟨hd, m, b0⟩).2 [b0] ∅ :=
      init_inv hd m h0 trivial
    have hsz : ((mymalloc_init ⟨hd, m, b0⟩).2.mem b0).size = 4072 := by
      simp [mymalloc_init, sizeof_node_t]
    refine ⟨{b0}, ?_, ?_, ?_⟩
    · constructor
      · intro x hx
        rw [Set.mem_singleton_iff] at hx
        subst hx
        rw [hsz]; decide
      · intro x hx y hy hne
        rw [Set.mem_singleton_iff] at hx hy
        exact absurd (hx.trans hy.symm) hne
      · intro a
        constructor
        · rintro ⟨r, hr, h1, h2⟩
          rw [List.mem_singleton] at hr
          subst hr
          refine ⟨b0, rfl, h1, ?_⟩
          unfold blkEnd sizeof_node_t
          rw [hsz]
          simp only [] at h2
          omega
        · rintro ⟨x, hx, h1, h2⟩
          rw [Set.mem_singleton_iff] at hx
          subst hx
          unfold blkEnd sizeof_node_t at h2
          rw [hsz] at h2
          exact ⟨(x, x + 4096), List.mem_singleton.2 rfl, h1, by simp only []; omega⟩
      · intro r hr
        rw [List.mem_singleton] at hr
        subst hr
        exact le_refl _
      · rfl
      · intro x hx
        rw [Set.mem_singleton_iff] at hx
        exact le_of_eq hx.symm
    · intro l hl x hx
      rw [I.freeList_eq hl] at hx
      exact List.mem_singleton.1 hx
    · intro p hp
      exact absurd hp (Set.not_mem_empty p)
  | @malloc s L R fuel n p s1 hprev hn hm hhi ih =>
    obtain ⟨G, T, hfl, hlv⟩ := ih
    obtain ⟨l, I⟩ := reachable_inv (reachableFrom_reachable hprev)
    obtain ⟨hf1, hf2⟩ := fuel_enough l (blockSize n) (fuel + (l.length + (blockSize n + 24).toNat))
      (by omega)
    obtain ⟨F, s2, hm2, hcase⟩ := mymalloc_paths I hn hf1 hf2
    have hm3 := mymalloc_mono (Nat.le_add_right fuel (l.length + (blockSize n + 24).toNat)) hm
    rw [hm2] at hm3
    obtain ⟨rfl, rfl⟩ := Prod.mk.inj (Option.some.inj hm3)
    obtain ⟨_, hB1, _, _⟩ := blockSize_bounds hn
    have hn0 : 0 ≤ n := hn.1
    rcases hcase with ⟨hbrk, hFl, hfit, hsz, hl1⟩ | ⟨hF, k, hk1, hk2, hbrk, hsz, hl1⟩
    · rw [if_pos hbrk]
      have hFG : F ∈ G := hfl l I.freeList F hFl
      refine ⟨insert (F + blockSize n) G, tiled_split T hFG (by omega) hfit hsz hbrk, ?_, ?_⟩
      · intro l1 h1 x hx
        rcases hl1 l1 h1 x hx with e | e
        · exact Or.inl e
        · exact Or.inr (hfl l I.freeList x e)
      · intro q hq
        rcases hq with e | e
        · right
          rw [e, add_sub_cancel_right]
          exact hFG
        · exact Or.inr (hlv q e)
    · have hne : ¬ (s2.brk = s.brk) := by omega
      rw [if_neg hne, hbrk]
      refine ⟨insert s.brk (insert (s.brk + blockSize n) G),
        tiled_grow T (by omega) hk2 hsz hbrk, ?_, ?_⟩
      · intro l1 h1 x hx
        rcases hl1 l1 h1 x hx with e | e
        · right; right
          rw [e]
          obtain ⟨rest, rfl, _⟩ := I.cons
          exact hfl _ I.freeList _ (List.mem_cons_self _ _)
        · exact Or.inr (Or.inl e)
      · intro q hq
        rcases hq with e | e
        · left
          rw [e, add_sub_cancel_right]
          exact hF
        · exact Or.inr (Or.inr (hlv q e))
  | @free s L R fuel p r s1 hprev hp hm ih =>
    obtain ⟨G, T, hfl, hlv⟩ := ih
    obtain ⟨l, I⟩ := reachable_inv (reachableFrom_reachable hprev)
    have hF : p - 24 ∈ {a : Int | a + 24 ∈ L} := by
      show p - 24 + 24 ∈ L
      rw [sub_add_cancel]; exact hp
    obtain ⟨s2, l1, hm2, I1, hbrk, hcase⟩ := myfree_cases I hF (Nat.le_add_left l.length fuel)
    have hm3 := myfree_mono (Nat.le_add_right fuel l.length) hm
    rw [sub_add_cancel, hm3] at hm2
    obtain ⟨rfl, rfl⟩ := Prod.mk.inj (Option.some.inj hm2)
    have hFG : p - 24 ∈ G := hlv p hp
    rcases hcase with ⟨_, hs1, hl1, _⟩ | ⟨_, X, Z, hXZ, hadj, hsz, _, hmem⟩
    · refine ⟨G, tiled_same T (fun x => by rw [hs1, insertSecond_size]) (le_of_eq hbrk.symm),
        ?_, fun q hq => hlv q hq.1⟩
      intro l2 h2 x hx
      rw [I1.freeList_eq h2, hl1] at hx
      obtain ⟨rest, rfl, _⟩ := I.cons
      rcases List.mem_cons.1 hx with e | hx
      · rw [e]; exact hfl _ I.freeList _ (List.mem_cons_self _ _)
      · rcases List.mem_cons.1 hx with e | hx
        · rw [e]; exact hFG
        · exact hfl _ I.freeList _ (List.mem_cons_of_mem _ hx)
    · have hXG : X ∈ G := by
        rcases hXZ with ⟨e, _⟩ | ⟨e, _⟩
        · rw [e]; exact hFG
        · exact hfl l I.freeList X e
      have hZG : Z ∈ G := by
        rcases hXZ with ⟨_, e⟩ | ⟨_, e⟩
        · exact hfl l I.freeList Z e
        · rw [e]; exact hFG
      refine ⟨G \ {Z}, tiled_merge T hXG hZG hadj hsz hbrk, ?_, ?_⟩
      · intro l2 h2 x hx
        rw [I1.freeList_eq h2] at hx
        obtain ⟨h3, h4⟩ := (hmem x).1 hx
        refine ⟨?_, h4⟩
        rcases h3 with e | e
        · exact hfl l I.freeList x e
        · rw [e]; exact hFG
      · intro q hq
        refine ⟨hlv q hq.1, ?_⟩
        intro e
        have e : q - 24 = Z := e
        rcases hXZ with ⟨_, hZl⟩ | ⟨_, hZF⟩
        · have hqA : q - 24 ∈ {a : Int | a + 24 ∈ L} := by
            show q - 24 + 24 ∈ L
            rw [sub_add_cancel]; exact hq.1
          exact I.not_both hZl (e ▸ hqA)
        · exact hq.2 (by show q = p; omega)
  | @foreign s L R g hprev hg hhi ih =>
    obtain ⟨G, T, hfl, hlv⟩ := ih
    exact ⟨G, tiled_same T (fun _ => rfl) (by show s.brk ≤ s.brk + g; omega),
      fun l hl => hfl l hl, hlv⟩

theorem crossRegion_reachableFrom :
    ReachableFrom 4096 crossRegion (insert 8216 ∅ \ {8216}) [(4096, 8192), (8192, 16384)] := by
  have r0 : ReachableFrom 4096 fresh ∅ [(4096, 4096 + 4096)] :=
    ReachableFrom.init 0 (fun _ => ⟨0, 0, 0⟩) (by decide)
  have r1 := ReachableFrom.malloc 16 5000 8216 _ r0 (noOverflow_small (by decide) (by decide))
    (afterMalloc_eq (by decide)) (by decide)
  have e : (if (afterMalloc fresh 5000).brk = fresh.brk then [((4096 : Int), (4096 : Int) + 4096)]
      else [((4096 : Int), (4096 : Int) + 4096)] ++ [(fresh.brk, (afterMalloc fresh 5000).brk)]) =
      [(4096, 8192), (8192, 16384)] := by decide
  rw [e] at r1
  exact ReachableFrom.free 16 8216 0 _ r1 (Set.mem_insert _ _) (afterFree_eq (by decide))

/-- C15, counterexample to the wording "starting at the base of each region":
after `p = mymalloc(5000); myfree(p)` on the fresh heap the provider has handed
out the regions `[4096, 8192)` and `[8192, 16384)`; the freed block at the base of
the second region was merged into the head, whose block now runs from 4096 to
13216. The step from the base of the first region therefore passes the end 8192
of that region, and the base 8192 of the second region is not the header of a
block in any tiling of the arena. -/
theorem region_walk_counterexample :
    ReachableFrom 4096 crossRegion (insert 8216 ∅ \ {8216}) [(4096, 8192), (8192, 16384)] ∧
    crossRegion.head = 4096 ∧ (crossRegion.mem 4096).magic = FREE ∧
    blkEnd crossRegion.mem 4096 = 13216 ∧
    ∀ G : Set Int, Tiled 4096 crossRegion [(4096, 8192), (8192, 16384)] G → (8192 : Int) ∉ G := by
  refine ⟨crossRegion_reachableFrom, by decide, by decide, by decide, ?_⟩
  intro G T h
  have h1 : blkEnd crossRegion.mem 4096 = 13216 := by decide
  have h2 : blkEnd crossRegion.mem 8192 = 13216 := by decide
  have := T.sep 4096 T.first 8192 h (by decide)
  rw [h1, h2] at this
  omega

/-- C15 (amended): in every heap state reachable from `mymalloc_init` by valid
calls there is a set `G` of block headers, containing the first region's base,
every free-list node and the header of every live block, whose blocks tile the
obtained regions exactly: every size is non-negative and counts payload bytes
only, no two blocks overlap, an address lies in an obtained region exactly when
it lies in a block of `G`, and the step by `H + size` from a header of `G` lands
on another header of `G` or on the end of an obtained region. -/
theorem arena_tiled {b0 : Int} {s : Heap} {L : Set Int} {R : List (Int × Int)}
    (h : ReachableFrom b0 s L R) :
    ∃ G : Set Int, Tiled b0 s R G ∧ (∀ l, FreeList s l → ∀ x ∈ l, x ∈ G) ∧
      (∀ p ∈ L, p - sizeof_node_t ∈ G) ∧
      ∀ x ∈ G, blkEnd s.mem x ∈ G ∨ ∃ r ∈ R, blkEnd s.mem x = r.2 := by
  obtain ⟨G, T, hfl, hlv⟩ := reachableFrom_tiled h
  refine ⟨G, T, hfl, hlv, ?_⟩
  intro x hx
  have h0 := T.nonneg x hx
  have he : blkEnd s.mem x = x + 24 + (s.mem x).size := rfl
  obtain ⟨r, hr, r1, r2⟩ := (T.cover (blkEnd s.mem x - 1)).2 ⟨x, hx, by omega, by omega⟩
  by_cases c : blkEnd s.mem x = r.2
  · exact Or.inr ⟨r, hr, c⟩
  · left
    obtain ⟨y, hy, y1, y2⟩ := (T.cover (blkEnd s.mem x)).1 ⟨r, hr, by omega, by omega⟩
    by_cases e : y = blkEnd s.mem x
    · rw [← e]; exact hy
    · exfalso
      have hne : x ≠ y := by
        intro exy
        rw [← exy] at y2
        omega
      have := T.sep x hx y hy hne
      omega

/-- Witness of C15 on the heap after `p = mymalloc(5000); myfree(p)`. -/
theorem arena_tiled_witness :
    ReachableFrom 4096 crossRegion (insert 8216 ∅ \ {8216}) [(4096, 8192), (8192, 16384)] ∧
    ∃ G : Set Int, Tiled 4096 crossRegion [(4096, 8192), (8192, 16384)] G ∧
      (∀ l, FreeList crossRegion l → ∀ x ∈ l, x ∈ G) ∧
      (∀ p ∈ (insert 8216 ∅ \ {8216} : Set Int), p - sizeof_node_t ∈ G) ∧
      ∀ x ∈ G, blkEnd crossRegion.mem x ∈ G ∨
        ∃ r ∈ [((4096 : Int), (8192 : Int)), (8192, 16384)], blkEnd crossRegion.mem x = r.2 :=
  ⟨crossRegion_reachableFrom, arena_tiled crossRegion_reachableFrom⟩

/-! ## `mymalloc` and the provider -/

theorem grow_sbrk_true (s : Heap) (B k : Int) : grow_sbrk true s B k = grow s B k := rfl

theorem mymalloc_sbrk_true (fuel : Nat) (s : Heap) (n : Int) :
    mymalloc_sbrk true fuel s n = mymalloc fuel s n := rfl

/-- A call that ends without moving the break never calls the provider. -/
theorem mymalloc_sbrk_of_split {s : Heap} {n : Int} {fuel : Nat} {r : Int × Heap}
    (ok : Bool) (hB : 0 < blockSize n + 24) (h : mymalloc fuel s n = some r)
    (hb : r.2.brk = s.brk) : mymalloc_sbrk ok fuel s n = some r := by
  unfold mymalloc at h
  unfold mymalloc_sbrk
  simp only [] at h ⊢
  split_ifs at h ⊢ with h1
  · exact h
  · cases h2 : mymalloc_scan fuel s s.head (blockSize n) with
    | none => rw [h2] at h; simp at h
    | some o =>
      rw [h2] at h
      cases o with
      | some r1 => exact h
      | none =>
        simp only [] at h ⊢
        cases h3 : num_of_page_loop fuel 1 (blockSize n) with
        | none => rw [h3] at h; simp at h
        | some k =>
          rw [h3] at h
          exfalso
          obtain ⟨k1, _, _⟩ := num_of_page_loop_sound hB h3
          have e : r = grow s (blockSize n) k := (Option.some.inj h).symm
          rw [e, grow_brk] at hb
          omega

/-- The result of `mymalloc` on a reachable heap when the request fits a node of
the free list, or the provider grants the growth and the grown arena stays below
`2^31` bytes: the call returns, and every `int` it computed is below `2^31`. -/
theorem mymalloc_sbrk_spec {b0 : Int} {s : Heap} {L : Set Int}
    (h : Reachable (fun _ => True) b0 s L) {n : Int} (hn : NoOverflow n)
    {l : List Int} (hl : FreeList s l) (ok : Bool)
    (hfit : (∃ x ∈ l, blockSize n ≤ (s.mem x).size) ∨ (ok = true ∧ ArenaFits b0 s n)) :
    ∃ f0 : Nat, ∀ fuel, f0 ≤ fuel → ∃ F s1, mymalloc_sbrk ok fuel s n = some (F + 24, s1) ∧
      0 < F ∧ (s1.mem F).magic = ALLOCATED ∧ (s1.mem F).size = blockSize n - 24 ∧
      blockSize n - 24 ≤ 2147483647 ∧ s.brk ≤ s1.brk ∧ s1.brk - s.brk ≤ 2147483647 ∧
      s1.brk ≤ b0 + 2147483647 ∧
      ((∃ x ∈ l, blockSize n ≤ (s.mem x).size) → s1.brk = s.brk) := by
  obtain ⟨l0, I⟩ := reachable_inv h
  obtain rfl := I.freeList_eq hl
  obtain ⟨hB8, hB1, hB2, hB3⟩ := blockSize_bounds hn
  have hn0 : 0 ≤ n := hn.1
  have hhi := I.hi
  have hlo := I.lo
  refine ⟨l.length + (blockSize n + 24).toNat, fun fuel hf => ?_⟩
  obtain ⟨hf1, hf2⟩ := fuel_enough l (blockSize n) fuel hf
  obtain ⟨F, s1, l1, hm, _, hF0, hsz, hmg, _, hle, hsame, _⟩ := mymalloc_spec I hn hf1 hf2
  have hbrk0 : b0 + 24 ≤ s.brk := by
    obtain ⟨rest, rfl, _⟩ := I.cons
    have := I.bounds s.head (Or.inl (List.mem_cons_self _ _))
    have h0 := (I.free_ok s.head (List.mem_cons_self _ _)).2
    unfold blkEnd sizeof_node_t at this
    omega
  rcases hfit with hx | ⟨hok, ha⟩
  · have hb := hsame hx
    obtain ⟨x, hxl, hxs⟩ := hx
    have := I.bounds x (Or.inl hxl)
    unfold blkEnd sizeof_node_t at this
    exact ⟨F, s1, mymalloc_sbrk_of_split ok (by omega) hm hb, hF0, hmg, hsz, by omega,
      hle, by omega, by omega, fun _ => hb⟩
  · subst hok
    unfold ArenaFits at ha
    rw [← blockSize_eq hn] at ha
    simp only [sizeof_node_t] at ha
    have hgrow : s1.brk - s.brk ≤ blockSize n + 24 + 4095 := by
      rcases mymalloc_cases hm with e | ⟨k, hk, hr⟩
      · have e : s1.brk = s.brk := e
        omega
      · obtain ⟨k1, k2, k3⟩ := num_of_page_loop_sound (by omega) hk
        have e : s1 = (grow s (blockSize n) k).2 := congrArg Prod.snd hr
        rw [e, grow_brk]
        have := k3 ((blockSize n + 24 + 4095) / 4096) (by omega) (by omega)
        omega
    exact ⟨F, s1, hm, hF0, hmg, hsz, by omega, hle, by omega, by omega, hsame⟩

/-! ## Claims C3, C10 and C11: the block returned by `mymalloc` -/

theorem fresh_freeList : FreeList fresh [4096] :=
  ⟨⟨by decide, by decide, (by decide : (fresh.mem 4096).next = 0)⟩, by decide⟩

theorem fresh_reachable : Reachable (fun _ => True) 4096 fresh ∅ :=
  Reachable.init 0 (fun _ => ⟨0, 0, 0⟩) (by decide) trivial

theorem afterMalloc100_reachable :
    Reachable (fun _ => True) 4096 (afterMalloc fresh 100) (insert 4120 ∅) :=
  Reachable.malloc 16 100 4120 _ fresh_reachable (noOverflow_small (by decide) (by decide))
    (afterMalloc_eq (by decide)) (fun _ => trivial) (by decide)

theorem afterMalloc100_freeList : FreeList (afterMalloc fresh 100) [4224] :=
  ⟨⟨by decide, by decide, (by decide : ((afterMalloc fresh 100).mem 4224).next = 0)⟩, by decide⟩

/-- C3: in every reachable heap state, for every request `n` whose
header-adjusted rounded value does not overflow, and such that the request fits a
node of the free list or else the provider grants the growth and the grown arena
stays below `2^31` bytes, `mymalloc(n)` returns (with enough fuel for its loops)
a non-null pointer `p` whose header at `p - H` is tagged `ALLOCATED` and records
the size `roundup8 (n + H) - H`, which is at least `n` and fits an `int`; for
`n = 0` the recorded size is 0 and the block `[p - H, p)` is exactly the header. -/
theorem mymalloc_returns_block {b0 : Int} {s : Heap} {L : Set Int}
    (h : Reachable (fun _ => True) b0 s L) {n : Int} (hn : NoOverflow n)
    {l : List Int} (hl : FreeList s l) (ok : Bool)
    (hfit : (∃ x ∈ l, roundup8 (n + sizeof_node_t) ≤ (s.mem x).size) ∨
      (ok = true ∧ ArenaFits b0 s n)) :
    ∃ f0 : Nat, ∀ fuel, f0 ≤ fuel → ∃ p s1, mymalloc_sbrk ok fuel s n = some (p, s1) ∧ p ≠ 0 ∧
      (s1.mem (p - sizeof_node_t)).magic = ALLOCATED ∧
      (s1.mem (p - sizeof_node_t)).size = roundup8 (n + sizeof_node_t) - sizeof_node_t ∧
      n ≤ (s1.mem (p - sizeof_node_t)).size ∧
      (s1.mem (p - sizeof_node_t)).size ≤ 2147483647 ∧
      s1.brk - s.brk ≤ 2147483647 ∧ s1.brk ≤ b0 + 2147483647 ∧
      (n = 0 → (s1.mem (p - sizeof_node_t)).size = 0 ∧
        blkEnd s1.mem (p - sizeof_node_t) = p) := by
  rw [← blockSize_eq hn] at hfit
  obtain ⟨f0, hf0⟩ := mymalloc_sbrk_spec h hn hl ok hfit
  refine ⟨f0, fun fuel hf => ?_⟩
  obtain ⟨F, s1, hm, hF0, hmg, hsz, hint, _, hinc, hhi, _⟩ := hf0 fuel hf
  obtain ⟨_, hB1, hB2, _⟩ := blockSize_bounds hn
  have e : F + 24 - sizeof_node_t = F := by simp [sizeof_node_t]
  refine ⟨F + 24, s1, hm, by omega, ?_, ?_, ?_, ?_, hinc, hhi, ?_⟩
  · rw [e]; exact hmg
  · rw [e, hsz, blockSize_eq hn]; rfl
  · rw [e, hsz]; omega
  · rw [e, hsz]; exact hint
  · intro h0
    subst h0
    have hb : blockSize 0 = 24 := by decide
    rw [e]
    unfold blkEnd
    rw [hsz, hb]
    simp [sizeof_node_t]

/-- Witness of C3: a request of 0 bytes on the example heap, which fits a node
of the free list whatever the provider answers, and a request of 5000 bytes on the fresh heap,
which needs the provider. -/
theorem mymalloc_returns_block_witness :
    (Reachable (fun _ => True) 4096 demoList demoLive ∧ NoOverflow 0 ∧
      FreeList demoList [8168, 4096, 4168, 4288] ∧
      roundup8 (0 + sizeof_node_t) ≤ (demoList.mem 4168).size ∧
      ∃ f0 : Nat, ∀ fuel, f0 ≤ fuel → ∃ p s1,
        mymalloc_sbrk false fuel demoList 0 = some (p, s1) ∧ p ≠ 0 ∧
        (s1.mem (p - sizeof_node_t)).magic = ALLOCATED ∧
        (s1.mem (p - sizeof_node_t)).size = roundup8 (0 + sizeof_node_t) - sizeof_node_t ∧
        0 ≤ (s1.mem (p - sizeof_node_t)).size ∧
        (s1.mem (p - sizeof_node_t)).size ≤ 2147483647 ∧
        s1.brk - demoList.brk ≤ 2147483647 ∧ s1.brk ≤ 4096 + 2147483647 ∧
        ((0 : Int) = 0 → (s1.mem (p - sizeof_node_t)).size = 0 ∧
          blkEnd s1.mem (p - sizeof_node_t) = p)) ∧
    (Reachable (fun _ => True) 4096 fresh ∅ ∧ NoOverflow 5000 ∧ FreeList fresh [4096] ∧
      ArenaFits 4096 fresh 5000 ∧
      ∃ f0 : Nat, ∀ fuel, f0 ≤ fuel → ∃ p s1,
        mymalloc_sbrk true fuel fresh 5000 = some (p, s1) ∧ p ≠ 0 ∧
        (s1.mem (p - sizeof_node_t)).magic = ALLOCATED ∧
        (s1.mem (p - sizeof_node_t)).size = roundup8 (5000 + sizeof_node_t) - sizeof_node_t ∧
        5000 ≤ (s1.mem (p - sizeof_node_t)).size ∧
        (s1.mem (p - sizeof_node_t)).size ≤ 2147483647 ∧
        s1.brk - fresh.brk ≤ 2147483647 ∧ s1.brk ≤ 4096 + 2147483647 ∧
        ((5000 : Int) = 0 → (s1.mem (p - sizeof_node_t)).size = 0 ∧
          blkEnd s1.mem (p - sizeof_node_t) = p)) :=
  ⟨⟨demoList_reachable.mono (fun _ _ => trivial), noOverflow_small (by decide) (by decide),
      demoList_freeList, by decide,
      mymalloc_returns_block (demoList_reachable.mono (fun _ _ => trivial))
        (noOverflow_small (by decide) (by decide)) demoList_freeList false
        (Or.inl ⟨4168, by simp, by decide⟩)⟩,
    ⟨fresh_reachable, noOverflow_small (by decide) (by decide), fresh_freeList,
      (by unfold ArenaFits; decide),
      mymalloc_returns_block fresh_reachable (noOverflow_small (by decide) (by decide))
        fresh_freeList true (Or.inr ⟨rfl, by unfold ArenaFits; decide⟩)⟩⟩

/-- C11 (amended): in every reachable heap state and for every request `n`
without overflow, such that the request fits a node of the free list or else the
provider grants the growth and the grown arena stays below `2^31` bytes, the
block returned by `mymalloc(n)` spans, header included, the smallest multiple of
8 that is at least `n + H`, and the usable size recorded in its header is that
value minus `H`, which fits an `int`. -/
theorem usable_size {b0 : Int} {s : Heap} {L : Set Int}
    (h : Reachable (fun _ => True) b0 s L) {n : Int} (hn : NoOverflow n)
    {l : List Int} (hl : FreeList s l) (ok : Bool)
    (hfit : (∃ x ∈ l, roundup8 (n + sizeof_node_t) ≤ (s.mem x).size) ∨
      (ok = true ∧ ArenaFits b0 s n)) :
    ∃ f0 : Nat, ∀ fuel, f0 ≤ fuel → ∃ p s1, mymalloc_sbrk ok fuel s n = some (p, s1) ∧
      (s1.mem (p - sizeof_node_t)).size = roundup8 (n + sizeof_node_t) - sizeof_node_t ∧
      (s1.mem (p - sizeof_node_t)).size ≤ 2147483647 ∧
      blkEnd s1.mem (p - sizeof_node_t) - (p - sizeof_node_t) = roundup8 (n + sizeof_node_t) ∧
      roundup8 (n + sizeof_node_t) % 8 = 0 ∧ n + sizeof_node_t ≤ roundup8 (n + sizeof_node_t) ∧
      ∀ m : Int, m % 8 = 0 → n + sizeof_node_t ≤ m → roundup8 (n + sizeof_node_t) ≤ m := by
  rw [← blockSize_eq hn] at hfit
  obtain ⟨f0, hf0⟩ := mymalloc_sbrk_spec h hn hl ok hfit
  refine ⟨f0, fun fuel hf => ?_⟩
  obtain ⟨F, s1, hm, _, _, hsz, hint, _⟩ := hf0 fuel hf
  obtain ⟨r1, r2, r3⟩ := roundup8_least (n + sizeof_node_t)
  have e : F + 24 - sizeof_node_t = F := by simp [sizeof_node_t]
  refine ⟨F + 24, s1, hm, ?_, ?_, ?_, r1, r2, r3⟩
  · rw [e, hsz, blockSize_eq hn]; rfl
  · rw [e, hsz]; exact hint
  · rw [e]
    unfold blkEnd
    rw [hsz, blockSize_eq hn]
    simp only [sizeof_node_t]
    ring

/-- Witness of the amended C11: `mymalloc(100)` on the fresh heap, where the
request fits the head. -/
theorem usable_size_witness :
    Reachable (fun _ => True) 4096 fresh ∅ ∧ NoOverflow 100 ∧ FreeList fresh [4096] ∧
    roundup8 (100 + sizeof_node_t) ≤ (fresh.mem 4096).size ∧
    roundup8 (100 + sizeof_node_t) = 128 ∧
    ∃ f0 : Nat, ∀ fuel, f0 ≤ fuel → ∃ p s1, mymalloc_sbrk false fuel fresh 100 = some (p, s1) ∧
      (s1.mem (p - sizeof_node_t)).size = roundup8 (100 + sizeof_node_t) - sizeof_node_t ∧
      (s1.mem (p - sizeof_node_t)).size ≤ 2147483647 ∧
      blkEnd s1.mem (p - sizeof_node_t) - (p - sizeof_node_t) = roundup8 (100 + sizeof_node_t) ∧
      roundup8 (100 + sizeof_node_t) % 8 = 0 ∧
      100 + sizeof_node_t ≤ roundup8 (100 + sizeof_node_t) ∧
      ∀ m : Int, m % 8 = 0 → 100 + sizeof_node_t ≤ m → roundup8 (100 + sizeof_node_t) ≤ m :=
  ⟨fresh_reachable, noOverflow_small (by decide) (by decide), fresh_freeList, by decide,
    by decide,
    usable_size fresh_reachable (noOverflow_small (by decide) (by decide)) fresh_freeList false
      (Or.inl ⟨4096, by simp, by decide⟩)⟩

/-- C10: on a reachable heap, for a request `n` without overflow that keeps the
grown arena below `2^31` bytes, with `B = roundup8 (n + H)` and `k` the smallest
`k ≥ 1` with `k * 4096 ≥ B + H` (so that `k * 4096` fits an `int`): when no node
of the free list has room for `B` bytes and the provider grants the region,
`mymalloc(n)` returns (with enough fuel for its loops) after requesting exactly
`k` pages; the allocated block sits at the start of the new region with recorded
payload `B - H`; the free remainder header sits at `base + B` with size
`k * 4096 - B - H ≥ 0`, and the two blocks exactly fill the `k` pages.
Conversely a call that moves the break found no node of the free list with room
for `B` bytes. -/
theorem growth_carves {b0 : Int} {s : Heap} {L : Set Int}
    (h : Reachable (fun _ => True) b0 s L) {n : Int} (hn : NoOverflow n)
    (ha : ArenaFits b0 s n) {l : List Int} (hl : FreeList s l) :
    ∃ k : Int, 1 ≤ k ∧ roundup8 (n + sizeof_node_t) + sizeof_node_t ≤ k * 4096 ∧
      (∀ j : Int, 1 ≤ j → roundup8 (n + sizeof_node_t) + sizeof_node_t ≤ j * 4096 → k ≤ j) ∧
      k * 4096 ≤ 2147483647 ∧
      ((∀ x ∈ l, (s.mem x).size < roundup8 (n + sizeof_node_t)) →
        ∃ f0 : Nat, ∀ fuel, f0 ≤ fuel → ∃ p s1, mymalloc_sbrk true fuel s n = some (p, s1) ∧
          s1.brk = s.brk + 4096 * k ∧ s1.brk ≤ b0 + 2147483647 ∧
          p = s.brk + sizeof_node_t ∧
          (s1.mem s.brk).magic = ALLOCATED ∧
          (s1.mem s.brk).size = roundup8 (n + sizeof_node_t) - sizeof_node_t ∧
          (s1.mem (s.brk + roundup8 (n + sizeof_node_t))).magic = FREE ∧
          (s1.mem (s.brk + roundup8 (n + sizeof_node_t))).size =
            k * 4096 - roundup8 (n + sizeof_node_t) - sizeof_node_t ∧
          0 ≤ (s1.mem (s.brk + roundup8 (n + sizeof_node_t))).size ∧
          blkEnd s1.mem s.brk = s.brk + roundup8 (n + sizeof_node_t) ∧
          blkEnd s1.mem (s.brk + roundup8 (n + sizeof_node_t)) = s.brk + k * 4096) ∧
      (∀ fuel p s1, mymalloc_sbrk true fuel s n = some (p, s1) → s1.brk ≠ s.brk →
        s1.brk = s.brk + 4096 * k ∧
          ∀ x ∈ l, (s.mem x).size < roundup8 (n + sizeof_node_t)) := by
  obtain ⟨l0, I⟩ := reachable_inv h
  obtain rfl := I.freeList_eq hl
  obtain ⟨_, hB1, _, _⟩ := blockSize_bounds hn
  have hn0 : 0 ≤ n := hn.1
  have hbrk0 : b0 + 24 ≤ s.brk := by
    obtain ⟨rest, rfl, _⟩ := I.cons
    have := I.bounds s.head (Or.inl (List.mem_cons_self _ _))
    have h0 := (I.free_ok s.head (List.mem_cons_self _ _)).2
    unfold blkEnd sizeof_node_t at this
    omega
  unfold ArenaFits at ha
  rw [← blockSize_eq hn]
  rw [← blockSize_eq hn] at ha
  simp only [sizeof_node_t] at ha ⊢
  -- the page count of the loop is the ceiling of (B + H) / 4096
  have hk : ∀ {fuel : Nat} {r : Int × Heap}, mymalloc fuel s n = some r → r.2.brk ≠ s.brk →
      r = grow s (blockSize n) ((blockSize n + 24 + 4095) / 4096) := by
    intro fuel r hm hg
    rcases mymalloc_cases hm with e | ⟨k, hk, hr⟩
    · exact absurd e hg
    · obtain ⟨k1, k2, k3⟩ := num_of_page_loop_sound (by omega) hk
      have := k3 ((blockSize n + 24 + 4095) / 4096) (by omega) (by omega)
      have e : k = (blockSize n + 24 + 4095) / 4096 := by omega
      rw [← e]; exact hr
  have hne : ¬ (s.brk + blockSize n = s.brk) := by omega
  refine ⟨(blockSize n + 24 + 4095) / 4096, by omega, by omega, fun j hj1 hj2 => by omega,
    by omega, ?_, ?_⟩
  · intro hno
    refine ⟨l.length + (blockSize n + 24).toNat, fun fuel hf => ?_⟩
    obtain ⟨hf1, hf2⟩ := fuel_enough l (blockSize n) fuel hf
    obtain ⟨F, s1, hm, hcase⟩ := mymalloc_paths I hn hf1 hf2
    rcases hcase with ⟨_, hFl, hfit, _⟩ | ⟨_, k, hk1, _, hbrk, _⟩
    · have := hno F hFl
      omega
    · have hr := hk hm (by show s1.brk ≠ s.brk; omega)
      have hp : F + 24 = (grow s (blockSize n) ((blockSize n + 24 + 4095) / 4096)).1 :=
        congrArg Prod.fst hr
      have hs1 : s1 = (grow s (blockSize n) ((blockSize n + 24 + 4095) / 4096)).2 :=
        congrArg Prod.snd hr
      refine ⟨F + 24, s1, hm, ?_⟩
      rw [hp, hs1]
      refine ⟨rfl, by simp only [grow_brk]; omega, rfl, ?_, ?_, ?_, ?_, ?_, ?_, ?_⟩
      · rw [grow_magic]; simp
      · rw [grow_size]; simp
      · rw [grow_magic]; simp [hne]
      · rw [grow_size]; simp [hne]; ring
      · rw [grow_size, if_neg hne, if_pos rfl]; omega
      · unfold blkEnd; rw [grow_size]; simp [sizeof_node_t]
      · unfold blkEnd; rw [grow_size]; simp [hne, sizeof_node_t]; ring
  · intro fuel p s1 hm hg
    have hm1 : mymalloc fuel s n = some (p, s1) := hm
    refine ⟨?_, ?_⟩
    · have hr := hk hm1 hg
      have hs1 : s1 = (grow s (blockSize n) ((blockSize n + 24 + 4095) / 4096)).2 :=
        congrArg Prod.snd hr
      rw [hs1]; rfl
    · intro x hx
      by_contra hlt
      obtain ⟨hf1, hf2⟩ := fuel_enough l (blockSize n)
        (fuel + (l.length + (blockSize n + 24).toNat)) (by omega)
      obtain ⟨F, s2, l1, hm2, _, _, _, _, _, _, hsame, _⟩ := mymalloc_spec I hn hf1 hf2
      have hm3 := mymalloc_mono (Nat.le_add_right fuel (l.length + (blockSize n + 24).toNat)) hm1
      rw [hm2] at hm3
      have e : s2 = s1 := (Prod.mk.inj (Option.some.inj hm3)).2
      rw [e] at hsame
      exact hg (hsame ⟨x, hx, by omega⟩)

/-- Witness of C10: after `mymalloc_init` and `mymalloc(100)`, the call
`mymalloc(5000)` requests `ceil((5000 + H) / 4096) = 2` pages. -/
theorem growth_carves_witness :
    Reachable (fun _ => True) 4096 (afterMalloc fresh 100) (insert 4120 ∅) ∧
    NoOverflow 5000 ∧ ArenaFits 4096 (afterMalloc fresh 100) 5000 ∧
    FreeList (afterMalloc fresh 100) [4224] ∧
    (∀ x ∈ [(4224 : Int)], ((afterMalloc fresh 100).mem x).size
      < roundup8 (5000 + sizeof_node_t)) ∧
    (afterMalloc (afterMalloc fresh 100) 5000).brk - (afterMalloc fresh 100).brk = 2 * 4096 ∧
    ∃ k : Int, 1 ≤ k ∧ roundup8 (5000 + sizeof_node_t) + sizeof_node_t ≤ k * 4096 ∧
      (∀ j : Int, 1 ≤ j → roundup8 (5000 + sizeof_node_t) + sizeof_node_t ≤ j * 4096 → k ≤ j) ∧
      k * 4096 ≤ 2147483647 ∧
      ((∀ x ∈ [(4224 : Int)], ((afterMalloc fresh 100).mem x).size
          < roundup8 (5000 + sizeof_node_t)) →
        ∃ f0 : Nat, ∀ fuel, f0 ≤ fuel → ∃ p s1,
          mymalloc_sbrk true fuel (afterMalloc fresh 100) 5000 = some (p, s1) ∧
          s1.brk = (afterMalloc fresh 100).brk + 4096 * k ∧ s1.brk ≤ 4096 + 2147483647 ∧
          p = (afterMalloc fresh 100).brk + sizeof_node_t ∧
          (s1.mem (afterMalloc fresh 100).brk).magic = ALLOCATED ∧
          (s1.mem (afterMalloc fresh 100).brk).size =
            roundup8 (5000 + sizeof_node_t) - sizeof_node_t ∧
          (s1.mem ((afterMalloc fresh 100).brk + roundup8 (5000 + sizeof_node_t))).magic
            = FREE ∧
          (s1.mem ((afterMalloc fresh 100).brk + roundup8 (5000 + sizeof_node_t))).size =
            k * 4096 - roundup8 (5000 + sizeof_node_t) - sizeof_node_t ∧
          0 ≤ (s1.mem ((afterMalloc fresh 100).brk + roundup8 (5000 + sizeof_node_t))).size ∧
          blkEnd s1.mem (afterMalloc fresh 100).brk =
            (afterMalloc fresh 100).brk + roundup8 (5000 + sizeof_node_t) ∧
          blkEnd s1.mem ((afterMalloc fresh 100).brk + roundup8 (5000 + sizeof_node_t)) =
            (afterMalloc fresh 100).brk + k * 4096) ∧
      (∀ fuel p s1, mymalloc_sbrk true fuel (afterMalloc fresh 100) 5000 = some (p, s1) →
        s1.brk ≠ (afterMalloc fresh 100).brk →
        s1.brk = (afterMalloc fresh 100).brk + 4096 * k ∧
          ∀ x ∈ [(4224 : Int)], ((afterMalloc fresh 100).mem x).size
            < roundup8 (5000 + sizeof_node_t)) :=
  ⟨afterMalloc100_reachable, noOverflow_small (by decide) (by decide),
    (by unfold ArenaFits; decide), afterMalloc100_freeList, by decide, by decide,
    growth_carves afterMalloc100_reachable (noOverflow_small (by decide) (by decide))
      (by unfold ArenaFits; decide) afterMalloc100_freeList⟩

end MyMem
